import Mathlib

/-!
# A dense matrix type and a multilayer perceptron built on it

Shallow embedding of `headers/Matrix.h`, `headers/MLP.h` and `headers/Complex.h`.

* A C++ exception becomes the `error` side of `Except Err`.
* `std::vector` is a `List`; the unchecked `v[i]` of `std::vector` is undefined
  behaviour past the end, which the embedding records as `Err.pastEnd`.
* `size_t` values are natural numbers; the two places where the source
  subtracts from a `size_t` and can wrap are written with an explicit `% 2^64`.
* The scalar type `T` of the templates is a type with the arithmetic the
  template body uses.  `exp` of `<cmath>` (applied through a conversion to
  `double` and back) is a parameter `exp : T → T`.  The theorems take `T` to be
  a field, where arithmetic is exact; `IeeeDouble` is the instance `double` with
  its infinities and NaN, for the one place where a quotient by zero shows.
-/

namespace MLPSpec

/-- The failures of the numeric core: `std::out_of_range`,
`std::invalid_argument`, and an unchecked read or write past the end of a
`std::vector` (undefined behaviour in the source). -/
inductive Err where
  | outOfRange
  | invalidArgument
  | pastEnd
deriving DecidableEq, Repr

instance {α : Type} [DecidableEq α] : DecidableEq (Except Err α) := fun a b =>
  match a, b with
  | .ok x, .ok y =>
    if h : x = y then isTrue (by rw [h]) else isFalse (fun e => h (by cases e; rfl))
  | .error x, .error y =>
    if h : x = y then isTrue (by rw [h]) else isFalse (fun e => h (by cases e; rfl))
  | .ok _, .error _ => isFalse (fun e => by cases e)
  | .error _, .ok _ => isFalse (fun e => by cases e)

/-- A counted loop `for (size_t i = start; i < start + fuel; ++i) s = body(i, s)`
in which an exception thrown by the body leaves the loop. -/
def forLoopFrom {σ : Type} (body : Nat → σ → Except Err σ) : Nat → Nat → σ → Except Err σ
  | 0, _, s => .ok s
  | fuel + 1, i, s =>
    match body i s with
    | .error e => .error e
    | .ok s1 => forLoopFrom body fuel (i + 1) s1

/-- The loop `for (size_t i = 0; i < n; ++i) s = body(i, s)`. -/
def forLoop {σ : Type} (n : Nat) (body : Nat → σ → Except Err σ) (s : σ) : Except Err σ :=
  forLoopFrom body n 0 s

/-- A counted loop whose body may `break`: the body returns the new state and
whether it left the loop. -/
def forLoopBreakFrom {σ : Type} (body : Nat → σ → Except Err (σ × Bool)) :
    Nat → Nat → σ → Except Err σ
  | 0, _, s => .ok s
  | fuel + 1, i, s =>
    match body i s with
    | .error e => .error e
    | .ok (s1, true) => .ok s1
    | .ok (s1, false) => forLoopBreakFrom body fuel (i + 1) s1

/-- The loop `for (size_t i = 0; i < n; ++i) { ...; break; ... }`. -/
def forLoopBreak {σ : Type} (n : Nat) (body : Nat → σ → Except Err (σ × Bool)) (s : σ) :
    Except Err σ :=
  forLoopBreakFrom body n 0 s

/-- The loop `for (int i = start; i >= 0; --i) s = body(i, s)`: it runs for
`i = start, start - 1, ..., 0` and not at all when `start` is negative. -/
def forLoopDown {σ : Type} (start : Int) (body : Nat → σ → Except Err σ) (s : σ) :
    Except Err σ :=
  forLoop (start + 1).toNat (fun n s => body ((start + 1).toNat - 1 - n) s) s

/-- Unchecked `v[i]` of a `std::vector`. -/
def idx {α : Type} (v : List α) (i : Nat) : Except Err α :=
  match v[i]? with
  | some a => .ok a
  | none => .error .pastEnd

/-- Unchecked assignment `v[i] = a` of a `std::vector`. -/
def assignAt {α : Type} (v : List α) (i : Nat) (a : α) : Except Err (List α) :=
  if i < v.length then .ok (v.set i a) else .error .pastEnd

/-- Conversion of a `size_t` to `int` (two's complement, 32 bits). -/
@[irreducible] def sizeToInt (n : Nat) : Int :=
  if n % 2 ^ 32 < 2 ^ 31 then ((n % 2 ^ 32 : Nat) : Int) else ((n % 2 ^ 32 : Nat) : Int) - 2 ^ 32

/-- Conversion of an `int` to `size_t` (64 bits). -/
@[irreducible] def intToSize (x : Int) : Nat :=
  (x % 2 ^ 64).toNat

/-- Subtraction of two `size_t` values, wrapping modulo `2^64`. -/
@[irreducible] def sizeSub (a b : Nat) : Nat :=
  (a + 2 ^ 64 - b % 2 ^ 64) % 2 ^ 64

/-- The class `Matrix<T>`: the backing storage and the two dimension fields. -/
structure Matrix (T : Type) where
  data : List (List T)
  rows : Nat
  cols : Nat
deriving DecidableEq, Repr

namespace Matrix

variable {T : Type}

/-- The default constructor `Matrix()`. -/
def empty : Matrix T :=
  ⟨[], 0, 0⟩

/-- The constructor `Matrix(size_t r, size_t c)`: `r` rows of `c` copies of `T{}`. -/
def ofSize [Zero T] (r c : Nat) : Matrix T :=
  ⟨List.replicate r (List.replicate c 0), r, c⟩

/-- The data-model invariant: `rows` rows are stored and each has `cols` elements. -/
def WF (m : Matrix T) : Prop :=
  m.data.length = m.rows ∧ ∀ r ∈ m.data, r.length = m.cols

instance (m : Matrix T) : Decidable m.WF := by
  unfold WF; infer_instance

/-- The stored element `data[i][j]`, with `T{}` where nothing is stored; used
to state properties, never executed by the program. -/
def entry [Zero T] (m : Matrix T) (i j : Nat) : T :=
  (m.data.getD i []).getD j 0

/-- The unchecked read `data[i][j]`. -/
def raw (m : Matrix T) (i j : Nat) : Except Err T :=
  match m.data[i]? with
  | none => .error .pastEnd
  | some r =>
    match r[j]? with
    | none => .error .pastEnd
    | some v => .ok v

/-- The unchecked write `data[i][j] = value`. -/
def rawSet (m : Matrix T) (i j : Nat) (value : T) : Except Err (Matrix T) :=
  match m.data[i]? with
  | none => .error .pastEnd
  | some r =>
    if j < r.length then .ok { m with data := m.data.set i (r.set j value) }
    else .error .pastEnd

/-- The element access `operator()(row, col)`. -/
def get (m : Matrix T) (row col : Nat) : Except Err T :=
  if row ≥ m.rows ∨ col ≥ m.cols then .error .outOfRange
  else m.raw row col

/-- The method `set(row, col, value)`: the outcome of the call together with
the matrix as it is after the call, also when the call throws. -/
def set (m : Matrix T) (row col : Nat) (value : T) : Except Err Unit × Matrix T :=
  if row ≥ m.rows ∨ col ≥ m.cols then (.error .outOfRange, m)
  else
    match m.rawSet row col value with
    | .error e => (.error e, m)
    | .ok m1 => (.ok (), m1)

/-- A call `result.set(row, col, value)` on a local matrix: the updated local,
or the exception that ends the enclosing function. -/
def setE (m : Matrix T) (row col : Nat) (value : T) : Except Err (Matrix T) :=
  match m.set row col value with
  | (.error e, _) => .error e
  | (.ok _, m1) => .ok m1

/-- The loop nest shared by the operators:
`Matrix result(r, c); for i < r, for j < c: result.set(i, j, f(i, j)); return result`. -/
def build [Zero T] (r c : Nat) (f : Nat → Nat → Except Err T) : Except Err (Matrix T) :=
  forLoop r (fun i result =>
    forLoop c (fun j result => do
      let v ← f i j
      result.setE i j v) result) (ofSize r c)

/-- The operator `operator+`. -/
def add [Zero T] [Add T] (self other : Matrix T) : Except Err (Matrix T) :=
  if self.rows ≠ other.rows ∨ self.cols ≠ other.cols then .error .invalidArgument
  else build self.rows self.cols (fun i j => do
    let a ← self.raw i j
    let b ← other.get i j
    pure (a + b))

/-- The operator `operator-`. -/
def sub [Zero T] [Sub T] (self other : Matrix T) : Except Err (Matrix T) :=
  if self.rows ≠ other.rows ∨ self.cols ≠ other.cols then .error .invalidArgument
  else build self.rows self.cols (fun i j => do
    let a ← self.raw i j
    let b ← other.get i j
    pure (a - b))

/-- The operator `operator*(Matrix)`. -/
def mul [Zero T] [Add T] [Mul T] (self other : Matrix T) : Except Err (Matrix T) :=
  if self.cols ≠ other.rows then .error .invalidArgument
  else build self.rows other.cols (fun i j =>
    forLoop self.cols (fun k sum => do
      let a ← self.raw i k
      let b ← other.get k j
      pure (sum + a * b)) 0)

/-- The operator `operator*(T scalar)`. -/
def smul [Zero T] [Mul T] (self : Matrix T) (scalar : T) : Except Err (Matrix T) :=
  build self.rows self.cols (fun i j => do
    let a ← self.raw i j
    pure (a * scalar))

/-- The method `randomize`: every stored element is overwritten, in row-major
order, by the next value of `draws`, the sequence the generator of this call
produces. -/
def randomize (m : Matrix T) (draws : Nat → T) : Except Err (Matrix T) :=
  forLoop m.rows (fun i m1 =>
    forLoop m.cols (fun j m1 => m1.rawSet i j (draws (i * m.cols + j))) m1) m

/-- The constructor `Matrix(vector<vector<T>> input)`: the storage is the
argument as given, `rows` its length and `cols` the length of its first row
(`0` when there is no row).  The source does not compare the inner lengths. -/
def ofNested (input : List (List T)) : Matrix T :=
  ⟨input, input.length, if input.length > 0 then (input.getD 0 []).length else 0⟩

/-- The constructor `Matrix(vector<T> vec, bool column)`. -/
def ofVector [Zero T] (vec : List T) (column : Bool) : Except Err (Matrix T) :=
  if column then
    forLoop vec.length (fun i m => do
      let v ← idx vec i
      m.rawSet i 0 v) ⟨List.replicate vec.length [0], vec.length, 1⟩
  else .ok ⟨List.replicate 1 vec, 1, vec.length⟩

/-- The method `toVector`: the stored elements in row-major order. -/
def toVector (m : Matrix T) : Except Err (List T) :=
  forLoop m.rows (fun i result =>
    forLoop m.cols (fun j result => do
      let v ← m.raw i j
      pure (result ++ [v])) result) []

/-- The matrix with `r` rows and `c` columns whose element `(i, j)` is `g i j`;
used to state what the operators return. -/
def tab (r c : Nat) (g : Nat → Nat → T) : Matrix T :=
  ⟨(List.range r).map (fun i => (List.range c).map (fun j => g i j)), r, c⟩

/-- The matrix `m` with the element `(j, k)` replaced by `v`, in mathematical
terms. -/
def withEntry [Zero T] (m : Matrix T) (j k : Nat) (v : T) : Matrix T :=
  tab m.rows m.cols (fun a b => if a = j ∧ b = k then v else m.entry a b)

end Matrix

/-- The class `MLP<T>`. -/
structure MLP (T : Type) where
  weights : List (Matrix T)
  biases : List (Matrix T)
  layerSizes : List Int
  learningRate : T
deriving DecidableEq

/-- The call `v.back()` of a `std::vector`. -/
def back {α : Type} (v : List α) : Except Err α :=
  match v.getLast? with
  | some a => .ok a
  | none => .error .pastEnd

namespace MLP

variable {T : Type}

/-- The private method `sigmoid`; `exp` is the exponential of `<cmath>`. -/
def sigmoid [Zero T] [One T] [Add T] [Neg T] [Div T] (exp : T → T) (input : Matrix T) :
    Except Err (Matrix T) :=
  Matrix.build input.rows input.cols (fun i j => do
    let x ← input.get i j
    pure (1 / (1 + exp (-x))))

/-- The private method `sigmoidDerivative`. -/
def sigmoidDerivative [Field T] (sigmoid_output : Matrix T) : Except Err (Matrix T) :=
  Matrix.build sigmoid_output.rows sigmoid_output.cols (fun i j => do
    let s ← sigmoid_output.get i j
    pure (s * (1 - s)))

/-- The constructor `MLP(layers, lr)`.  Call number `n` of `randomize` draws
the sequence `rng n`. -/
def new [Zero T] (layers : List Int) (lr : T) (rng : Nat → Nat → T) : Except Err (MLP T) := do
  let (weights, biases) ← forLoop (sizeSub layers.length 1) (fun i (weights, biases) => do
    let l1 ← idx layers (i + 1)
    let l0 ← idx layers i
    let w : Matrix T := Matrix.ofSize (intToSize l1) (intToSize l0)
    let b : Matrix T := Matrix.ofSize (intToSize l1) 1
    let w ← w.randomize (rng (2 * i))
    let b ← b.randomize (rng (2 * i + 1))
    pure (weights ++ [w], biases ++ [b])) (([] : List (Matrix T)), ([] : List (Matrix T)))
  pure ⟨weights, biases, layers, lr⟩

/-- The method `forward`: the returned activation and the network after the call. -/
def forward [Zero T] [One T] [Add T] [Neg T] [Mul T] [Div T] (exp : T → T) (self : MLP T)
    (input : Matrix T) :
    Except Err (Matrix T × MLP T) := do
  let activation ← forLoop self.weights.length (fun i activation => do
    let w ← idx self.weights i
    let prod ← w.mul activation
    let b ← idx self.biases i
    let linear ← prod.add b
    sigmoid exp linear) input
  pure (activation, self)

/-- The loops `for i, for j: totalLoss += error(i, j) * error(i, j)` of
`trainWithValidation` and of `evaluate`. -/
def addSquaredError [Add T] [Mul T] (error : Matrix T) (totalLoss : T) : Except Err T :=
  forLoop error.rows (fun i totalLoss =>
    forLoop error.cols (fun j totalLoss => do
      let e1 ← error.get i j
      let e2 ← error.get i j
      pure (totalLoss + e1 * e2)) totalLoss) totalLoss

/-- The method `evaluate`: the returned loss and the network after the call. -/
def evaluate [Zero T] [One T] [Add T] [Sub T] [Neg T] [Mul T] [Div T] [NatCast T] (exp : T → T)
    (self : MLP T) (testInputs testTargets : List (Matrix T)) :
    Except Err (T × MLP T) := do
  let (totalLoss, self) ← forLoop testInputs.length (fun sample (totalLoss, self) => do
    let input ← idx testInputs sample
    let (output, self) ← forward exp self input
    let target ← idx testTargets sample
    let error ← output.sub target
    let totalLoss ← addSquaredError error totalLoss
    pure (totalLoss, self)) ((0 : T), self)
  pure (totalLoss * (1 / (testInputs.length : T)), self)

/-- The method `calculateAccuracy`: the returned fraction and the network after
the call.  `T(0.1)` is one tenth. -/
def calculateAccuracy [LinearOrderedField T] (exp : T → T) (self : MLP T)
    (testInputs testTargets : List (Matrix T)) (threshold : T) : Except Err (T × MLP T) := do
  let (correct, self) ← forLoop testInputs.length (fun sample (correct, self) => do
    let input ← idx testInputs sample
    let (output, self) ← forward exp self input
    let allCorrect ← forLoopBreak output.rows (fun i allCorrect => do
      let o ← output.get i 0
      let predicted : T := if o > threshold then 1 else 0
      let target ← (← idx testTargets sample).get i 0
      if |predicted - target| > 1 / 10 then pure (false, true)
      else pure (allCorrect, false)) true
    if allCorrect then pure (correct + 1, self) else pure (correct, self)) ((0 : T), self)
  pure (correct * (1 / (testInputs.length : T)), self)

/-- Lines 81-92 of `trainWithValidation`: the forward pass of one sample, which
caches every activation (the input first) and every linear output. -/
def forwardCache [Field T] (exp : T → T) (self : MLP T) (input : Matrix T) :
    Except Err (List (Matrix T) × List (Matrix T)) := do
  let (_, activations, linearOutputs) ← forLoop self.weights.length
    (fun i (activation, activations, linearOutputs) => do
      let w ← idx self.weights i
      let prod ← w.mul activation
      let b ← idx self.biases i
      let linear ← prod.add b
      let activation ← sigmoid exp linear
      pure (activation, activations ++ [activation], linearOutputs ++ [linear]))
    (input, [input], ([] : List (Matrix T)))
  pure (activations, linearOutputs)

/-- Lines 101-122 of `trainWithValidation`: the deltas of one sample, the output
layer first and then the earlier layers from the second-to-last down to 0. -/
def backward [Field T] (self : MLP T) (activations : List (Matrix T)) (error : Matrix T) :
    Except Err (List (Matrix T)) := do
  let deltas : List (Matrix T) := List.replicate self.weights.length Matrix.empty
  let outputSigmoidDeriv ← sigmoidDerivative (← back activations)
  let deltas ← assignAt deltas (sizeSub deltas.length 1) (Matrix.ofSize error.rows error.cols)
  let deltas ← forLoop error.rows (fun i deltas =>
    forLoop error.cols (fun j deltas => do
      let e ← error.get i j
      let d ← outputSigmoidDeriv.get i j
      let dl ← idx deltas (sizeSub deltas.length 1)
      let dl ← dl.setE i j (2 * e * d)
      assignAt deltas (sizeSub deltas.length 1) dl) deltas) deltas
  forLoopDown (sizeToInt (sizeSub self.weights.length 2)) (fun i deltas => do
    let sigmoidDeriv ← sigmoidDerivative (← idx activations (i + 1))
    let deltas ← assignAt deltas i (Matrix.ofSize (← idx self.weights (i + 1)).cols 1)
    forLoop (← idx deltas i).rows (fun j deltas => do
      let sum ← forLoop (← idx self.weights (i + 1)).rows (fun k sum => do
        let w ← (← idx self.weights (i + 1)).get k j
        let d ← (← idx deltas (i + 1)).get k 0
        pure (sum + w * d)) (0 : T)
      let sd ← sigmoidDeriv.get j 0
      let di ← idx deltas i
      let di ← di.setE j 0 (sum * sd)
      assignAt deltas i di) deltas) deltas

/-- Lines 124-132 of `trainWithValidation`: one sample is added to the gradient
accumulators. -/
def accumulate [Field T] (self : MLP T) (activations deltas : List (Matrix T))
    (weightGradients biasGradients : List (Matrix T)) :
    Except Err (List (Matrix T) × List (Matrix T)) :=
  forLoop self.weights.length (fun i (wg, bg) => do
    forLoop (← idx self.weights i).rows (fun j (wg, bg) => do
      let wg ← forLoop (← idx self.weights i).cols (fun k wg => do
        let d ← (← idx deltas i).get j 0
        let a ← (← idx activations i).get k 0
        let gradient := d * a
        let g ← idx wg i
        let old ← g.get j k
        let g ← g.setE j k (old + gradient)
        assignAt wg i g) wg
      let b ← idx bg i
      let old ← b.get j 0
      let d ← (← idx deltas i).get j 0
      let b ← b.setE j 0 (old + d)
      let bg ← assignAt bg i b
      pure (wg, bg)) (wg, bg)) (weightGradients, biasGradients)

/-- Lines 135-145 of `trainWithValidation`: the parameter update from the
accumulated gradients of `n` samples. -/
def update [Field T] (self : MLP T) (weightGradients biasGradients : List (Matrix T))
    (n : Nat) : Except Err (MLP T) :=
  let sampleCount : T := (n : T)
  forLoop self.weights.length (fun i self => do
    forLoop (← idx self.weights i).rows (fun j self => do
      let self ← forLoop (← idx self.weights i).cols (fun k self => do
        let g ← (← idx weightGradients i).get j k
        let avgGradient := g * (1 / sampleCount)
        let w ← idx self.weights i
        let old ← w.get j k
        let w ← w.setE j k (old - self.learningRate * avgGradient)
        let ws ← assignAt self.weights i w
        pure { self with weights := ws }) self
      let g ← (← idx biasGradients i).get j 0
      let avgBiasGradient := g * (1 / sampleCount)
      let b ← idx self.biases i
      let old ← b.get j 0
      let b ← b.setE j 0 (old - self.learningRate * avgBiasGradient)
      let bs ← assignAt self.biases i b
      pure { self with biases := bs }) self) self

/-- Lines 70-145 of `trainWithValidation`, the body of the epoch loop up to the
parameter update: the network after the update and the summed squared error. -/
def epochStep [Field T] (exp : T → T) (self : MLP T) (trainInputs trainTargets : List (Matrix T)) :
    Except Err (MLP T × T) := do
  let (weightGradients, biasGradients) ← forLoop self.weights.length (fun i (wg, bg) => do
    let w ← idx self.weights i
    let b ← idx self.biases i
    pure (wg ++ [Matrix.ofSize w.rows w.cols], bg ++ [Matrix.ofSize b.rows b.cols]))
    (([] : List (Matrix T)), ([] : List (Matrix T)))
  let (totalLoss, weightGradients, biasGradients) ← forLoop trainInputs.length
    (fun sample (totalLoss, wg, bg) => do
      let input ← idx trainInputs sample
      let (activations, _) ← forwardCache exp self input
      let error ← (← back activations).sub (← idx trainTargets sample)
      let totalLoss ← addSquaredError error totalLoss
      let deltas ← backward self activations error
      let (wg, bg) ← accumulate self activations deltas wg bg
      pure (totalLoss, wg, bg)) ((0 : T), weightGradients, biasGradients)
  let self ← update self weightGradients biasGradients trainInputs.length
  pure (self, totalLoss)

/-- The method `trainWithValidation`: the network after the call and the
lines written to the output, each an epoch number with the training loss and
the validation loss printed for it. -/
def trainWithValidation [Field T] (exp : T → T) (self : MLP T)
    (trainInputs trainTargets valInputs valTargets : List (Matrix T)) (epochs : Int)
    (verbose : Bool) : Except Err (MLP T × List (Nat × T × T)) :=
  forLoop epochs.toNat (fun epoch (self, out) => do
    let (self, totalLoss) ← epochStep exp self trainInputs trainTargets
    if verbose && epoch % 100 == 0 then
      let trainLoss := totalLoss * (1 / (trainInputs.length : T))
      let (valLoss, self) ← evaluate exp self valInputs valTargets
      pure (self, out ++ [(epoch, trainLoss, valLoss)])
    else pure (self, out)) (self, ([] : List (Nat × T × T)))

/-! ### Well-formedness and the mathematical description of the passes -/

/-- The weight matrix of layer `i` (the empty matrix when there is none). -/
def W (n : MLP T) (i : Nat) : Matrix T :=
  n.weights.getD i Matrix.empty

/-- The bias matrix of layer `i` (the empty matrix when there is none). -/
def B (n : MLP T) (i : Nat) : Matrix T :=
  n.biases.getD i Matrix.empty

/-- The number of weight matrices. -/
def depth (n : MLP T) : Nat :=
  n.weights.length

/-- The size of layer `i` as a natural number. -/
def dim (n : MLP T) (i : Nat) : Nat :=
  (n.layerSizes.getD i 0).toNat

/-- The invariant of the data model: one weight and one bias matrix per pair of
consecutive layers, `weights[i]` of shape `layerSizes[i+1] x layerSizes[i]` and
`biases[i]` of shape `layerSizes[i+1] x 1`, each a well-formed matrix. -/
def WF (n : MLP T) : Prop :=
  n.weights.length = n.layerSizes.length - 1 ∧
  n.biases.length = n.layerSizes.length - 1 ∧
  ∀ i, i < n.layerSizes.length - 1 →
    (n.W i).WF ∧ (n.B i).WF ∧
    ((n.W i).rows : Int) = n.layerSizes.getD (i + 1) 0 ∧
    ((n.W i).cols : Int) = n.layerSizes.getD i 0 ∧
    ((n.B i).rows : Int) = n.layerSizes.getD (i + 1) 0 ∧
    (n.B i).cols = 1

instance (n : MLP T) : Decidable n.WF := by
  unfold WF; infer_instance

end MLP

/-- A well-formed column with `r` rows. -/
def IsCol {T : Type} (m : Matrix T) (r : Nat) : Prop :=
  m.WF ∧ m.rows = r ∧ m.cols = 1

instance {T : Type} (m : Matrix T) (r : Nat) : Decidable (IsCol m r) := by
  unfold IsCol; infer_instance

/-- A data set for a network: as many targets as inputs, every input a column
of `layerSizes[0]` rows and every target a column of `layerSizes.last` rows. -/
def ValidData {T : Type} (n : MLP T) (inputs targets : List (Matrix T)) : Prop :=
  inputs.length = targets.length ∧
  (∀ x ∈ inputs, IsCol x (n.dim 0)) ∧
  (∀ t ∈ targets, IsCol t (n.dim n.depth))

instance {T : Type} (n : MLP T) (inputs targets : List (Matrix T)) :
    Decidable (ValidData n inputs targets) := by
  unfold ValidData; infer_instance

namespace MLP

variable {T : Type}

/-- The scalar sigmoid `1 / (1 + exp(-x))`. -/
def sig [Field T] (exp : T → T) (x : T) : T :=
  1 / (1 + exp (-x))

/-- One layer in mathematical terms: the column `sigmoid(w * a + b)`, whose
element `j` is `sig (sum over k of w(j,k) * a(k) + b(j))`. -/
def specLayer [Field T] (exp : T → T) (w b a : Matrix T) : Matrix T :=
  Matrix.tab w.rows 1 (fun j _ =>
    sig exp (∑ k ∈ Finset.range w.cols, w.entry j k * a.entry k 0 + b.entry j 0))

/-- The activations in mathematical terms: `a_0 = input` and
`a_(i+1) = sigmoid(weights[i] * a_i + biases[i])`. -/
def specAct [Field T] (exp : T → T) (n : MLP T) (input : Matrix T) : Nat → Matrix T
  | 0 => input
  | i + 1 => specLayer exp (n.W i) (n.B i) (specAct exp n input i)

/-- The delta of the output layer in mathematical terms:
`2 * (a(j) - target(j)) * (a(j) * (1 - a(j)))` for the final activation `a`. -/
def specOutputDelta [Field T] (a target : Matrix T) : Matrix T :=
  Matrix.tab a.rows 1 (fun j _ =>
    2 * (a.entry j 0 - target.entry j 0) * (a.entry j 0 * (1 - a.entry j 0)))

/-- The delta of an earlier layer in mathematical terms, from the weights `w`
and the delta `d` of the layer after it and the activation `a` between them:
`(sum over k of w(k,j) * d(k)) * (a(j) * (1 - a(j)))`. -/
def specHiddenDelta [Field T] (w a d : Matrix T) : Matrix T :=
  Matrix.tab w.cols 1 (fun j _ =>
    (∑ k ∈ Finset.range w.rows, w.entry k j * d.entry k 0) * (a.entry j 0 * (1 - a.entry j 0)))

/-- The deltas counted from the output layer: number `0` is the delta of the
last layer, number `d + 1` the delta of the layer before the one of number `d`. -/
def specDeltaRev [Field T] (exp : T → T) (n : MLP T) (input target : Matrix T) : Nat → Matrix T
  | 0 => specOutputDelta (specAct exp n input n.depth) target
  | d + 1 => specHiddenDelta (n.W (n.depth - 1 - d)) (specAct exp n input (n.depth - 1 - d))
      (specDeltaRev exp n input target d)

/-- The delta of layer `i` in mathematical terms. -/
def specDelta [Field T] (exp : T → T) (n : MLP T) (input target : Matrix T) (i : Nat) : Matrix T :=
  specDeltaRev exp n input target (n.depth - 1 - i)

/-- The summed squared error of one sample in mathematical terms. -/
def specSampleLoss [Field T] (exp : T → T) (n : MLP T) (input target : Matrix T) : T :=
  ∑ j ∈ Finset.range (n.dim n.depth),
    ((specAct exp n input n.depth).entry j 0 - target.entry j 0) ^ 2

/-- The mean squared error of a data set in mathematical terms. -/
def specMSE [Field T] (exp : T → T) (n : MLP T) (inputs targets : List (Matrix T)) : T :=
  (∑ s ∈ Finset.range inputs.length,
    specSampleLoss exp n (inputs.getD s Matrix.empty) (targets.getD s Matrix.empty)) /
      (inputs.length : T)

/-- The accumulated gradient of the weight `(j, k)` of layer `i` in mathematical
terms: the sum over the samples of `delta_i(j) * activation_i(k)`, every delta
and activation computed from the parameters of `n`. -/
def specWeightGradient [Field T] (exp : T → T) (n : MLP T) (inputs targets : List (Matrix T))
    (i j k : Nat) : T :=
  ∑ s ∈ Finset.range inputs.length,
    (specDelta exp n (inputs.getD s Matrix.empty) (targets.getD s Matrix.empty) i).entry j 0 *
      (specAct exp n (inputs.getD s Matrix.empty) i).entry k 0

/-- The accumulated gradient of the bias `j` of layer `i` in mathematical terms:
the sum over the samples of `delta_i(j)`. -/
def specBiasGradient [Field T] (exp : T → T) (n : MLP T) (inputs targets : List (Matrix T))
    (i j : Nat) : T :=
  ∑ s ∈ Finset.range inputs.length,
    (specDelta exp n (inputs.getD s Matrix.empty) (targets.getD s Matrix.empty) i).entry j 0

/-- One epoch in mathematical terms: every weight and every bias loses
`learningRate * (accumulated gradient * (1 / sampleCount))`. -/
def specEpoch [Field T] (exp : T → T) (n : MLP T) (inputs targets : List (Matrix T)) : MLP T :=
  { n with
    weights := (List.range n.depth).map (fun i =>
      Matrix.tab (n.W i).rows (n.W i).cols (fun j k =>
        (n.W i).entry j k - n.learningRate *
          (specWeightGradient exp n inputs targets i j k * (1 / (inputs.length : T)))))
    biases := (List.range n.depth).map (fun i =>
      Matrix.tab (n.B i).rows 1 (fun j _ =>
        (n.B i).entry j 0 - n.learningRate *
          (specBiasGradient exp n inputs targets i j * (1 / (inputs.length : T))))) }

/-- The network after `e` epochs in mathematical terms. -/
def specTrain [Field T] (exp : T → T) (n : MLP T) (inputs targets : List (Matrix T)) :
    Nat → MLP T
  | 0 => n
  | e + 1 => specEpoch exp (specTrain exp n inputs targets e) inputs targets

/-- The summed squared error of a data set in mathematical terms. -/
def specTotalLoss [Field T] (exp : T → T) (n : MLP T) (inputs targets : List (Matrix T)) : T :=
  ∑ s ∈ Finset.range inputs.length, ∑ i ∈ Finset.range (n.dim n.depth), ∑ j ∈ Finset.range 1,
    ((specAct exp n (inputs.getD s Matrix.empty) n.depth).entry i j -
      (targets.getD s Matrix.empty).entry i j) ^ 2

/-- The progress lines of the first `e` epochs in mathematical terms: when
`verbose` holds, every epoch whose number is a multiple of 100 writes its number,
the summed squared error of the training set under the parameters before the
update of that epoch times `1 / sampleCount`, and the mean squared error of the
validation set under the parameters after that update. -/
def specLog [Field T] (exp : T → T) (n : MLP T) (trainInputs trainTargets valInputs
    valTargets : List (Matrix T)) (verbose : Bool) : Nat → List (Nat × T × T)
  | 0 => []
  | e + 1 =>
    specLog exp n trainInputs trainTargets valInputs valTargets verbose e ++
      (if verbose && e % 100 == 0 then
        [(e, specTotalLoss exp (specTrain exp n trainInputs trainTargets e) trainInputs
              trainTargets * (1 / (trainInputs.length : T)),
            specTotalLoss exp (specTrain exp n trainInputs trainTargets (e + 1)) valInputs
              valTargets / (valInputs.length : T))]
      else [])

/-- The pre-activation of unit `j` of layer `i + 1` in mathematical terms:
`sum over k of weights[i](j,k) * a_i(k) + biases[i](j)`. -/
def specPre [Field T] (exp : T → T) (n : MLP T) (input : Matrix T) (i j : Nat) : T :=
  ∑ k ∈ Finset.range (n.W i).cols, (n.W i).entry j k * (specAct exp n input i).entry k 0 +
    (n.B i).entry j 0

/-- The summed squared error of one sample as a function of the activation `a`
that enters the last `m` layers of the network. -/
def specLossFrom [Field T] (exp : T → T) (n : MLP T) (target : Matrix T) :
    Nat → Matrix T → T
  | 0, a => ∑ j ∈ Finset.range (n.dim n.depth), (a.entry j 0 - target.entry j 0) ^ 2
  | m + 1, a =>
    specLossFrom exp n target m
      (specLayer exp (n.W (n.depth - 1 - m)) (n.B (n.depth - 1 - m)) a)

/-- The network `n` with the weight matrix and the bias matrix of layer `i`
replaced. -/
def withLayer (n : MLP T) (i : Nat) (w b : Matrix T) : MLP T :=
  { n with weights := n.weights.set i w, biases := n.biases.set i b }

/-- The network `n` with `weights[i](j,k)` replaced by `v`. -/
def withWeight [Zero T] (n : MLP T) (i j k : Nat) (v : T) : MLP T :=
  n.withLayer i ((n.W i).withEntry j k v) (n.B i)

/-- The network `n` with `biases[i](j,0)` replaced by `v`. -/
def withBias [Zero T] (n : MLP T) (i j : Nat) (v : T) : MLP T :=
  n.withLayer i (n.W i) ((n.B i).withEntry j 0 v)

/-- A sample is classified correctly, in mathematical terms: every output unit
`i`, thresholded to `1` when above `threshold` and to `0` otherwise, is within
one tenth of `target(i, 0)`. -/
def specCorrect [LinearOrderedField T] (output target : Matrix T) (threshold : T) : Prop :=
  ∀ i, i < output.rows →
    |(if output.entry i 0 > threshold then (1 : T) else 0) - target.entry i 0| ≤ 1 / 10

instance [LinearOrderedField T] (output target : Matrix T) (threshold : T) :
    Decidable (specCorrect output target threshold) := by
  unfold specCorrect; infer_instance

end MLP

/-! ### The class `ComplexNumber<T>` of `headers/Complex.h` -/

/-- The class `ComplexNumber<T>`: the real and the imaginary component. -/
structure ComplexNumber (T : Type) where
  real : T
  imag : T
deriving DecidableEq, Repr

namespace ComplexNumber

variable {T : Type}

/-- The constructor with its second argument left at the default `T{}`. -/
def ofReal [Zero T] (r : T) : ComplexNumber T :=
  ⟨r, 0⟩

/-- The method `getReal`. -/
def getReal (c : ComplexNumber T) : T :=
  c.real

/-- The method `getImag`. -/
def getImag (c : ComplexNumber T) : T :=
  c.imag

/-- The method `getMagnitude`; `sqrt` of `<cmath>` is a parameter. -/
def getMagnitude [Add T] [Mul T] (sqrt : T → T) (c : ComplexNumber T) : T :=
  sqrt (c.real * c.real + c.imag * c.imag)

/-- The operator `+` of two complex numbers. -/
def add [Add T] (self other : ComplexNumber T) : ComplexNumber T :=
  ⟨self.real + other.real, self.imag + other.imag⟩

/-- The operator `-` of two complex numbers. -/
def sub [Sub T] (self other : ComplexNumber T) : ComplexNumber T :=
  ⟨self.real - other.real, self.imag - other.imag⟩

/-- The operator `*` of two complex numbers. -/
def mul [Add T] [Sub T] [Mul T] (self other : ComplexNumber T) : ComplexNumber T :=
  let newReal := self.real * other.real - self.imag * other.imag
  let newImag := self.real * other.imag + self.imag * other.real
  ⟨newReal, newImag⟩

/-- The operator `*` of a complex number and a bare scalar. -/
def smul [Mul T] (self : ComplexNumber T) (scalar : T) : ComplexNumber T :=
  ⟨self.real * scalar, self.imag * scalar⟩

/-- The operator `+=`: the returned copy and the object after the call. -/
def addAssign [Add T] (self other : ComplexNumber T) : ComplexNumber T × ComplexNumber T :=
  let self : ComplexNumber T := ⟨self.real + other.real, self.imag + other.imag⟩
  (self, self)

/-- The operator `-=`: the returned copy and the object after the call. -/
def subAssign [Sub T] (self other : ComplexNumber T) : ComplexNumber T × ComplexNumber T :=
  let self : ComplexNumber T := ⟨self.real - other.real, self.imag - other.imag⟩
  (self, self)

end ComplexNumber

/-! ### The scalar `double` of `main.cpp` and its special values -/

/-- A value of the scalar `double` with which `main.cpp` instantiates the
templates, as far as the special values of IEEE 754 go: a finite value (a
rational here, rounding is left out and there is one zero, the positive one),
one of the two infinities, or NaN. -/
inductive IeeeDouble where
  | fin (q : ℚ)
  | posInf
  | negInf
  | nan
deriving DecidableEq

namespace IeeeDouble

/-- The unary minus of `double`. -/
def neg : IeeeDouble → IeeeDouble
  | fin q => fin (-q)
  | posInf => negInf
  | negInf => posInf
  | nan => nan

/-- The sum of two `double` values: NaN when an operand is NaN or the operands
are the two different infinities. -/
def add : IeeeDouble → IeeeDouble → IeeeDouble
  | nan, _ => nan
  | _, nan => nan
  | posInf, negInf => nan
  | negInf, posInf => nan
  | posInf, _ => posInf
  | _, posInf => posInf
  | negInf, _ => negInf
  | _, negInf => negInf
  | fin a, fin b => fin (a + b)

/-- The infinity of the sign of `a` times the sign of the infinity `positive`,
NaN when `a` is zero. -/
def scaleInf (a : ℚ) (positive : Bool) : IeeeDouble :=
  if a = 0 then nan else if (0 < a) = (positive = true) then posInf else negInf

/-- The product of two `double` values: NaN when an operand is NaN or the
operands are zero and an infinity. -/
def mul : IeeeDouble → IeeeDouble → IeeeDouble
  | nan, _ => nan
  | _, nan => nan
  | fin a, fin b => fin (a * b)
  | fin a, posInf => scaleInf a true
  | fin a, negInf => scaleInf a false
  | posInf, fin b => scaleInf b true
  | negInf, fin b => scaleInf b false
  | posInf, posInf => posInf
  | negInf, negInf => posInf
  | posInf, negInf => negInf
  | negInf, posInf => negInf

/-- The quotient of two `double` values: a non-zero finite value over zero is
the infinity of its sign, and zero over zero or an infinity over an infinity is
NaN. -/
def div : IeeeDouble → IeeeDouble → IeeeDouble
  | nan, _ => nan
  | _, nan => nan
  | fin a, fin b =>
    if b = 0 then (if a = 0 then nan else if 0 < a then posInf else negInf) else fin (a / b)
  | fin _, posInf => fin 0
  | fin _, negInf => fin 0
  | posInf, fin b => if 0 ≤ b then posInf else negInf
  | negInf, fin b => if 0 ≤ b then negInf else posInf
  | posInf, posInf => nan
  | posInf, negInf => nan
  | negInf, posInf => nan
  | negInf, negInf => nan

instance : Zero IeeeDouble := ⟨fin 0⟩

instance : One IeeeDouble := ⟨fin 1⟩

instance : NatCast IeeeDouble := ⟨fun n => fin n⟩

instance : Neg IeeeDouble := ⟨neg⟩

instance : Add IeeeDouble := ⟨add⟩

instance : Sub IeeeDouble := ⟨fun a b => add a (neg b)⟩

instance : Mul IeeeDouble := ⟨mul⟩

instance : Div IeeeDouble := ⟨div⟩

end IeeeDouble

/-! ### A small network over the rationals, used to instantiate the theorems -/

/-- A network of architecture `[2, 2, 1]` with rational parameters. -/
def exampleNet : MLP ℚ :=
  ⟨[⟨[[1, 2], [0, 1]], 2, 2⟩, ⟨[[1, -1]], 1, 2⟩], [⟨[[0], [1]], 2, 1⟩, ⟨[[1 / 2]], 1, 1⟩],
    [2, 2, 1], 1 / 2⟩

/-- A stand-in for the exponential on the rationals. -/
def exampleExp : ℚ → ℚ :=
  fun x => 1 + x * x

/-- An input column for `exampleNet`. -/
def exampleInput : Matrix ℚ :=
  ⟨[[1], [2]], 2, 1⟩

/-- A target column for `exampleNet`. -/
def exampleTarget : Matrix ℚ :=
  ⟨[[1]], 1, 1⟩

/-- A network of architecture `[2, 1]` with rational parameters. -/
def tinyNet : MLP ℚ :=
  ⟨[⟨[[1, 2]], 1, 2⟩], [⟨[[1]], 1, 1⟩], [2, 1], 1⟩

/-- A second stand-in for the exponential, constant, under which every sigmoid
value is one half. -/
def unitExp : ℚ → ℚ :=
  fun _ => 1

/-- The network `tinyNet` after one epoch on the single sample
`(exampleInput, exampleTarget)` with `unitExp`. -/
def tinyTrained : MLP ℚ :=
  ⟨[⟨[[5 / 4, 5 / 2]], 1, 2⟩], [⟨[[5 / 4]], 1, 1⟩], [2, 1], 1⟩

/-- A network of architecture `[2, 2, 1]` whose weights and biases are all zero. -/
def zeroNet : MLP ℚ :=
  ⟨[⟨[[0, 0], [0, 0]], 2, 2⟩, ⟨[[0, 0]], 1, 2⟩], [⟨[[0], [0]], 2, 1⟩, ⟨[[0]], 1, 1⟩],
    [2, 2, 1], 1 / 2⟩

/-- The network `tinyNet` after two epochs on the single sample
`(exampleInput, exampleTarget)` with `unitExp`. -/
def tinyTrainedTwice : MLP ℚ :=
  ⟨[⟨[[3 / 2, 3]], 1, 2⟩], [⟨[[3 / 2]], 1, 1⟩], [2, 1], 1⟩

/-- A second input column for `tinyNet`. -/
def secondInput : Matrix ℚ :=
  ⟨[[0], [1]], 2, 1⟩

/-- A second target column for `tinyNet`. -/
def secondTarget : Matrix ℚ :=
  ⟨[[0]], 1, 1⟩

/-- A network of architecture `[2, 1]` over `double`. -/
def ieeeNet : MLP IeeeDouble :=
  ⟨[⟨[[.fin 1, .fin 2]], 1, 2⟩], [⟨[[.fin 1]], 1, 1⟩], [2, 1], .fin 1⟩

/-- A stand-in for the exponential on `double`, constant. -/
def ieeeExp : IeeeDouble → IeeeDouble :=
  fun _ => .fin 1

/-- A network of architecture `[2, 1]` over the real numbers. -/
def realNet : MLP ℝ :=
  ⟨[⟨[[1, 2]], 1, 2⟩], [⟨[[1]], 1, 1⟩], [2, 1], 1⟩

/-- An input column for `realNet`. -/
def realInput : Matrix ℝ :=
  ⟨[[1], [2]], 2, 1⟩

/-- A target column for `realNet`. -/
def realTarget : Matrix ℝ :=
  ⟨[[1]], 1, 1⟩

end MLPSpec

namespace MLPSpec

/-! ## Loops and exceptions -/

@[simp] theorem bind_ok_eq {α β : Type} (a : α) (f : α → Except Err β) :
    (bind (Except.ok a) f : Except Err β) = f a := rfl

@[simp] theorem bind_error_eq {α β : Type} (e : Err) (f : α → Except Err β) :
    (bind (Except.error e) f : Except Err β) = Except.error e := rfl

@[simp] theorem pure_eq_ok {α : Type} (a : α) : (pure a : Except Err α) = Except.ok a := rfl

/-- Invariant rule for a counted loop: when every iteration keeps the invariant
and returns, the loop returns in a state satisfying the invariant. -/
theorem forLoopFrom_inv {σ : Type} (body : Nat → σ → Except Err σ) (P : Nat → σ → Prop) :
    ∀ (fuel i : Nat) (s : σ), P i s →
      (∀ k s, i ≤ k → k < i + fuel → P k s → ∃ s1, body k s = .ok s1 ∧ P (k + 1) s1) →
      ∃ s1, forLoopFrom body fuel i s = .ok s1 ∧ P (i + fuel) s1 := by
  intro fuel
  induction fuel with
  | zero => intro i s h _; exact ⟨s, rfl, by simpa using h⟩
  | succ n ih =>
    intro i s h hstep
    obtain ⟨s1, hb, hP⟩ := hstep i s (Nat.le_refl i) (by omega) h
    obtain ⟨s2, hl, hP2⟩ := ih (i + 1) s1 hP (fun k t hk hk2 hPk =>
      hstep k t (by omega) (by omega) hPk)
    refine ⟨s2, ?_, ?_⟩
    · simp only [forLoopFrom, hb]; exact hl
    · have : i + (n + 1) = i + 1 + n := by omega
      rw [this]; exact hP2

theorem forLoop_inv {σ : Type} (n : Nat) (body : Nat → σ → Except Err σ) (P : Nat → σ → Prop)
    (s : σ) (h0 : P 0 s)
    (hstep : ∀ k s, k < n → P k s → ∃ s1, body k s = .ok s1 ∧ P (k + 1) s1) :
    ∃ s1, forLoop n body s = .ok s1 ∧ P n s1 := by
  have := forLoopFrom_inv body P n 0 s h0 (fun k t _ hk hP => hstep k t (by omega) hP)
  simpa [forLoop] using this

/-- A loop whose state at step `k` is a known function of `k`. -/
theorem forLoop_eq {σ : Type} (n : Nat) (body : Nat → σ → Except Err σ) (f : Nat → σ)
    (hstep : ∀ k, k < n → body k (f k) = .ok (f (k + 1))) :
    forLoop n body (f 0) = .ok (f n) := by
  obtain ⟨s1, h, hP⟩ := forLoop_inv n body (fun k s => s = f k) (f 0) rfl
    (fun k s hk hs => ⟨f (k + 1), by rw [hs]; exact hstep k hk, rfl⟩)
  rw [h, hP]

/-- Two loops whose bodies agree on the indices they run over are the same loop. -/
theorem forLoopFrom_congr {σ : Type} (b1 b2 : Nat → σ → Except Err σ) :
    ∀ (fuel i : Nat) (s : σ), (∀ k s, i ≤ k → k < i + fuel → b1 k s = b2 k s) →
      forLoopFrom b1 fuel i s = forLoopFrom b2 fuel i s := by
  intro fuel
  induction fuel with
  | zero => intro i s _; rfl
  | succ n ih =>
    intro i s h
    simp only [forLoopFrom]
    rw [h i s (Nat.le_refl i) (by omega)]
    cases b2 i s with
    | error e => rfl
    | ok s1 => exact ih (i + 1) s1 (fun k t hk hk2 => h k t (by omega) (by omega))

theorem forLoop_congr {σ : Type} (n : Nat) (b1 b2 : Nat → σ → Except Err σ) (s : σ)
    (h : ∀ k s, k < n → b1 k s = b2 k s) : forLoop n b1 s = forLoop n b2 s :=
  forLoopFrom_congr b1 b2 n 0 s (fun k t _ hk => h k t (by omega))

/-- An accumulation loop `for k < n: sum += h k` returns the start value plus
the sum of the terms. -/
theorem forLoop_sum {T : Type} [AddCommMonoid T] (n : Nat) (body : Nat → T → Except Err T)
    (h : Nat → T) (s0 : T) (hstep : ∀ k s, k < n → body k s = .ok (s + h k)) :
    forLoop n body s0 = .ok (s0 + ∑ k ∈ Finset.range n, h k) := by
  have := forLoop_eq n body (fun k => s0 + ∑ i ∈ Finset.range k, h i)
    (fun k hk => by
      show body k (s0 + ∑ i ∈ Finset.range k, h i) =
        Except.ok (s0 + ∑ i ∈ Finset.range (k + 1), h i)
      rw [hstep _ _ hk, Finset.sum_range_succ, add_assoc])
  simpa using this

theorem idx_eq {α : Type} (v : List α) (i : Nat) (h : i < v.length) : idx v i = .ok v[i] := by
  simp [idx, h]

theorem idx_error {α : Type} (v : List α) (i : Nat) (h : v.length ≤ i) :
    idx v i = .error .pastEnd := by
  have hn : v[i]? = none := List.getElem?_eq_none h
  simp [idx, hn]

namespace Matrix

variable {T : Type}

/-! ## Stored elements of a well-formed matrix -/

theorem WF.row_length {m : Matrix T} (h : m.WF) (i : Nat) (hi : i < m.data.length) :
    (m.data[i]).length = m.cols :=
  h.2 _ (List.getElem_mem _)

theorem raw_eq [Zero T] {m : Matrix T} (h : m.WF) {i j : Nat} (hi : i < m.rows)
    (hj : j < m.cols) : m.raw i j = .ok (m.entry i j) := by
  have hi2 : i < m.data.length := by rw [h.1]; exact hi
  have hj2 : j < (m.data[i]).length := by rw [h.row_length i hi2]; exact hj
  simp [raw, entry, hi2, hj2, List.getD_eq_getElem?_getD]

theorem get_eq [Zero T] {m : Matrix T} (h : m.WF) {i j : Nat} (hi : i < m.rows)
    (hj : j < m.cols) : m.get i j = .ok (m.entry i j) := by
  have : ¬ (i ≥ m.rows ∨ j ≥ m.cols) := by omega
  simp only [get, this, if_false]
  exact raw_eq h hi hj

theorem entry_eq_zero_of_rows [Zero T] {m : Matrix T} (h : m.WF) {i : Nat} (j : Nat)
    (hi : m.rows ≤ i) : m.entry i j = 0 := by
  have hi2 : m.data.length ≤ i := by rw [h.1]; exact hi
  have hn : m.data[i]? = none := List.getElem?_eq_none hi2
  simp [entry, List.getD_eq_getElem?_getD, hn]

theorem entry_eq_zero_of_cols [Zero T] {m : Matrix T} (h : m.WF) (i : Nat) {j : Nat}
    (hj : m.cols ≤ j) : m.entry i j = 0 := by
  by_cases hi : i < m.rows
  · have hi2 : i < m.data.length := by rw [h.1]; exact hi
    have hj2 : (m.data[i]).length ≤ j := by rw [h.row_length i hi2]; exact hj
    have hn : (m.data[i])[j]? = none := List.getElem?_eq_none hj2
    simp [entry, List.getD_eq_getElem?_getD, hi2, hn]
  · exact entry_eq_zero_of_rows h j (by omega)

theorem tab_WF (r c : Nat) (g : Nat → Nat → T) : (tab r c g).WF := by
  constructor
  · simp [tab]
  · intro row hrow
    simp only [tab, List.mem_map] at hrow
    obtain ⟨i, _, rfl⟩ := hrow
    simp [tab]

@[simp] theorem tab_rows (r c : Nat) (g : Nat → Nat → T) : (tab r c g).rows = r := rfl

@[simp] theorem tab_cols (r c : Nat) (g : Nat → Nat → T) : (tab r c g).cols = c := rfl

theorem entry_tab [Zero T] (r c : Nat) (g : Nat → Nat → T) {i j : Nat} (hi : i < r)
    (hj : j < c) : (tab r c g).entry i j = g i j := by
  simp [tab, entry, List.getD_eq_getElem?_getD, hi, hj]

/-- A well-formed matrix is determined by its shape and its stored elements. -/
theorem eq_tab [Zero T] {m : Matrix T} (h : m.WF) : m = tab m.rows m.cols m.entry := by
  obtain ⟨data, rows, cols⟩ := m
  obtain ⟨h1, h2⟩ := h
  simp only at h1 h2
  simp only [tab, Matrix.mk.injEq, and_true]
  apply List.ext_getElem
  · simp [h1]
  · intro i hi1 hi2
    have hlen : (data[i]).length = cols := h2 _ (List.getElem_mem _)
    apply List.ext_getElem
    · simp [hlen]
    · intro j hj1 hj2
      simp [entry, List.getD_eq_getElem?_getD, hi1, hj1]

theorem tab_congr (r c : Nat) (g1 g2 : Nat → Nat → T)
    (h : ∀ i j, i < r → j < c → g1 i j = g2 i j) : tab r c g1 = tab r c g2 := by
  simp only [tab, Matrix.mk.injEq, and_true]
  apply List.map_congr_left
  intro i hi
  apply List.map_congr_left
  intro j hj
  exact h i j (List.mem_range.1 hi) (List.mem_range.1 hj)

theorem ext_of_WF [Zero T] {m1 m2 : Matrix T} (h1 : m1.WF) (h2 : m2.WF)
    (hr : m1.rows = m2.rows) (hc : m1.cols = m2.cols)
    (he : ∀ i j, i < m1.rows → j < m1.cols → m1.entry i j = m2.entry i j) : m1 = m2 := by
  rw [eq_tab h1, eq_tab h2, ← hr, ← hc]
  exact tab_congr _ _ _ _ he

theorem ofSize_eq_tab [Zero T] (r c : Nat) : (ofSize r c : Matrix T) = tab r c (fun _ _ => 0) := by
  simp only [ofSize, tab, Matrix.mk.injEq, and_true]
  apply List.ext_getElem <;> simp

/-- Writing one element of a tabulated matrix. -/
theorem set_tab (r c : Nat) (g : Nat → Nat → T) {i j : Nat} (hi : i < r) (hj : j < c)
    (v : T) :
    (tab r c g).set i j v =
      (.ok (), tab r c (fun a b => if a = i ∧ b = j then v else g a b)) := by
  have hb : ¬ (i ≥ (tab r c g).rows ∨ j ≥ (tab r c g).cols) := by simp; omega
  simp only [set, hb, if_false]
  have hdata : (tab r c g).data[i]? = some ((List.range c).map (fun b => g i b)) := by
    simp [tab, hi]
  simp only [rawSet, hdata, List.length_map, List.length_range, hj, if_true]
  congr 1
  simp only [tab, Matrix.mk.injEq, and_true]
  apply List.ext_getElem
  · simp
  · intro a ha1 ha2
    simp only [List.length_map, List.length_range] at ha2
    by_cases hai : a = i
    · subst hai
      simp only [List.getElem_set_self, List.getElem_map, List.getElem_range]
      apply List.ext_getElem
      · simp
      · intro b hb1 hb2
        simp only [List.length_map, List.length_range] at hb2
        by_cases hbj : b = j
        · subst hbj; simp
        · have : ¬ j = b := fun h => hbj h.symm
          simp [List.getElem_set_ne this, hbj]
    · have : ¬ i = a := fun h => hai h.symm
      simp [List.getElem_set_ne this, hai]

theorem setE_tab (r c : Nat) (g : Nat → Nat → T) {i j : Nat} (hi : i < r) (hj : j < c)
    (v : T) :
    (tab r c g).setE i j v = .ok (tab r c (fun a b => if a = i ∧ b = j then v else g a b)) := by
  simp [setE, set_tab r c g hi hj v]

/-- The loop nest `build` returns the tabulated matrix when every element
computation returns. -/
theorem build_eq [Zero T] (r c : Nat) (f : Nat → Nat → Except Err T) (g : Nat → Nat → T)
    (h : ∀ i j, i < r → j < c → f i j = .ok (g i j)) : build r c f = .ok (tab r c g) := by
  have inner : ∀ i, i < r →
      forLoop c (fun j result => do
        let v ← f i j
        result.setE i j v) (tab r c (fun a b => if a < i then g a b else 0)) =
      .ok (tab r c (fun a b => if a < i + 1 then g a b else 0)) := by
    intro i hi
    have := forLoop_eq c (fun j result => do
        let v ← f i j
        result.setE i j v)
      (fun k => tab r c (fun a b => if a < i ∨ (a = i ∧ b < k) then g a b else 0))
      (fun k hk => by
        simp only [h i k hi hk, bind_ok_eq]
        rw [setE_tab r c _ hi hk]
        congr 1
        apply tab_congr
        intro a b _ _
        by_cases h1 : a = i ∧ b = k
        · obtain ⟨rfl, rfl⟩ := h1; simp
        · have h2 : (a < i ∨ a = i ∧ b < k + 1) ↔ (a < i ∨ a = i ∧ b < k) := by omega
          simp only [h1, if_false, h2])
    have e0 : tab r c (fun a b => if a < i ∨ (a = i ∧ b < 0) then g a b else 0) =
        tab r c (fun a b => if a < i then g a b else 0) := by
      apply tab_congr; intro a b _ _; simp
    have e1 : tab r c (fun a b => if a < i ∨ (a = i ∧ b < c) then g a b else 0) =
        tab r c (fun a b => if a < i + 1 then g a b else 0) := by
      apply tab_congr; intro a b _ hb
      have : (a < i ∨ a = i ∧ b < c) ↔ a < i + 1 := by omega
      simp only [this]
    simp only [] at this
    rw [e0, e1] at this
    exact this
  have outer := forLoop_eq r (fun i result =>
      forLoop c (fun j result => do
        let v ← f i j
        result.setE i j v) result)
    (fun k => tab r c (fun a b => if a < k then g a b else 0))
    (fun k hk => inner k hk)
  have e0 : tab r c (fun a b => if a < 0 then g a b else (0 : T)) = ofSize r c := by
    rw [ofSize_eq_tab]; apply tab_congr; intro a b _ _; simp
  have e1 : tab r c (fun a b => if a < r then g a b else (0 : T)) = tab r c g := by
    apply tab_congr; intro a b ha _; simp [ha]
  simp only [] at outer
  rw [e0, e1] at outer
  exact outer

end Matrix

end MLPSpec

namespace MLPSpec

namespace Matrix

variable {T : Type}

theorem set_eq [Zero T] {m : Matrix T} (h : m.WF) {i j : Nat} (hi : i < m.rows)
    (hj : j < m.cols) (v : T) :
    m.set i j v =
      (.ok (), tab m.rows m.cols (fun a b => if a = i ∧ b = j then v else m.entry a b)) := by
  conv_lhs => rw [eq_tab h]
  exact set_tab m.rows m.cols m.entry hi hj v

theorem set_outOfRange (m : Matrix T) {i j : Nat} (h : i ≥ m.rows ∨ j ≥ m.cols) (v : T) :
    m.set i j v = (.error .outOfRange, m) := by
  simp only [set, h, if_true]

theorem get_outOfRange (m : Matrix T) {i j : Nat} (h : i ≥ m.rows ∨ j ≥ m.cols) :
    m.get i j = .error .outOfRange := by
  simp only [get, h, if_true]

/-- What `operator+` returns on well-formed operands of one shape. -/
theorem add_eq [Zero T] [Add T] {A B : Matrix T} (hA : A.WF) (hB : B.WF)
    (hr : A.rows = B.rows) (hc : A.cols = B.cols) :
    A.add B = .ok (tab A.rows A.cols (fun i j => A.entry i j + B.entry i j)) := by
  have hne : ¬ (A.rows ≠ B.rows ∨ A.cols ≠ B.cols) := by simp [hr, hc]
  simp only [add, hne, if_false]
  apply build_eq
  intro i j hi hj
  rw [raw_eq hA hi hj, get_eq hB (hr ▸ hi) (hc ▸ hj)]
  rfl

/-- What `operator-` returns on well-formed operands of one shape. -/
theorem sub_eq [Zero T] [Sub T] {A B : Matrix T} (hA : A.WF) (hB : B.WF)
    (hr : A.rows = B.rows) (hc : A.cols = B.cols) :
    A.sub B = .ok (tab A.rows A.cols (fun i j => A.entry i j - B.entry i j)) := by
  have hne : ¬ (A.rows ≠ B.rows ∨ A.cols ≠ B.cols) := by simp [hr, hc]
  simp only [sub, hne, if_false]
  apply build_eq
  intro i j hi hj
  rw [raw_eq hA hi hj, get_eq hB (hr ▸ hi) (hc ▸ hj)]
  rfl

/-- What `operator*` returns on well-formed operands with matching inner dimension. -/
theorem mul_eq [Semiring T] {A B : Matrix T} (hA : A.WF) (hB : B.WF)
    (hc : A.cols = B.rows) :
    A.mul B = .ok (tab A.rows B.cols
      (fun i j => ∑ k ∈ Finset.range A.cols, A.entry i k * B.entry k j)) := by
  have hne : ¬ (A.cols ≠ B.rows) := by simp [hc]
  simp only [mul, hne, if_false]
  apply build_eq
  intro i j hi hj
  have := forLoop_sum A.cols (fun k sum => do
      let a ← A.raw i k
      let b ← B.get k j
      pure (sum + a * b)) (fun k => A.entry i k * B.entry k j) 0
    (fun k s hk => by
      simp only [raw_eq hA hi hk, get_eq hB (hc ▸ hk) hj, bind_ok_eq, pure_eq_ok])
  simpa using this

end Matrix

/-- C4: for well-formed `A` (r x n) and `B` (m x c), `A * B` returns exactly when
`n = m`; the result is then a well-formed r x c matrix whose `(i, j)` element is
the sum over `k < n` of `A(i,k) * B(k,j)`; when `n ≠ m` the call is the
`invalid_argument` failure and produces no matrix (the operator is a `const`
member taking its operand by value, hence a pure function of both). -/
theorem mul_contract {T : Type} [Semiring T] (A B : Matrix T) :
    (A.WF → B.WF → A.cols = B.rows →
      ∃ C, A.mul B = .ok C ∧ C.WF ∧ C.rows = A.rows ∧ C.cols = B.cols ∧
        ∀ i j, i < A.rows → j < B.cols →
          C.entry i j = ∑ k ∈ Finset.range A.cols, A.entry i k * B.entry k j) ∧
    (A.cols ≠ B.rows → A.mul B = .error .invalidArgument) := by
  refine ⟨fun hA hB hc => ⟨_, Matrix.mul_eq hA hB hc, Matrix.tab_WF _ _ _, rfl, rfl, ?_⟩, ?_⟩
  · intro i j hi hj
    exact Matrix.entry_tab _ _ _ hi hj
  · intro hne
    rw [Matrix.mul, if_pos hne]

/-- C4, instance: a 2 x 2 product over the integers, and a 2 x 2 by 1 x 2 mismatch. -/
theorem mul_contract_witness :
    ((Matrix.mk [[1, 2], [3, 4]] 2 2 : Matrix Int).WF ∧
      (Matrix.mk [[0, 1], [1, 0]] 2 2 : Matrix Int).WF ∧
      (Matrix.mk [[1, 2], [3, 4]] 2 2 : Matrix Int).cols =
        (Matrix.mk [[0, 1], [1, 0]] 2 2 : Matrix Int).rows ∧
      ∃ C, (Matrix.mk [[1, 2], [3, 4]] 2 2 : Matrix Int).mul (Matrix.mk [[0, 1], [1, 0]] 2 2)
          = .ok C ∧ C.WF ∧ C.rows = 2 ∧ C.cols = 2 ∧
        ∀ i j, i < 2 → j < 2 →
          C.entry i j = ∑ k ∈ Finset.range 2,
            (Matrix.mk [[1, 2], [3, 4]] 2 2 : Matrix Int).entry i k *
              (Matrix.mk [[0, 1], [1, 0]] 2 2 : Matrix Int).entry k j) ∧
    ((Matrix.mk [[1, 2], [3, 4]] 2 2 : Matrix Int).cols ≠
        (Matrix.mk [[5, 6]] 1 2 : Matrix Int).rows ∧
      (Matrix.mk [[1, 2], [3, 4]] 2 2 : Matrix Int).mul (Matrix.mk [[5, 6]] 1 2)
        = .error .invalidArgument) :=
  ⟨⟨by decide, by decide, by decide,
      (mul_contract (Matrix.mk [[1, 2], [3, 4]] 2 2 : Matrix Int)
        (Matrix.mk [[0, 1], [1, 0]] 2 2)).1 (by decide) (by decide) (by decide)⟩,
    ⟨by decide,
      (mul_contract (Matrix.mk [[1, 2], [3, 4]] 2 2 : Matrix Int)
        (Matrix.mk [[5, 6]] 1 2)).2 (by decide)⟩⟩

/-- C5: for well-formed `A` and `B`, `A + B` and `A - B` return exactly when the
two shapes agree; the result is a well-formed matrix of that shape whose
`(i, j)` element is `A(i,j) + B(i,j)`, respectively `A(i,j) - B(i,j)`; when the
shapes differ both calls are the `invalid_argument` failure. -/
theorem add_sub_contract {T : Type} [Zero T] [Add T] [Sub T] (A B : Matrix T) :
    (A.WF → B.WF → A.rows = B.rows → A.cols = B.cols →
      (∃ C, A.add B = .ok C ∧ C.WF ∧ C.rows = A.rows ∧ C.cols = A.cols ∧
        ∀ i j, i < A.rows → j < A.cols → C.entry i j = A.entry i j + B.entry i j) ∧
      (∃ D, A.sub B = .ok D ∧ D.WF ∧ D.rows = A.rows ∧ D.cols = A.cols ∧
        ∀ i j, i < A.rows → j < A.cols → D.entry i j = A.entry i j - B.entry i j)) ∧
    ((A.rows ≠ B.rows ∨ A.cols ≠ B.cols) →
      A.add B = .error .invalidArgument ∧ A.sub B = .error .invalidArgument) := by
  refine ⟨fun hA hB hr hc =>
    ⟨⟨_, Matrix.add_eq hA hB hr hc, Matrix.tab_WF _ _ _, rfl, rfl, ?_⟩,
     ⟨_, Matrix.sub_eq hA hB hr hc, Matrix.tab_WF _ _ _, rfl, rfl, ?_⟩⟩, ?_⟩
  · intro i j hi hj
    exact Matrix.entry_tab _ _ _ hi hj
  · intro i j hi hj
    exact Matrix.entry_tab _ _ _ hi hj
  · intro hne
    simp only [Matrix.add, Matrix.sub, hne, if_true, and_self]

/-- C5, instance: two 1 x 2 integer matrices, and a 1 x 2 with a 2 x 1 matrix. -/
theorem add_sub_contract_witness :
    ((Matrix.mk [[1, 2]] 1 2 : Matrix Int).WF ∧ (Matrix.mk [[3, 5]] 1 2 : Matrix Int).WF ∧
      (∃ C, (Matrix.mk [[1, 2]] 1 2 : Matrix Int).add (Matrix.mk [[3, 5]] 1 2) = .ok C ∧
        C.WF ∧ C.rows = 1 ∧ C.cols = 2 ∧
        ∀ i j, i < 1 → j < 2 → C.entry i j =
          (Matrix.mk [[1, 2]] 1 2 : Matrix Int).entry i j +
            (Matrix.mk [[3, 5]] 1 2 : Matrix Int).entry i j) ∧
      (∃ D, (Matrix.mk [[1, 2]] 1 2 : Matrix Int).sub (Matrix.mk [[3, 5]] 1 2) = .ok D ∧
        D.WF ∧ D.rows = 1 ∧ D.cols = 2 ∧
        ∀ i j, i < 1 → j < 2 → D.entry i j =
          (Matrix.mk [[1, 2]] 1 2 : Matrix Int).entry i j -
            (Matrix.mk [[3, 5]] 1 2 : Matrix Int).entry i j)) ∧
    (((Matrix.mk [[1, 2]] 1 2 : Matrix Int).rows ≠ (Matrix.mk [[3], [5]] 2 1 : Matrix Int).rows ∨
        (Matrix.mk [[1, 2]] 1 2 : Matrix Int).cols ≠
          (Matrix.mk [[3], [5]] 2 1 : Matrix Int).cols) ∧
      (Matrix.mk [[1, 2]] 1 2 : Matrix Int).add (Matrix.mk [[3], [5]] 2 1)
        = .error .invalidArgument ∧
      (Matrix.mk [[1, 2]] 1 2 : Matrix Int).sub (Matrix.mk [[3], [5]] 2 1)
        = .error .invalidArgument) :=
  ⟨⟨by decide, by decide,
      (add_sub_contract (Matrix.mk [[1, 2]] 1 2 : Matrix Int) (Matrix.mk [[3, 5]] 1 2)).1
        (by decide) (by decide) (by decide) (by decide)⟩,
    ⟨by decide,
      (add_sub_contract (Matrix.mk [[1, 2]] 1 2 : Matrix Int) (Matrix.mk [[3], [5]] 2 1)).2
        (by decide)⟩⟩

/-- C6: `m(row, col)` with `row >= rows` or `col >= cols` is the `out_of_range`
failure, whatever the matrix stores; with `row < rows` and `col < cols` on a
well-formed matrix it returns the element stored at `data[row][col]`. -/
theorem get_contract {T : Type} (m : Matrix T) (row col : Nat) :
    ((row ≥ m.rows ∨ col ≥ m.cols) → m.get row col = .error .outOfRange) ∧
    (m.WF → row < m.rows → col < m.cols →
      ∃ r v, m.data[row]? = some r ∧ r[col]? = some v ∧ m.get row col = .ok v) := by
  refine ⟨fun h => Matrix.get_outOfRange m h, ?_⟩
  intro h hi hj
  have hi2 : row < m.data.length := by rw [h.1]; exact hi
  have hj2 : col < (m.data[row]).length := by rw [h.row_length row hi2]; exact hj
  refine ⟨m.data[row], (m.data[row])[col], by simp [hi2], by simp [hj2], ?_⟩
  have : ¬ (row ≥ m.rows ∨ col ≥ m.cols) := by omega
  simp [Matrix.get, this, Matrix.raw, hi2, hj2]

/-- C6, instance: reading inside and outside a 2 x 2 integer matrix. -/
theorem get_contract_witness :
    ((2 ≥ (Matrix.mk [[1, 2], [3, 4]] 2 2 : Matrix Int).rows ∨
        0 ≥ (Matrix.mk [[1, 2], [3, 4]] 2 2 : Matrix Int).cols) ∧
      (Matrix.mk [[1, 2], [3, 4]] 2 2 : Matrix Int).get 2 0 = .error .outOfRange) ∧
    ((Matrix.mk [[1, 2], [3, 4]] 2 2 : Matrix Int).WF ∧
      1 < (Matrix.mk [[1, 2], [3, 4]] 2 2 : Matrix Int).rows ∧
      0 < (Matrix.mk [[1, 2], [3, 4]] 2 2 : Matrix Int).cols ∧
      ∃ r v, (Matrix.mk [[1, 2], [3, 4]] 2 2 : Matrix Int).data[1]? = some r ∧
        r[0]? = some v ∧ (Matrix.mk [[1, 2], [3, 4]] 2 2 : Matrix Int).get 1 0 = .ok v) :=
  ⟨⟨by decide, (get_contract (Matrix.mk [[1, 2], [3, 4]] 2 2 : Matrix Int) 2 0).1 (by decide)⟩,
    ⟨by decide, by decide, by decide,
      (get_contract (Matrix.mk [[1, 2], [3, 4]] 2 2 : Matrix Int) 1 0).2
        (by decide) (by decide) (by decide)⟩⟩

/-- C7: on a well-formed matrix, `set(row, col, v)` with `row < rows` and
`col < cols` returns and leaves a well-formed matrix of the same shape whose
element at `(row, col)` is `v` and whose other elements are those of before;
with `row >= rows` or `col >= cols` it is the `out_of_range` failure and the
matrix after the call is the matrix before it. -/
theorem set_contract {T : Type} [Zero T] (m : Matrix T) (row col : Nat) (v : T) :
    (m.WF → row < m.rows → col < m.cols →
      ∃ m1, m.set row col v = (.ok (), m1) ∧ m1.WF ∧ m1.rows = m.rows ∧ m1.cols = m.cols ∧
        m1.entry row col = v ∧
        ∀ i j, (i ≠ row ∨ j ≠ col) → m1.entry i j = m.entry i j) ∧
    ((row ≥ m.rows ∨ col ≥ m.cols) → m.set row col v = (.error .outOfRange, m)) := by
  refine ⟨fun h hi hj => ⟨_, Matrix.set_eq h hi hj v, Matrix.tab_WF _ _ _, rfl, rfl, ?_, ?_⟩,
    fun h => Matrix.set_outOfRange m h v⟩
  · rw [Matrix.entry_tab _ _ _ hi hj]; simp
  · intro i j hne
    by_cases hi2 : i < m.rows
    · by_cases hj2 : j < m.cols
      · rw [Matrix.entry_tab _ _ _ hi2 hj2]
        have : ¬ (i = row ∧ j = col) := by
          rintro ⟨h1, h2⟩; rcases hne with h3 | h3
          · exact h3 h1
          · exact h3 h2
        simp only [this, if_false]
      · rw [Matrix.entry_eq_zero_of_cols (Matrix.tab_WF _ _ _) i (by simpa using hj2),
          Matrix.entry_eq_zero_of_cols h i (by omega)]
    · rw [Matrix.entry_eq_zero_of_rows (Matrix.tab_WF _ _ _) j (by simpa using hi2),
        Matrix.entry_eq_zero_of_rows h j (by omega)]

/-- C7, instance: writing inside and outside a 2 x 2 integer matrix. -/
theorem set_contract_witness :
    ((Matrix.mk [[1, 2], [3, 4]] 2 2 : Matrix Int).WF ∧
      1 < (Matrix.mk [[1, 2], [3, 4]] 2 2 : Matrix Int).rows ∧
      0 < (Matrix.mk [[1, 2], [3, 4]] 2 2 : Matrix Int).cols ∧
      ∃ m1, (Matrix.mk [[1, 2], [3, 4]] 2 2 : Matrix Int).set 1 0 7 = (.ok (), m1) ∧ m1.WF ∧
        m1.rows = 2 ∧ m1.cols = 2 ∧ m1.entry 1 0 = 7 ∧
        ∀ i j, (i ≠ 1 ∨ j ≠ 0) →
          m1.entry i j = (Matrix.mk [[1, 2], [3, 4]] 2 2 : Matrix Int).entry i j) ∧
    ((0 ≥ (Matrix.mk [[1, 2], [3, 4]] 2 2 : Matrix Int).rows ∨
        2 ≥ (Matrix.mk [[1, 2], [3, 4]] 2 2 : Matrix Int).cols) ∧
      (Matrix.mk [[1, 2], [3, 4]] 2 2 : Matrix Int).set 0 2 7 =
        (.error .outOfRange, Matrix.mk [[1, 2], [3, 4]] 2 2)) :=
  ⟨⟨by decide, by decide, by decide,
      (set_contract (Matrix.mk [[1, 2], [3, 4]] 2 2 : Matrix Int) 1 0 7).1
        (by decide) (by decide) (by decide)⟩,
    ⟨by decide, (set_contract (Matrix.mk [[1, 2], [3, 4]] 2 2 : Matrix Int) 0 2 7).2 (by decide)⟩⟩

end MLPSpec

namespace MLPSpec

namespace MLP

variable {T : Type}

/-! ## Reading a well-formed network -/

theorem WF.depth_eq {n : MLP T} (h : n.WF) : n.depth = n.layerSizes.length - 1 := h.1

theorem WF.idx_weights {n : MLP T} (_h : n.WF) {i : Nat} (hi : i < n.depth) :
    idx n.weights i = .ok (n.W i) := by
  have hi2 : i < n.weights.length := hi
  rw [idx_eq _ _ hi2]
  simp [W, List.getD_eq_getElem?_getD, hi2]

theorem WF.idx_biases {n : MLP T} (h : n.WF) {i : Nat} (hi : i < n.depth) :
    idx n.biases i = .ok (n.B i) := by
  have hi2 : i < n.biases.length := by rw [h.2.1, ← h.1]; exact hi
  rw [idx_eq _ _ hi2]
  simp [B, List.getD_eq_getElem?_getD, hi2]

theorem WF.layer {n : MLP T} (h : n.WF) {i : Nat} (hi : i < n.depth) :
    (n.W i).WF ∧ (n.B i).WF ∧ (n.W i).rows = n.dim (i + 1) ∧ (n.W i).cols = n.dim i ∧
      (n.B i).rows = n.dim (i + 1) ∧ (n.B i).cols = 1 := by
  have hi2 : i < n.layerSizes.length - 1 := by rw [← h.1]; exact hi
  obtain ⟨h1, h2, h3, h4, h5, h6⟩ := h.2.2 i hi2
  refine ⟨h1, h2, ?_, ?_, ?_, h6⟩
  · simp only [dim, ← h3, Int.toNat_ofNat]
  · simp only [dim, ← h4, Int.toNat_ofNat]
  · simp only [dim, ← h5, Int.toNat_ofNat]

/-! ## The forward pass -/

theorem sigmoid_eq [Field T] (exp : T → T) {m : Matrix T} (h : m.WF) :
    sigmoid exp m = .ok (Matrix.tab m.rows m.cols (fun i j => sig exp (m.entry i j))) := by
  apply Matrix.build_eq
  intro i j hi hj
  simp only [Matrix.get_eq h hi hj, bind_ok_eq, pure_eq_ok, sig]

theorem sigmoidDerivative_eq [Field T] {m : Matrix T} (h : m.WF) :
    sigmoidDerivative m =
      .ok (Matrix.tab m.rows m.cols (fun i j => m.entry i j * (1 - m.entry i j))) := by
  apply Matrix.build_eq
  intro i j hi hj
  simp only [Matrix.get_eq h hi hj, bind_ok_eq, pure_eq_ok]

/-- The linear output `w * a + b` of a layer in mathematical terms. -/
theorem linear_eq [Field T] {w b a : Matrix T} (hw : w.WF) (hb : IsCol b w.rows)
    (ha : IsCol a w.cols) :
    (do let prod ← w.mul a
        prod.add b) =
      Except.ok (Matrix.tab w.rows 1 (fun j _ =>
        ∑ k ∈ Finset.range w.cols, w.entry j k * a.entry k 0 + b.entry j 0)) := by
  rw [Matrix.mul_eq hw ha.1 ha.2.1.symm]
  simp only [bind_ok_eq]
  rw [Matrix.add_eq (Matrix.tab_WF _ _ _) hb.1 (by simp [hb.2.1]) (by simp [hb.2.2, ha.2.2])]
  simp only [Matrix.tab_rows, Matrix.tab_cols, ha.2.2]
  congr 1
  apply Matrix.tab_congr
  intro i j hi hj
  have hj0 : j = 0 := by omega
  subst hj0
  rw [Matrix.entry_tab _ _ _ hi (by omega)]

/-- One layer of the forward pass computes `specLayer`. -/
theorem layer_eq [Field T] (exp : T → T) {w b a : Matrix T} (hw : w.WF) (hb : IsCol b w.rows)
    (ha : IsCol a w.cols) :
    (do let prod ← w.mul a
        let linear ← prod.add b
        sigmoid exp linear) = Except.ok (specLayer exp w b a) := by
  have h := linear_eq hw hb ha
  have h2 : (do let prod ← w.mul a
                let linear ← prod.add b
                sigmoid exp linear) =
      (do let linear ← (do let prod ← w.mul a
                           prod.add b)
          sigmoid exp linear) := by
    cases w.mul a <;> rfl
  rw [h2, h]
  simp only [bind_ok_eq]
  rw [sigmoid_eq exp (Matrix.tab_WF _ _ _)]
  simp only [Matrix.tab_rows, Matrix.tab_cols, specLayer]
  congr 1
  apply Matrix.tab_congr
  intro i j hi hj
  rw [Matrix.entry_tab _ _ _ hi hj]

theorem specLayer_isCol [Field T] (exp : T → T) (w b a : Matrix T) :
    IsCol (specLayer exp w b a) w.rows :=
  ⟨Matrix.tab_WF _ _ _, rfl, rfl⟩

theorem specAct_isCol [Field T] (exp : T → T) {n : MLP T} (h : n.WF) {x : Matrix T}
    (hx : IsCol x (n.dim 0)) : ∀ i, i ≤ n.depth → IsCol (specAct exp n x i) (n.dim i)
  | 0, _ => hx
  | i + 1, hi => by
    have := specLayer_isCol exp (n.W i) (n.B i) (specAct exp n x i)
    rw [(h.layer (by omega : i < n.depth)).2.2.1] at this
    exact this

/-- The body of the layer loop at step `i`, on the activation `a_i`. -/
theorem layer_step [Field T] (exp : T → T) {n : MLP T} (h : n.WF) {x : Matrix T}
    (hx : IsCol x (n.dim 0)) {i : Nat} (hi : i < n.depth) :
    (do let w ← idx n.weights i
        let prod ← w.mul (specAct exp n x i)
        let b ← idx n.biases i
        let linear ← prod.add b
        sigmoid exp linear) = Except.ok (specAct exp n x (i + 1)) := by
  obtain ⟨hw, hb, hr, hc, hbr, hbc⟩ := h.layer hi
  rw [h.idx_weights hi, h.idx_biases hi]
  simp only [bind_ok_eq]
  have ha := specAct_isCol exp h hx i (by omega)
  have := layer_eq exp hw ⟨hb, by rw [hbr, hr], hbc⟩ (a := specAct exp n x i)
    ⟨ha.1, by rw [ha.2.1, hc], ha.2.2⟩
  rw [this]
  rfl

/-- On a well-formed network and a column of `layerSizes[0]` rows, `forward`
returns the last activation and the network it was called on. -/
theorem forward_eq [Field T] (exp : T → T) {n : MLP T} (h : n.WF) {x : Matrix T}
    (hx : IsCol x (n.dim 0)) :
    forward exp n x = .ok (specAct exp n x n.depth, n) := by
  have := forLoop_eq n.weights.length (fun i activation => do
      let w ← idx n.weights i
      let prod ← w.mul activation
      let b ← idx n.biases i
      let linear ← prod.add b
      sigmoid exp linear) (fun i => specAct exp n x i)
    (fun k hk => layer_step exp h hx hk)
  simp only [specAct] at this
  simp only [forward, this]
  rfl

end MLP

/-- C1: for a well-formed network with at least two layer sizes and an input
column of `layerSizes[0]` rows, `forward` returns the last term of the sequence
`a_0 = input`, `a_(i+1) = sigmoid(weights[i] * a_i + biases[i])`, in which
element `j` of `a_(i+1)` is `1 / (1 + exp(-(sum over k of weights[i](j,k) * a_i(k)
+ biases[i](j))))`; the result is a well-formed column of `layerSizes.last`
rows, and the network after the call is the network before it. -/
theorem forward_contract {T : Type} [Field T] (exp : T → T) (n : MLP T) (x : Matrix T)
    (hn : n.WF) (_hlen : 2 ≤ n.layerSizes.length) (hx : IsCol x (n.dim 0)) :
    ∃ a : Nat → Matrix T,
      a 0 = x ∧
      (∀ i, i < n.weights.length → IsCol (a (i + 1)) (n.dim (i + 1)) ∧
        ∀ j, j < n.dim (i + 1) →
          (a (i + 1)).entry j 0 =
            1 / (1 + exp (-(∑ k ∈ Finset.range (n.dim i),
              (n.W i).entry j k * (a i).entry k 0 + (n.B i).entry j 0)))) ∧
      MLP.forward exp n x = .ok (a n.weights.length, n) ∧
      IsCol (a n.weights.length) (n.layerSizes.getLast?.getD 0).toNat := by
  refine ⟨MLP.specAct exp n x, rfl, ?_, MLP.forward_eq exp hn hx, ?_⟩
  · intro i hi
    obtain ⟨_, _, hr, hc, _, _⟩ := hn.layer hi
    refine ⟨MLP.specAct_isCol exp hn hx (i + 1) hi, ?_⟩
    intro j hj
    show (MLP.specLayer exp (n.W i) (n.B i) (MLP.specAct exp n x i)).entry j 0 = _
    rw [MLP.specLayer, Matrix.entry_tab _ _ _ (by rw [hr]; exact hj) (by omega), MLP.sig, hc]
  · have := MLP.specAct_isCol exp hn hx n.depth (Nat.le_refl _)
    have hd : n.dim n.depth = (n.layerSizes.getLast?.getD 0).toNat := by
      have h1 : n.depth = n.layerSizes.length - 1 := hn.1
      simp only [MLP.dim, h1, List.getLast?_eq_getElem?, List.getD_eq_getElem?_getD]
    rw [hd] at this
    exact this

end MLPSpec

namespace MLPSpec

/-- C1, instance: the network `exampleNet` on `exampleInput`. -/
theorem forward_contract_witness :
    exampleNet.WF ∧ 2 ≤ exampleNet.layerSizes.length ∧
    IsCol exampleInput (exampleNet.dim 0) ∧
    ∃ a : Nat → Matrix ℚ,
      a 0 = exampleInput ∧
      (∀ i, i < exampleNet.weights.length → IsCol (a (i + 1)) (exampleNet.dim (i + 1)) ∧
        ∀ j, j < exampleNet.dim (i + 1) →
          (a (i + 1)).entry j 0 =
            1 / (1 + exampleExp (-(∑ k ∈ Finset.range (exampleNet.dim i),
              (exampleNet.W i).entry j k * (a i).entry k 0 + (exampleNet.B i).entry j 0)))) ∧
      MLP.forward exampleExp exampleNet exampleInput = .ok (a exampleNet.weights.length, exampleNet) ∧
      IsCol (a exampleNet.weights.length) (exampleNet.layerSizes.getLast?.getD 0).toNat :=
  ⟨by decide, by decide, by decide,
    forward_contract exampleExp exampleNet exampleInput (by decide) (by decide) (by decide)⟩

end MLPSpec

namespace MLPSpec

theorem idx_getD {α : Type} (v : List α) (d : α) {i : Nat} (h : i < v.length) :
    idx v i = .ok (v.getD i d) := by
  rw [idx_eq _ _ h]
  simp [List.getD_eq_getElem?_getD, h]

theorem getD_mem {α : Type} (v : List α) (d : α) {i : Nat} (h : i < v.length) :
    v.getD i d ∈ v := by
  simp only [List.getD_eq_getElem?_getD, List.getElem?_eq_getElem h, Option.getD_some]
  exact List.getElem_mem _

theorem ValidData.input {T : Type} {n : MLP T} {inputs targets : List (Matrix T)}
    (h : ValidData n inputs targets) {s : Nat} (hs : s < inputs.length) :
    IsCol (inputs.getD s Matrix.empty) (n.dim 0) :=
  h.2.1 _ (getD_mem _ _ hs)

theorem ValidData.target {T : Type} {n : MLP T} {inputs targets : List (Matrix T)}
    (h : ValidData n inputs targets) {s : Nat} (hs : s < inputs.length) :
    IsCol (targets.getD s Matrix.empty) (n.dim n.depth) :=
  h.2.2 _ (getD_mem _ _ (h.1 ▸ hs))

theorem ite_pure {α : Type} (c : Prop) [Decidable c] (a b : α) :
    (if c then pure a else pure b : Except Err α) = .ok (if c then a else b) := by
  split <;> rfl

/-- A loop with `break` that leaves at the first index where `bad` holds
returns whether no index is bad. -/
theorem forLoopBreakFrom_all (body : Nat → Bool → Except Err (Bool × Bool)) (bad : Nat → Prop)
    [DecidablePred bad] :
    ∀ (fuel i : Nat),
      (∀ k st, i ≤ k → k < i + fuel →
        body k st = .ok (if bad k then (false, true) else (st, false))) →
      forLoopBreakFrom body fuel i true =
        .ok (decide (∀ k, i ≤ k → k < i + fuel → ¬ bad k)) := by
  intro fuel
  induction fuel with
  | zero =>
    intro i _
    have : ∀ k, i ≤ k → k < i + 0 → ¬ bad k := fun k h1 h2 => by omega
    simp only [forLoopBreakFrom]
    congr 1
    exact (decide_eq_true this).symm
  | succ m ih =>
    intro i h
    simp only [forLoopBreakFrom, h i true (Nat.le_refl i) (by omega)]
    by_cases hb : bad i
    · have : ¬ ∀ k, i ≤ k → k < i + (m + 1) → ¬ bad k :=
        fun hall => hall i (Nat.le_refl i) (by omega) hb
      simp [hb, this]
    · simp only [hb, if_false]
      rw [ih (i + 1) (fun k st h1 h2 => h k st (by omega) (by omega))]
      congr 1
      apply decide_eq_decide.2
      constructor
      · intro hall k h1 h2
        by_cases hk : k = i
        · subst hk; exact hb
        · exact hall k (by omega) (by omega)
      · intro hall k h1 h2
        exact hall k (by omega) (by omega)

theorem forLoopBreak_all (n : Nat) (body : Nat → Bool → Except Err (Bool × Bool))
    (bad : Nat → Prop) [DecidablePred bad]
    (h : ∀ k st, k < n → body k st = .ok (if bad k then (false, true) else (st, false))) :
    forLoopBreak n body true = .ok (decide (∀ k, k < n → ¬ bad k)) := by
  rw [forLoopBreak, forLoopBreakFrom_all body bad n 0 (fun k st _ hk => h k st (by omega))]
  congr 1
  apply decide_eq_decide.2
  constructor
  · intro hall k hk; exact hall k (Nat.zero_le k) (by omega)
  · intro hall k _ hk; exact hall k (by omega)

namespace MLP

variable {T : Type}

/-- The squared-error loops add the sum of the squares of all elements. -/
theorem addSquaredError_eq [Field T] {error : Matrix T} (h : error.WF) (s0 : T) :
    addSquaredError error s0 =
      .ok (s0 + ∑ i ∈ Finset.range error.rows, ∑ j ∈ Finset.range error.cols,
        error.entry i j * error.entry i j) := by
  apply forLoop_sum error.rows _ (fun i => ∑ j ∈ Finset.range error.cols,
    error.entry i j * error.entry i j)
  intro i s hi
  apply forLoop_sum error.cols _ (fun j => error.entry i j * error.entry i j)
  intro j t hj
  simp only [Matrix.get_eq h hi hj, bind_ok_eq, pure_eq_ok]

/-- The body of the sample loop of `evaluate`. -/
theorem evaluate_step [Field T] (exp : T → T) {n : MLP T} (hn : n.WF)
    {inputs targets : List (Matrix T)} (hd : ValidData n inputs targets) {s : Nat}
    (hs : s < inputs.length) (total : T) :
    (do let input ← idx inputs s
        let (output, self) ← forward exp n input
        let target ← idx targets s
        let error ← output.sub target
        let totalLoss ← addSquaredError error total
        pure (totalLoss, self)) =
      Except.ok (total + ∑ i ∈ Finset.range (n.dim n.depth), ∑ j ∈ Finset.range 1,
        ((specAct exp n (inputs.getD s Matrix.empty) n.depth).entry i j -
          (targets.getD s Matrix.empty).entry i j) ^ 2, n) := by
  have hx := hd.input hs
  have ht := hd.target hs
  have ha := specAct_isCol exp hn hx n.depth (Nat.le_refl _)
  rw [idx_getD inputs Matrix.empty hs, idx_getD targets Matrix.empty (hd.1 ▸ hs)]
  simp only [bind_ok_eq, forward_eq exp hn hx]
  rw [Matrix.sub_eq ha.1 ht.1 (by rw [ha.2.1, ht.2.1]) (by rw [ha.2.2, ht.2.2])]
  simp only [bind_ok_eq, addSquaredError_eq (Matrix.tab_WF _ _ _), Matrix.tab_rows,
    Matrix.tab_cols, pure_eq_ok, ha.2.1, ha.2.2]
  congr 2
  apply congrArg
  apply Finset.sum_congr rfl
  intro i hi
  apply Finset.sum_congr rfl
  intro j hj
  rw [Matrix.entry_tab _ _ _ (Finset.mem_range.1 hi) (Finset.mem_range.1 hj)]
  ring

/-- On a well-formed network and a valid data set, `evaluate` returns the mean
of the squared errors of the activations `specAct`, and the network. -/
theorem evaluate_eq [Field T] (exp : T → T) {n : MLP T} (hn : n.WF)
    {inputs targets : List (Matrix T)} (hd : ValidData n inputs targets) :
    evaluate exp n inputs targets =
      .ok ((∑ s ∈ Finset.range inputs.length, ∑ i ∈ Finset.range (n.dim n.depth),
        ∑ j ∈ Finset.range 1,
          ((specAct exp n (inputs.getD s Matrix.empty) n.depth).entry i j -
            (targets.getD s Matrix.empty).entry i j) ^ 2) / (inputs.length : T), n) := by
  have := forLoop_eq inputs.length (fun sample (p : T × MLP T) => do
      let input ← idx inputs sample
      let (output, self) ← forward exp p.2 input
      let target ← idx targets sample
      let error ← output.sub target
      let totalLoss ← addSquaredError error p.1
      pure (totalLoss, self))
    (fun k => (∑ s ∈ Finset.range k, ∑ i ∈ Finset.range (n.dim n.depth),
        ∑ j ∈ Finset.range 1,
          ((specAct exp n (inputs.getD s Matrix.empty) n.depth).entry i j -
            (targets.getD s Matrix.empty).entry i j) ^ 2, n))
    (fun k hk => by
      simp only []
      rw [evaluate_step exp hn hd hk, Finset.sum_range_succ])
  simp only [Finset.range_zero, Finset.sum_empty] at this
  simp only [evaluate]
  rw [this]
  simp only [bind_ok_eq, pure_eq_ok, mul_one_div]

/-- The body of the sample loop of `calculateAccuracy`. -/
theorem accuracy_step [LinearOrderedField T] (exp : T → T) {n : MLP T} (hn : n.WF)
    {inputs targets : List (Matrix T)} (hd : ValidData n inputs targets) (threshold : T)
    {s : Nat} (hs : s < inputs.length) (correct : T) :
    (do let input ← idx inputs s
        let (output, self) ← forward exp n input
        let allCorrect ← forLoopBreak output.rows (fun i allCorrect => do
          let o ← output.get i 0
          let predicted : T := if o > threshold then 1 else 0
          let target ← (← idx targets s).get i 0
          if |predicted - target| > 1 / 10 then pure (false, true)
          else pure (allCorrect, false)) true
        if allCorrect then pure (correct + 1, self) else pure (correct, self)) =
      Except.ok (if specCorrect (specAct exp n (inputs.getD s Matrix.empty) n.depth)
          (targets.getD s Matrix.empty) threshold then correct + 1 else correct, n) := by
  have hx := hd.input hs
  have ht := hd.target hs
  have ha := specAct_isCol exp hn hx n.depth (Nat.le_refl _)
  rw [idx_getD inputs Matrix.empty hs]
  simp only [bind_ok_eq, forward_eq exp hn hx]
  rw [forLoopBreak_all _ _ (fun i =>
    |(if (specAct exp n (inputs.getD s Matrix.empty) n.depth).entry i 0 > threshold
        then (1 : T) else 0) - (targets.getD s Matrix.empty).entry i 0| > 1 / 10)]
  · have hiff : (∀ k, k < (specAct exp n (inputs.getD s Matrix.empty) n.depth).rows →
        ¬ |(if (specAct exp n (inputs.getD s Matrix.empty) n.depth).entry k 0 > threshold
          then (1 : T) else 0) - (targets.getD s Matrix.empty).entry k 0| > 1 / 10) ↔
        specCorrect (specAct exp n (inputs.getD s Matrix.empty) n.depth)
          (targets.getD s Matrix.empty) threshold := by
      simp only [specCorrect, not_lt]
    simp only [bind_ok_eq]
    by_cases hc : specCorrect (specAct exp n (inputs.getD s Matrix.empty) n.depth)
        (targets.getD s Matrix.empty) threshold
    · simp only [decide_eq_true (hiff.2 hc), hc, if_true, pure_eq_ok]
    · simp only [decide_eq_false (fun h => hc (hiff.1 h)), hc, if_false, pure_eq_ok]
      rfl
  · intro k st hk
    rw [Matrix.get_eq ha.1 hk (by rw [ha.2.2]; exact Nat.one_pos),
      idx_getD targets Matrix.empty (hd.1 ▸ hs)]
    simp only [bind_ok_eq]
    rw [Matrix.get_eq ht.1 (by rw [ht.2.1, ← ha.2.1]; exact hk)
      (by rw [ht.2.2]; exact Nat.one_pos)]
    simp only [bind_ok_eq, ite_pure]

/-- On a well-formed network and a valid data set, `calculateAccuracy` returns
the fraction of the samples that `specCorrect` accepts, and the network. -/
theorem calculateAccuracy_eq [LinearOrderedField T] (exp : T → T) {n : MLP T} (hn : n.WF)
    {inputs targets : List (Matrix T)} (hd : ValidData n inputs targets) (threshold : T) :
    calculateAccuracy exp n inputs targets threshold =
      .ok ((((Finset.range inputs.length).filter (fun s =>
        specCorrect (specAct exp n (inputs.getD s Matrix.empty) n.depth)
          (targets.getD s Matrix.empty) threshold)).card : T) / (inputs.length : T), n) := by
  have := forLoop_eq inputs.length (fun sample (p : T × MLP T) => do
      let input ← idx inputs sample
      let (output, self) ← forward exp p.2 input
      let allCorrect ← forLoopBreak output.rows (fun i allCorrect => do
        let o ← output.get i 0
        let predicted : T := if o > threshold then 1 else 0
        let target ← (← idx targets sample).get i 0
        if |predicted - target| > 1 / 10 then pure (false, true)
        else pure (allCorrect, false)) true
      if allCorrect then pure (p.1 + 1, self) else pure (p.1, self))
    (fun k => ((((Finset.range k).filter (fun s =>
        specCorrect (specAct exp n (inputs.getD s Matrix.empty) n.depth)
          (targets.getD s Matrix.empty) threshold)).card : T), n))
    (fun k hk => by
      simp only []
      rw [accuracy_step exp hn hd threshold hk, Finset.range_succ, Finset.filter_insert]
      by_cases hc : specCorrect (specAct exp n (inputs.getD k Matrix.empty) n.depth)
          (targets.getD k Matrix.empty) threshold
      · simp only [hc, if_true]
        rw [Finset.card_insert_of_not_mem (by simp)]
        simp
      · simp only [hc, if_false])
  simp only [Finset.range_zero, Finset.filter_empty, Finset.card_empty, Nat.cast_zero] at this
  simp only [calculateAccuracy]
  rw [this]
  simp only [bind_ok_eq, pure_eq_ok, mul_one_div]

end MLP

end MLPSpec

namespace MLPSpec

/-- C8: on a well-formed network and a non-empty valid data set of `N` samples,
`evaluate` returns the sum, over the samples and over all elements `(i, j)`, of
`(forward(input)(i,j) - target(i,j))^2`, divided by `N`; the network after the
call (weights, biases, layer sizes, learning rate) is the network before it. -/
theorem evaluate_contract {T : Type} [Field T] (exp : T → T) (n : MLP T)
    (inputs targets : List (Matrix T)) (hn : n.WF) (_hlen : 2 ≤ n.layerSizes.length)
    (hd : ValidData n inputs targets) (_hne : inputs ≠ []) :
    ∃ out : Nat → Matrix T,
      (∀ s, s < inputs.length →
        MLP.forward exp n (inputs.getD s Matrix.empty) = .ok (out s, n)) ∧
      MLP.evaluate exp n inputs targets =
        .ok ((∑ s ∈ Finset.range inputs.length, ∑ i ∈ Finset.range (out s).rows,
          ∑ j ∈ Finset.range (out s).cols,
            ((out s).entry i j - (targets.getD s Matrix.empty).entry i j) ^ 2) /
              (inputs.length : T), n) := by
  refine ⟨fun s => MLP.specAct exp n (inputs.getD s Matrix.empty) n.depth,
    fun s hs => MLP.forward_eq exp hn (hd.input hs), ?_⟩
  rw [MLP.evaluate_eq exp hn hd]
  congr 2
  apply congrArg (fun x => x / (inputs.length : T))
  apply Finset.sum_congr rfl
  intro s hs
  have ha := MLP.specAct_isCol exp hn (hd.input (Finset.mem_range.1 hs)) n.depth (Nat.le_refl _)
  rw [ha.2.1, ha.2.2]

/-- C8, instance: `exampleNet` on a data set of two samples. -/
theorem evaluate_contract_witness :
    exampleNet.WF ∧ 2 ≤ exampleNet.layerSizes.length ∧
    ValidData exampleNet [exampleInput, exampleInput] [exampleTarget, exampleTarget] ∧
    [exampleInput, exampleInput] ≠ [] ∧
    ∃ out : Nat → Matrix ℚ,
      (∀ s, s < [exampleInput, exampleInput].length →
        MLP.forward exampleExp exampleNet ([exampleInput, exampleInput].getD s Matrix.empty) =
          .ok (out s, exampleNet)) ∧
      MLP.evaluate exampleExp exampleNet [exampleInput, exampleInput]
          [exampleTarget, exampleTarget] =
        .ok ((∑ s ∈ Finset.range [exampleInput, exampleInput].length,
          ∑ i ∈ Finset.range (out s).rows, ∑ j ∈ Finset.range (out s).cols,
            ((out s).entry i j -
              ([exampleTarget, exampleTarget].getD s Matrix.empty).entry i j) ^ 2) /
              (([exampleInput, exampleInput].length : Nat) : ℚ), exampleNet) :=
  ⟨by decide, by decide, by decide, List.cons_ne_nil _ _,
    evaluate_contract exampleExp exampleNet [exampleInput, exampleInput]
      [exampleTarget, exampleTarget] (by decide) (by decide) (by decide) (List.cons_ne_nil _ _)⟩

/-- C9: on a well-formed network and a non-empty valid data set of `N` samples,
`calculateAccuracy` returns `c / N`, where `c` counts the samples for which
every output unit `i` has `|p_i - target(i,0)| <= 1/10`, with `p_i = 1` when
`forward(input)(i,0) > threshold` and `p_i = 0` otherwise (so an output equal to
the threshold gives `0`, and one failing unit makes the sample incorrect); the
network after the call is the network before it. -/
theorem calculateAccuracy_contract {T : Type} [LinearOrderedField T] (exp : T → T) (n : MLP T)
    (inputs targets : List (Matrix T)) (threshold : T) (hn : n.WF)
    (_hlen : 2 ≤ n.layerSizes.length) (hd : ValidData n inputs targets) (_hne : inputs ≠ []) :
    ∃ out : Nat → Matrix T,
      (∀ s, s < inputs.length →
        MLP.forward exp n (inputs.getD s Matrix.empty) = .ok (out s, n)) ∧
      MLP.calculateAccuracy exp n inputs targets threshold =
        .ok ((((Finset.range inputs.length).filter (fun s =>
          ∀ i, i < (out s).rows →
            |(if (out s).entry i 0 > threshold then (1 : T) else 0) -
              (targets.getD s Matrix.empty).entry i 0| ≤ 1 / 10)).card : T) /
                (inputs.length : T), n) := by
  refine ⟨fun s => MLP.specAct exp n (inputs.getD s Matrix.empty) n.depth,
    fun s hs => MLP.forward_eq exp hn (hd.input hs), ?_⟩
  rw [MLP.calculateAccuracy_eq exp hn hd]
  rfl

/-- C9, instance: `exampleNet` on a data set of two samples, threshold one half. -/
theorem calculateAccuracy_contract_witness :
    exampleNet.WF ∧ 2 ≤ exampleNet.layerSizes.length ∧
    ValidData exampleNet [exampleInput, exampleInput] [exampleTarget, exampleTarget] ∧
    [exampleInput, exampleInput] ≠ [] ∧
    ∃ out : Nat → Matrix ℚ,
      (∀ s, s < [exampleInput, exampleInput].length →
        MLP.forward exampleExp exampleNet ([exampleInput, exampleInput].getD s Matrix.empty) =
          .ok (out s, exampleNet)) ∧
      MLP.calculateAccuracy exampleExp exampleNet [exampleInput, exampleInput]
          [exampleTarget, exampleTarget] (1 / 2) =
        .ok ((((Finset.range [exampleInput, exampleInput].length).filter (fun s =>
          ∀ i, i < (out s).rows →
            |(if (out s).entry i 0 > 1 / 2 then (1 : ℚ) else 0) -
              ([exampleTarget, exampleTarget].getD s Matrix.empty).entry i 0| ≤ 1 / 10)).card : ℚ) /
                (([exampleInput, exampleInput].length : Nat) : ℚ), exampleNet) :=
  ⟨by decide, by decide, by decide, List.cons_ne_nil _ _,
    calculateAccuracy_contract exampleExp exampleNet [exampleInput, exampleInput]
      [exampleTarget, exampleTarget] (1 / 2) (by decide) (by decide) (by decide)
      (List.cons_ne_nil _ _)⟩

end MLPSpec

namespace MLPSpec

/-! ## Loops and exceptions: what a returned call implies -/

theorem bind_eq_ok {α β : Type} (x : Except Err α) (f : α → Except Err β) (b : β) :
    (x >>= f) = .ok b ↔ ∃ a, x = .ok a ∧ f a = .ok b := by
  cases x with
  | error e => simp [bind, Except.bind]
  | ok a => simp [bind, Except.bind]

/-- Invariant rule for a loop that is known to return: the invariant need only
be kept by the iterations that return. -/
theorem forLoopFrom_inv_of_ok {σ : Type} (body : Nat → σ → Except Err σ) (P : Nat → σ → Prop) :
    ∀ (fuel i : Nat) (s s2 : σ), P i s →
      (∀ k s s1, i ≤ k → k < i + fuel → P k s → body k s = .ok s1 → P (k + 1) s1) →
      forLoopFrom body fuel i s = .ok s2 → P (i + fuel) s2 := by
  intro fuel
  induction fuel with
  | zero =>
    intro i s s2 h _ hr
    simp only [forLoopFrom, Except.ok.injEq] at hr
    subst hr
    simpa using h
  | succ m ih =>
    intro i s s2 h hstep hr
    simp only [forLoopFrom] at hr
    cases hb : body i s with
    | error e => rw [hb] at hr; simp at hr
    | ok s1 =>
      rw [hb] at hr
      have := ih (i + 1) s1 s2 (hstep i s s1 (Nat.le_refl i) (by omega) h hb)
        (fun k t t1 h1 h2 hP hbk => hstep k t t1 (by omega) (by omega) hP hbk) hr
      have e : i + (m + 1) = i + 1 + m := by omega
      rw [e]; exact this

theorem forLoop_inv_of_ok {σ : Type} (n : Nat) (body : Nat → σ → Except Err σ)
    (P : Nat → σ → Prop) (s s2 : σ) (h0 : P 0 s)
    (hstep : ∀ k s s1, k < n → P k s → body k s = .ok s1 → P (k + 1) s1)
    (hr : forLoop n body s = .ok s2) : P n s2 := by
  have := forLoopFrom_inv_of_ok body P n 0 s s2 h0
    (fun k t t1 _ hk hP hb => hstep k t t1 (by omega) hP hb) hr
  simpa using this

theorem idx_ok {α : Type} {v : List α} {i : Nat} {a : α} (h : idx v i = .ok a) (d : α) :
    i < v.length ∧ a = v.getD i d := by
  by_cases hi : i < v.length
  · rw [idx_getD v d hi] at h
    simp only [Except.ok.injEq] at h
    exact ⟨hi, h.symm⟩
  · rw [idx_error v i (by omega)] at h
    simp at h

theorem assignAt_ok {α : Type} {v v2 : List α} {i : Nat} {a : α}
    (h : assignAt v i a = .ok v2) : i < v.length ∧ v2 = v.set i a := by
  by_cases hi : i < v.length
  · simp only [assignAt, hi, if_true, Except.ok.injEq] at h
    exact ⟨hi, h.symm⟩
  · simp [assignAt, hi] at h

theorem assignAt_eq {α : Type} (v : List α) {i : Nat} (a : α) (h : i < v.length) :
    assignAt v i a = .ok (v.set i a) := by
  simp only [assignAt, h, if_true]

theorem getD_set {α : Type} (v : List α) (i k : Nat) (a d : α) (hi : i < v.length) :
    (v.set i a).getD k d = if k = i then a else v.getD k d := by
  simp only [List.getD_eq_getElem?_getD, List.getElem?_set]
  by_cases hk : i = k
  · subst hk; simp [hi]
  · have : ¬ k = i := fun h => hk h.symm
    simp [hk, this]

theorem getD_map_range {α : Type} (k : Nat) (f : Nat → α) (d : α) {i : Nat} (hi : i < k) :
    ((List.range k).map f).getD i d = f i := by
  simp [List.getD_eq_getElem?_getD, hi]

namespace Matrix

variable {T : Type}

theorem rawSet_tab (r c : Nat) (g : Nat → Nat → T) {i j : Nat} (hi : i < r) (hj : j < c)
    (v : T) :
    (tab r c g).rawSet i j v = .ok (tab r c (fun a b => if a = i ∧ b = j then v else g a b)) := by
  have h := set_tab r c g hi hj v
  have hb : ¬ (i ≥ (tab r c g).rows ∨ j ≥ (tab r c g).cols) := by simp; omega
  simp only [set, hb, if_false] at h
  cases hr : (tab r c g).rawSet i j v with
  | error e => rw [hr] at h; simp at h
  | ok m1 => rw [hr] at h; simp only [Prod.mk.injEq, true_and] at h; rw [h]

/-- `randomize` on a tabulated matrix stores the draws in row-major order. -/
theorem randomize_tab (r c : Nat) (g : Nat → Nat → T) (draws : Nat → T) :
    (tab r c g).randomize draws = .ok (tab r c (fun i j => draws (i * c + j))) := by
  have inner : ∀ i, i < r →
      forLoop c (fun j m1 => m1.rawSet i j (draws (i * c + j)))
        (tab r c (fun a b => if a < i then draws (a * c + b) else g a b)) =
      .ok (tab r c (fun a b => if a < i + 1 then draws (a * c + b) else g a b)) := by
    intro i hi
    have := forLoop_eq c (fun j m1 => m1.rawSet i j (draws (i * c + j)))
      (fun k => tab r c (fun a b =>
        if a < i ∨ (a = i ∧ b < k) then draws (a * c + b) else g a b))
      (fun k hk => by
        simp only []
        rw [rawSet_tab r c _ hi hk]
        congr 1
        apply tab_congr
        intro a b _ _
        by_cases h1 : a = i ∧ b = k
        · obtain ⟨rfl, rfl⟩ := h1; simp
        · have h2 : (a < i ∨ a = i ∧ b < k + 1) ↔ (a < i ∨ a = i ∧ b < k) := by omega
          simp only [h1, if_false, h2])
    have e0 : tab r c (fun a b => if a < i ∨ (a = i ∧ b < 0) then draws (a * c + b) else g a b) =
        tab r c (fun a b => if a < i then draws (a * c + b) else g a b) := by
      apply tab_congr; intro a b _ _; simp
    have e1 : tab r c (fun a b => if a < i ∨ (a = i ∧ b < c) then draws (a * c + b) else g a b) =
        tab r c (fun a b => if a < i + 1 then draws (a * c + b) else g a b) := by
      apply tab_congr; intro a b _ hb
      have : (a < i ∨ a = i ∧ b < c) ↔ a < i + 1 := by omega
      simp only [this]
    simp only [] at this
    rw [e0, e1] at this
    exact this
  have outer := forLoop_eq r (fun i m1 =>
      forLoop c (fun j m1 => m1.rawSet i j (draws (i * c + j))) m1)
    (fun k => tab r c (fun a b => if a < k then draws (a * c + b) else g a b))
    (fun k hk => inner k hk)
  have e0 : tab r c (fun a b => if a < 0 then draws (a * c + b) else g a b) = tab r c g := by
    apply tab_congr; intro a b _ _; simp
  have e1 : tab r c (fun a b => if a < r then draws (a * c + b) else g a b) =
      tab r c (fun a b => draws (a * c + b)) := by
    apply tab_congr; intro a b ha _; simp [ha]
  simp only [] at outer
  rw [e0, e1] at outer
  exact outer

/-- A returned `set` on a well-formed matrix leaves a well-formed matrix of the
same shape. -/
theorem setE_ok_shape [Zero T] {m m2 : Matrix T} {i j : Nat} {v : T} (h : m.WF)
    (hs : m.setE i j v = .ok m2) : m2.WF ∧ m2.rows = m.rows ∧ m2.cols = m.cols := by
  by_cases hb : i ≥ m.rows ∨ j ≥ m.cols
  · simp [setE, set_outOfRange m hb v] at hs
  · have hi : i < m.rows := by omega
    have hj : j < m.cols := by omega
    simp only [setE, set_eq h hi hj v, Except.ok.injEq] at hs
    subst hs
    exact ⟨tab_WF _ _ _, rfl, rfl⟩

end Matrix

theorem intToSize_eq {x : Int} (h0 : 0 ≤ x) (h1 : x < 2 ^ 31) : ((intToSize x : Nat) : Int) = x := by
  unfold intToSize
  have : x % 2 ^ 64 = x := Int.emod_eq_of_lt h0 (by omega)
  rw [this]
  exact Int.toNat_of_nonneg h0

theorem sizeSub_one {a : Nat} (h1 : 1 ≤ a) (h2 : a < 2 ^ 64) : sizeSub a 1 = a - 1 := by
  unfold sizeSub
  omega

namespace MLP

variable {T : Type}

/-- The weight matrix the constructor builds for layer `i`. -/
theorem new_eq [Zero T] (layers : List Int) (lr : T) (rng : Nat → Nat → T)
    (h1 : 1 ≤ layers.length) (h2 : layers.length < 2 ^ 64) :
    MLP.new layers lr rng =
      .ok ⟨(List.range (layers.length - 1)).map (fun i =>
          Matrix.tab (intToSize (layers.getD (i + 1) 0)) (intToSize (layers.getD i 0))
            (fun a b => rng (2 * i) (a * intToSize (layers.getD i 0) + b))),
        (List.range (layers.length - 1)).map (fun i =>
          Matrix.tab (intToSize (layers.getD (i + 1) 0)) 1
            (fun a b => rng (2 * i + 1) (a * 1 + b))), layers, lr⟩ := by
  have := forLoop_eq (layers.length - 1) (fun i (p : List (Matrix T) × List (Matrix T)) => do
      let l1 ← idx layers (i + 1)
      let l0 ← idx layers i
      let w : Matrix T := Matrix.ofSize (intToSize l1) (intToSize l0)
      let b : Matrix T := Matrix.ofSize (intToSize l1) 1
      let w ← w.randomize (rng (2 * i))
      let b ← b.randomize (rng (2 * i + 1))
      pure (p.1 ++ [w], p.2 ++ [b]))
    (fun k => ((List.range k).map (fun i =>
          Matrix.tab (intToSize (layers.getD (i + 1) 0)) (intToSize (layers.getD i 0))
            (fun a b => rng (2 * i) (a * intToSize (layers.getD i 0) + b))),
        (List.range k).map (fun i =>
          Matrix.tab (intToSize (layers.getD (i + 1) 0)) 1
            (fun a b => rng (2 * i + 1) (a * 1 + b)))))
    (fun k hk => by
      simp only []
      rw [idx_getD layers 0 (by omega : k + 1 < layers.length),
        idx_getD layers 0 (by omega : k < layers.length)]
      simp only [bind_ok_eq, Matrix.ofSize_eq_tab, Matrix.randomize_tab, pure_eq_ok,
        List.range_succ, List.map_append, List.map_cons, List.map_nil])
  simp only [List.range_zero, List.map_nil] at this
  simp only [MLP.new, sizeSub_one h1 h2]
  rw [this]
  rfl

end MLP

end MLPSpec

namespace MLPSpec

namespace MLP

variable {T : Type}

theorem new_WF [Zero T] (layers : List Int) (lr : T) (rng : Nat → Nat → T)
    (h1 : 1 ≤ layers.length) (hs : ∀ x ∈ layers, 0 ≤ x ∧ x < 2 ^ 31) :
    (⟨(List.range (layers.length - 1)).map (fun i =>
          Matrix.tab (intToSize (layers.getD (i + 1) 0)) (intToSize (layers.getD i 0))
            (fun a b => rng (2 * i) (a * intToSize (layers.getD i 0) + b))),
        (List.range (layers.length - 1)).map (fun i =>
          Matrix.tab (intToSize (layers.getD (i + 1) 0)) 1
            (fun a b => rng (2 * i + 1) (a * 1 + b))), layers, lr⟩ : MLP T).WF := by
  refine ⟨by simp, by simp, ?_⟩
  intro i hi
  simp only at hi
  have e1 := hs _ (getD_mem layers 0 (by omega : i + 1 < layers.length))
  have e0 := hs _ (getD_mem layers 0 (by omega : i < layers.length))
  simp only [W, B, getD_map_range _ _ _ hi]
  exact ⟨Matrix.tab_WF _ _ _, Matrix.tab_WF _ _ _, intToSize_eq e1.1 e1.2,
    intToSize_eq e0.1 e0.2, intToSize_eq e1.1 e1.2, rfl⟩

theorem WF.set_weight {n : MLP T} (h : n.WF) {i : Nat} {w2 : Matrix T}
    (hi : i < n.weights.length) (hw : w2.WF) (hr : w2.rows = (n.W i).rows)
    (hc : w2.cols = (n.W i).cols) :
    ({ n with weights := n.weights.set i w2 } : MLP T).WF := by
  refine ⟨by simp [h.1], h.2.1, ?_⟩
  intro k hk
  obtain ⟨a1, a2, a3, a4, a5, a6⟩ := h.2.2 k hk
  simp only [W, B] at *
  rw [getD_set _ _ _ _ _ hi]
  by_cases hki : k = i
  · subst hki
    simp only [if_true]
    exact ⟨hw, a2, by rw [hr]; exact a3, by rw [hc]; exact a4, a5, a6⟩
  · simp only [hki, if_false]
    exact ⟨a1, a2, a3, a4, a5, a6⟩

theorem WF.set_bias {n : MLP T} (h : n.WF) {i : Nat} {b2 : Matrix T}
    (hi : i < n.biases.length) (hb : b2.WF) (hr : b2.rows = (n.B i).rows)
    (hc : b2.cols = (n.B i).cols) :
    ({ n with biases := n.biases.set i b2 } : MLP T).WF := by
  refine ⟨h.1, by simp [h.2.1], ?_⟩
  intro k hk
  obtain ⟨a1, a2, a3, a4, a5, a6⟩ := h.2.2 k hk
  simp only [W, B] at *
  rw [getD_set _ _ _ _ _ hi]
  by_cases hki : k = i
  · subst hki
    simp only [if_true]
    exact ⟨a1, hb, a3, a4, by rw [hr]; exact a5, by rw [hc]; exact a6⟩
  · simp only [hki, if_false]
    exact ⟨a1, a2, a3, a4, a5, a6⟩

/-- A returned parameter update keeps the shape invariant, the layer sizes and
the learning rate, whatever the gradients are. -/
theorem update_preserves [Field T] {n n2 : MLP T} (wg bg : List (Matrix T)) (N : Nat)
    (hn : n.WF) (h : update n wg bg N = .ok n2) :
    n2.WF ∧ n2.layerSizes = n.layerSizes ∧ n2.learningRate = n.learningRate := by
  unfold update at h
  refine forLoop_inv_of_ok _ _
    (fun _ s => s.WF ∧ s.layerSizes = n.layerSizes ∧ s.learningRate = n.learningRate)
    _ _ ⟨hn, rfl, rfl⟩ ?_ h
  intro i s s1 _ hP hb
  simp only [bind_eq_ok] at hb
  obtain ⟨w0, _, hb⟩ := hb
  refine forLoop_inv_of_ok _ _
    (fun _ s => s.WF ∧ s.layerSizes = n.layerSizes ∧ s.learningRate = n.learningRate)
    _ _ hP ?_ hb
  intro j t t1 _ hP hb
  simp only [bind_eq_ok, pure_eq_ok, Except.ok.injEq] at hb
  obtain ⟨w1, _, t2, hloop, g0, _, g, _, b, hbi, old, _, b2, hb2, bs, hbs, rfl⟩ := hb
  have hQ : t2.WF ∧ t2.layerSizes = n.layerSizes ∧ t2.learningRate = n.learningRate := by
    refine forLoop_inv_of_ok _ _
      (fun _ s => s.WF ∧ s.layerSizes = n.layerSizes ∧ s.learningRate = n.learningRate)
      _ _ hP ?_ hloop
    intro k u u1 _ hP hb
    simp only [bind_eq_ok, pure_eq_ok, Except.ok.injEq] at hb
    obtain ⟨g0, _, g, _, w, hw, old, _, w2, hw2, ws, hws, rfl⟩ := hb
    obtain ⟨hi, hwe⟩ := idx_ok hw Matrix.empty
    have hi2 : i < u.layerSizes.length - 1 := by rw [← hP.1.1]; exact hi
    have hwf : w.WF := by rw [hwe]; exact (hP.1.2.2 i hi2).1
    obtain ⟨s1, s2, s3⟩ := Matrix.setE_ok_shape hwf hw2
    obtain ⟨_, hws2⟩ := assignAt_ok hws
    subst hws2
    exact ⟨hP.1.set_weight hi s1 (by rw [s2, hwe]; rfl) (by rw [s3, hwe]; rfl), hP.2.1, hP.2.2⟩
  obtain ⟨hi, hbe⟩ := idx_ok hbi Matrix.empty
  have hi2 : i < t2.layerSizes.length - 1 := by rw [← hQ.1.2.1]; exact hi
  have hwf : b.WF := by rw [hbe]; exact (hQ.1.2.2 i hi2).2.1
  obtain ⟨s1, s2, s3⟩ := Matrix.setE_ok_shape hwf hb2
  obtain ⟨_, hbs2⟩ := assignAt_ok hbs
  subst hbs2
  exact ⟨hQ.1.set_bias hi s1 (by rw [s2, hbe]; rfl) (by rw [s3, hbe]; rfl), hQ.2.1, hQ.2.2⟩

theorem epochStep_preserves [Field T] (exp : T → T) {n n2 : MLP T}
    (trainInputs trainTargets : List (Matrix T)) {loss : T} (hn : n.WF)
    (h : epochStep exp n trainInputs trainTargets = .ok (n2, loss)) :
    n2.WF ∧ n2.layerSizes = n.layerSizes ∧ n2.learningRate = n.learningRate := by
  unfold epochStep at h
  simp only [bind_eq_ok, pure_eq_ok, Except.ok.injEq, Prod.mk.injEq] at h
  obtain ⟨⟨wg0, bg0⟩, _, ⟨total, wg, bg⟩, _, n3, hu, rfl, _⟩ := h
  exact update_preserves wg bg _ hn hu

theorem forward_frame [Field T] (exp : T → T) {n n2 : MLP T} {x a : Matrix T}
    (h : forward exp n x = .ok (a, n2)) : n2 = n := by
  unfold forward at h
  simp only [bind_eq_ok, pure_eq_ok, Except.ok.injEq, Prod.mk.injEq] at h
  obtain ⟨_, _, _, rfl⟩ := h
  rfl

theorem evaluate_frame [Field T] (exp : T → T) {n n2 : MLP T} {inputs targets : List (Matrix T)}
    {loss : T} (h : evaluate exp n inputs targets = .ok (loss, n2)) : n2 = n := by
  unfold evaluate at h
  simp only [bind_eq_ok, pure_eq_ok, Except.ok.injEq, Prod.mk.injEq] at h
  obtain ⟨⟨total, n3⟩, hloop, _, rfl⟩ := h
  have := forLoop_inv_of_ok _ _ (fun _ (p : T × MLP T) => p.2 = n) _ _ rfl ?_ hloop
  · exact this
  · intro k ⟨t, s⟩ ⟨t1, s1⟩ _ hP hb
    simp only at hP
    subst hP
    simp only [bind_eq_ok, pure_eq_ok, Except.ok.injEq, Prod.mk.injEq] at hb
    obtain ⟨x, _, ⟨out, s2⟩, hf, tg, _, er, _, tl, _, _, rfl⟩ := hb
    exact forward_frame exp hf

/-- A returned call of `trainWithValidation` keeps the shape invariant, the
layer sizes and the learning rate. -/
theorem trainWithValidation_preserves [Field T] (exp : T → T) {n : MLP T}
    (trI trT vI vT : List (Matrix T)) (epochs : Int) (verbose : Bool)
    {r : MLP T × List (Nat × T × T)} (hn : n.WF)
    (h : trainWithValidation exp n trI trT vI vT epochs verbose = .ok r) :
    r.1.WF ∧ r.1.layerSizes = n.layerSizes ∧ r.1.learningRate = n.learningRate := by
  unfold trainWithValidation at h
  refine forLoop_inv_of_ok _ _
    (fun _ (p : MLP T × List (Nat × T × T)) =>
      p.1.WF ∧ p.1.layerSizes = n.layerSizes ∧ p.1.learningRate = n.learningRate)
    _ _ ⟨hn, rfl, rfl⟩ ?_ h
  intro k ⟨s, out⟩ ⟨s1, out1⟩ _ hP hb
  simp only at hP
  simp only [bind_eq_ok] at hb
  obtain ⟨⟨s2, loss⟩, hstep, hb⟩ := hb
  have hQ := epochStep_preserves exp trI trT hP.1 hstep
  simp only at hb
  split at hb
  · simp only [bind_eq_ok, pure_eq_ok, Except.ok.injEq, Prod.mk.injEq] at hb
    obtain ⟨⟨vl, s3⟩, hev, rfl, _⟩ := hb
    have := evaluate_frame exp hev
    subst this
    exact ⟨hQ.1, hQ.2.1.trans hP.2.1, hQ.2.2.trans hP.2.2⟩
  · simp only [pure_eq_ok, Except.ok.injEq, Prod.mk.injEq] at hb
    obtain ⟨rfl, _⟩ := hb
    exact ⟨hQ.1, hQ.2.1.trans hP.2.1, hQ.2.2.trans hP.2.2⟩

end MLP

end MLPSpec

namespace MLPSpec

/-- C10: for a layer-size list of length at least 2 whose sizes are
non-negative `int` values, the constructor returns a network that satisfies the
invariant `WF` (`weights.length = biases.length = layerSizes.length - 1`,
`weights[i]` of shape `layerSizes[i+1] x layerSizes[i]`, `biases[i]` of shape
`layerSizes[i+1] x 1`), whatever the random draws `rng` are; and every call of
`trainWithValidation` that returns, from a network satisfying the invariant,
leaves a network that satisfies it, with the same layer sizes and learning
rate. -/
theorem shape_invariant {T : Type} [Field T] (exp : T → T) :
    (∀ (layers : List Int) (lr : T) (rng : Nat → Nat → T),
      2 ≤ layers.length → layers.length < 2 ^ 64 → (∀ x ∈ layers, 0 ≤ x ∧ x < 2 ^ 31) →
      ∃ n, MLP.new layers lr rng = .ok n ∧ n.WF ∧ n.layerSizes = layers ∧
        n.learningRate = lr) ∧
    (∀ (n : MLP T) (trI trT vI vT : List (Matrix T)) (epochs : Int) (verbose : Bool)
      (r : MLP T × List (Nat × T × T)),
      n.WF → MLP.trainWithValidation exp n trI trT vI vT epochs verbose = .ok r →
      r.1.WF ∧ r.1.layerSizes = n.layerSizes ∧ r.1.learningRate = n.learningRate) := by
  refine ⟨?_, ?_⟩
  · intro layers lr rng h1 h2 hs
    exact ⟨_, MLP.new_eq layers lr rng (by omega) h2, MLP.new_WF layers lr rng (by omega) hs,
      rfl, rfl⟩
  · intro n trI trT vI vT epochs verbose r hn h
    exact MLP.trainWithValidation_preserves exp trI trT vI vT epochs verbose hn h

/-- C10, instance: the architecture `[2, 2, 1]` with all draws zero, and one
verbose epoch of `tinyNet`. -/
theorem shape_invariant_witness :
    (2 ≤ ([2, 2, 1] : List Int).length ∧ ([2, 2, 1] : List Int).length < 2 ^ 64 ∧
      (∀ x ∈ ([2, 2, 1] : List Int), 0 ≤ x ∧ x < 2 ^ 31) ∧
      ∃ n, MLP.new [2, 2, 1] (1 / 2 : ℚ) (fun _ _ => 0) = .ok n ∧ n.WF ∧
        n.layerSizes = [2, 2, 1] ∧ n.learningRate = 1 / 2) ∧
    (tinyNet.WF ∧
      MLP.trainWithValidation unitExp tinyNet [exampleInput] [exampleTarget] [exampleInput]
        [exampleTarget] 1 true = .ok (tinyTrained, [(0, 1 / 4, 1 / 4)]) ∧
      tinyTrained.WF ∧ tinyTrained.layerSizes = tinyNet.layerSizes ∧
        tinyTrained.learningRate = tinyNet.learningRate) :=
  ⟨⟨by decide, by decide, by decide,
      (shape_invariant unitExp).1 [2, 2, 1] (1 / 2) (fun _ _ => 0) (by decide) (by decide)
        (by decide)⟩,
    ⟨by decide, by decide!,
      (shape_invariant unitExp).2 tinyNet [exampleInput] [exampleTarget] [exampleInput]
        [exampleTarget] 1 true (tinyTrained, [(0, 1 / 4, 1 / 4)]) (by decide) (by decide!)⟩⟩

end MLPSpec

namespace MLPSpec

/-! ## Vectors of matrices -/

theorem idx_set_self {α : Type} (v : List α) {i : Nat} (a : α) (h : i < v.length) :
    idx (v.set i a) i = .ok a := by
  rw [idx_eq _ _ (by simpa using h)]
  simp

theorem assignAt_set_self {α : Type} (v : List α) {i : Nat} (a b : α) (h : i < v.length) :
    assignAt (v.set i a) i b = .ok (v.set i b) := by
  rw [assignAt_eq _ _ (by simpa using h), List.set_set]

theorem idx_set_ne {α : Type} (v : List α) {i k : Nat} (a : α) (h : k ≠ i) :
    idx (v.set i a) k = idx v k := by
  have : ¬ i = k := fun e => h e.symm
  simp [idx, List.getElem?_set, this]

theorem idx_map_range {α : Type} (k : Nat) (f : Nat → α) {i : Nat} (hi : i < k) :
    idx ((List.range k).map f) i = .ok (f i) := by
  rw [idx_eq _ _ (by simpa using hi)]
  simp

theorem map_range_congr {α : Type} (k : Nat) (f g : Nat → α) (h : ∀ i, i < k → f i = g i) :
    (List.range k).map f = (List.range k).map g :=
  List.map_congr_left (fun i hi => h i (List.mem_range.1 hi))

theorem set_map_range {α : Type} (k : Nat) (f : Nat → α) {i : Nat} (a : α) (hi : i < k) :
    ((List.range k).map f).set i a = (List.range k).map (fun j => if j = i then a else f j) := by
  apply List.ext_getElem
  · simp
  · intro j h1 h2
    simp only [List.length_map, List.length_range] at h2
    by_cases hj : j = i
    · subst hj; simp
    · have : ¬ i = j := fun e => hj e.symm
      simp [List.getElem_set_ne this, hj]

theorem eq_map_range {α : Type} (v : List α) (d : α) :
    v = (List.range v.length).map (fun i => v.getD i d) := by
  apply List.ext_getElem
  · simp
  · intro j h1 h2
    simp [List.getD_eq_getElem?_getD, h1]

theorem back_map_range {α : Type} (k : Nat) (f : Nat → α) :
    back ((List.range (k + 1)).map f) = .ok (f k) := by
  simp [back, List.getLast?_eq_getElem?]

theorem sizeToInt_sizeSub_two {L : Nat} (h1 : 1 ≤ L) (h2 : L < 2 ^ 31) :
    (sizeToInt (sizeSub L 2) + 1).toNat = L - 1 := by
  unfold sizeToInt sizeSub
  split <;> omega

namespace MLP

variable {T : Type}

/-- The forward pass of `trainWithValidation` caches the activations
`a_0, ..., a_L`. -/
theorem forwardCache_eq [Field T] (exp : T → T) {n : MLP T} (h : n.WF) {x : Matrix T}
    (hx : IsCol x (n.dim 0)) :
    ∃ lins, forwardCache exp n x =
      .ok ((List.range (n.depth + 1)).map (specAct exp n x), lins) := by
  obtain ⟨⟨a, as, ls⟩, hl, hP⟩ := forLoop_inv n.weights.length
    (fun i (p : Matrix T × List (Matrix T) × List (Matrix T)) => do
      let w ← idx n.weights i
      let prod ← w.mul p.1
      let b ← idx n.biases i
      let linear ← prod.add b
      let activation ← sigmoid exp linear
      pure (activation, p.2.1 ++ [activation], p.2.2 ++ [linear]))
    (fun k p => p.1 = specAct exp n x k ∧ p.2.1 = (List.range (k + 1)).map (specAct exp n x))
    (x, [x], []) ⟨rfl, by simp [specAct, List.range_succ]⟩
    (fun k ⟨a, as, ls⟩ hk ⟨h1, h2⟩ => by
      simp only at h1 h2
      subst h1 h2
      have hk2 : k < n.depth := hk
      obtain ⟨hw, hb, hr, hc, hbr, hbc⟩ := h.layer hk2
      have ha := specAct_isCol exp h hx k (Nat.le_of_lt hk2)
      have hmul := Matrix.mul_eq hw ha.1 (by rw [hc, ha.2.1])
      have hadd := Matrix.add_eq (Matrix.tab_WF (n.W k).rows (specAct exp n x k).cols
        (fun i j => ∑ q ∈ Finset.range (n.W k).cols,
          (n.W k).entry i q * (specAct exp n x k).entry q j)) hb
        (by simp [hbr, hr]) (by simp [hbc, ha.2.2])
      have hsig := sigmoid_eq exp (Matrix.tab_WF (n.W k).rows (specAct exp n x k).cols
        (fun i j => (Matrix.tab (n.W k).rows (specAct exp n x k).cols
          (fun i j => ∑ q ∈ Finset.range (n.W k).cols,
            (n.W k).entry i q * (specAct exp n x k).entry q j)).entry i j + (n.B k).entry i j))
      have hlay := layer_eq exp hw ⟨hb, by rw [hbr, hr], hbc⟩ (a := specAct exp n x k)
        ⟨ha.1, by rw [ha.2.1, hc], ha.2.2⟩
      simp only [hmul, bind_ok_eq, Matrix.tab_rows, Matrix.tab_cols] at hadd hsig hlay
      simp only [hadd, bind_ok_eq, Matrix.tab_rows, Matrix.tab_cols] at hsig hlay
      simp only [hsig, Except.ok.injEq] at hlay
      simp only [h.idx_weights hk2, h.idx_biases hk2, bind_ok_eq, hmul, hadd, hsig,
        Matrix.tab_rows, Matrix.tab_cols, pure_eq_ok]
      refine ⟨_, rfl, ?_, ?_⟩
      · exact hlay
      · simp only [hlay]
        rw [List.range_succ (k + 1), List.map_append]
        rfl)
  simp only at hP
  refine ⟨ls, ?_⟩
  simp only [forwardCache]
  have e : n.depth = n.weights.length := rfl
  rw [e, ← hP.2]
  rw [show (forLoop n.weights.length
      (fun i (p : Matrix T × List (Matrix T) × List (Matrix T)) =>
        match p with
        | (activation, activations, linearOutputs) => do
          let w ← idx n.weights i
          let prod ← w.mul activation
          let b ← idx n.biases i
          let linear ← prod.add b
          let activation ← sigmoid exp linear
          pure (activation, activations ++ [activation], linearOutputs ++ [linear]))
      (x, [x], [])) = Except.ok (a, as, ls) from hl]
  rfl

end MLP

end MLPSpec

namespace MLPSpec

namespace MLP

variable {T : Type}

/-- The loops that fill the delta of the output layer. -/
theorem outputDelta_loop [Field T] (v : List (Matrix T)) {p : Nat} (hp : p < v.length)
    (hp2 : sizeSub v.length 1 = p) {E D : Matrix T} (hE : E.WF) (hD : D.WF)
    (hr : D.rows = E.rows) (hc : D.cols = E.cols) (g0 : Nat → Nat → T) :
    forLoop E.rows (fun i deltas =>
      forLoop E.cols (fun j deltas => do
        let e ← E.get i j
        let d ← D.get i j
        let dl ← idx deltas (sizeSub deltas.length 1)
        let dl ← dl.setE i j (2 * e * d)
        assignAt deltas (sizeSub deltas.length 1) dl) deltas)
      (v.set p (Matrix.tab E.rows E.cols g0)) =
    .ok (v.set p (Matrix.tab E.rows E.cols (fun i j => 2 * E.entry i j * D.entry i j))) := by
  have inner : ∀ i, i < E.rows →
      forLoop E.cols (fun j deltas => do
        let e ← E.get i j
        let d ← D.get i j
        let dl ← idx deltas (sizeSub deltas.length 1)
        let dl ← dl.setE i j (2 * e * d)
        assignAt deltas (sizeSub deltas.length 1) dl)
        (v.set p (Matrix.tab E.rows E.cols
          (fun a b => if a < i then 2 * E.entry a b * D.entry a b else g0 a b))) =
      .ok (v.set p (Matrix.tab E.rows E.cols
          (fun a b => if a < i + 1 then 2 * E.entry a b * D.entry a b else g0 a b))) := by
    intro i hi
    have := forLoop_eq E.cols (fun j deltas => do
        let e ← E.get i j
        let d ← D.get i j
        let dl ← idx deltas (sizeSub deltas.length 1)
        let dl ← dl.setE i j (2 * e * d)
        assignAt deltas (sizeSub deltas.length 1) dl)
      (fun k => v.set p (Matrix.tab E.rows E.cols (fun a b =>
        if a < i ∨ (a = i ∧ b < k) then 2 * E.entry a b * D.entry a b else g0 a b)))
      (fun k hk => by
        have hi2 : i < D.rows := by rw [hr]; exact hi
        have hk2 : k < D.cols := by rw [hc]; exact hk
        simp only [Matrix.get_eq hE hi hk, Matrix.get_eq hD hi2 hk2, bind_ok_eq,
          List.length_set, hp2]
        rw [idx_set_self v _ hp]
        simp only [bind_ok_eq, Matrix.setE_tab _ _ _ hi hk]
        rw [assignAt_set_self v _ _ hp]
        refine congrArg (fun m => Except.ok (v.set p m)) ?_
        apply Matrix.tab_congr
        intro a b _ _
        by_cases h1 : a = i ∧ b = k
        · obtain ⟨rfl, rfl⟩ := h1; simp
        · have h2 : (a < i ∨ a = i ∧ b < k + 1) ↔ (a < i ∨ a = i ∧ b < k) := by omega
          simp only [h1, if_false, h2])
    have e0 : Matrix.tab E.rows E.cols (fun a b =>
        if a < i ∨ (a = i ∧ b < 0) then 2 * E.entry a b * D.entry a b else g0 a b) =
        Matrix.tab E.rows E.cols (fun a b =>
          if a < i then 2 * E.entry a b * D.entry a b else g0 a b) := by
      apply Matrix.tab_congr; intro a b _ _; simp
    have e1 : Matrix.tab E.rows E.cols (fun a b =>
        if a < i ∨ (a = i ∧ b < E.cols) then 2 * E.entry a b * D.entry a b else g0 a b) =
        Matrix.tab E.rows E.cols (fun a b =>
          if a < i + 1 then 2 * E.entry a b * D.entry a b else g0 a b) := by
      apply Matrix.tab_congr; intro a b _ hb
      have : (a < i ∨ a = i ∧ b < E.cols) ↔ a < i + 1 := by omega
      simp only [this]
    simp only [] at this
    rw [e0, e1] at this
    exact this
  have outer := forLoop_eq E.rows (fun i deltas =>
      forLoop E.cols (fun j deltas => do
        let e ← E.get i j
        let d ← D.get i j
        let dl ← idx deltas (sizeSub deltas.length 1)
        let dl ← dl.setE i j (2 * e * d)
        assignAt deltas (sizeSub deltas.length 1) dl) deltas)
    (fun k => v.set p (Matrix.tab E.rows E.cols
      (fun a b => if a < k then 2 * E.entry a b * D.entry a b else g0 a b)))
    (fun k hk => inner k hk)
  have e0 : Matrix.tab E.rows E.cols
      (fun a b => if a < 0 then 2 * E.entry a b * D.entry a b else g0 a b) =
      Matrix.tab E.rows E.cols g0 := by
    apply Matrix.tab_congr; intro a b _ _; simp
  have e1 : Matrix.tab E.rows E.cols
      (fun a b => if a < E.rows then 2 * E.entry a b * D.entry a b else g0 a b) =
      Matrix.tab E.rows E.cols (fun a b => 2 * E.entry a b * D.entry a b) := by
    apply Matrix.tab_congr; intro a b ha _; simp [ha]
  simp only [] at outer
  rw [e0, e1] at outer
  exact outer

/-- One step of the descending loop: the delta of layer `i` from the delta of
layer `i + 1`. -/
theorem hiddenDelta_step [Field T] (n : MLP T) (activations v : List (Matrix T)) {i : Nat}
    {Wn A Dn : Matrix T} (hi : i < v.length) (hW : idx n.weights (i + 1) = .ok Wn)
    (hA : idx activations (i + 1) = .ok A) (hD : idx v (i + 1) = .ok Dn) (hWn : Wn.WF)
    (hAc : IsCol A Wn.cols) (hDc : IsCol Dn Wn.rows) :
    (do let sigmoidDeriv ← sigmoidDerivative (← idx activations (i + 1))
        let deltas ← assignAt v i (Matrix.ofSize (← idx n.weights (i + 1)).cols 1)
        forLoop (← idx deltas i).rows (fun j deltas => do
          let sum ← forLoop (← idx n.weights (i + 1)).rows (fun k sum => do
            let w ← (← idx n.weights (i + 1)).get k j
            let d ← (← idx deltas (i + 1)).get k 0
            pure (sum + w * d)) (0 : T)
          let sd ← sigmoidDeriv.get j 0
          let di ← idx deltas i
          let di ← di.setE j 0 (sum * sd)
          assignAt deltas i di) deltas) =
      Except.ok (v.set i (specHiddenDelta Wn A Dn)) := by
  simp only [hA, hW, bind_ok_eq, sigmoidDerivative_eq hAc.1, assignAt_eq v _ hi,
    idx_set_self v _ hi, Matrix.ofSize_eq_tab, Matrix.tab_rows]
  have hne : i + 1 ≠ i := by omega
  have := forLoop_eq Wn.cols (fun j deltas => do
      let sum ← forLoop Wn.rows (fun k sum => do
        let w ← Wn.get k j
        let d ← (← idx deltas (i + 1)).get k 0
        pure (sum + w * d)) (0 : T)
      let sd ← (Matrix.tab A.rows A.cols (fun i j => A.entry i j * (1 - A.entry i j))).get j 0
      let di ← idx deltas i
      let di ← di.setE j 0 (sum * sd)
      assignAt deltas i di)
    (fun q => v.set i (Matrix.tab Wn.cols 1 (fun a _ =>
      if a < q then (∑ k ∈ Finset.range Wn.rows, Wn.entry k a * Dn.entry k 0) *
        (A.entry a 0 * (1 - A.entry a 0)) else 0)))
    (fun q hq => by
      have hsum := forLoop_sum Wn.rows (fun k sum => do
          let w ← Wn.get k q
          let d ← (← idx (v.set i (Matrix.tab Wn.cols 1 (fun a _ =>
            if a < q then (∑ k ∈ Finset.range Wn.rows, Wn.entry k a * Dn.entry k 0) *
              (A.entry a 0 * (1 - A.entry a 0)) else 0))) (i + 1)).get k 0
          pure (sum + w * d)) (fun k => Wn.entry k q * Dn.entry k 0) 0
        (fun k s hk => by
          simp only [Matrix.get_eq hWn hk hq, bind_ok_eq, idx_set_ne v _ hne, hD,
            Matrix.get_eq hDc.1 (by rw [hDc.2.1]; exact hk) (by rw [hDc.2.2]; exact Nat.one_pos),
            pure_eq_ok])
      simp only [] at hsum ⊢
      rw [hsum]
      have hq2 : q < (Matrix.tab A.rows A.cols
          (fun i j => A.entry i j * (1 - A.entry i j))).rows := by
        rw [Matrix.tab_rows, hAc.2.1]; exact hq
      have h02 : 0 < (Matrix.tab A.rows A.cols
          (fun i j => A.entry i j * (1 - A.entry i j))).cols := by
        rw [Matrix.tab_cols, hAc.2.2]; exact Nat.one_pos
      simp only [bind_ok_eq, Matrix.get_eq (Matrix.tab_WF _ _ _) hq2 h02,
        idx_set_self v _ hi, Matrix.setE_tab _ _ _ hq Nat.one_pos, assignAt_set_self v _ _ hi]
      refine congrArg (fun m => Except.ok (v.set i m)) ?_
      apply Matrix.tab_congr
      intro a b _ hb
      have hb0 : b = 0 := by omega
      subst hb0
      by_cases h1 : a = q
      · subst h1
        simp only [and_self, if_true, Nat.lt_succ_self, zero_add]
        rw [Matrix.entry_tab _ _ _ (by rw [hAc.2.1]; exact hq) (by rw [hAc.2.2]; exact Nat.one_pos)]
      · have h2 : a < q + 1 ↔ a < q := by omega
        simp only [h1, false_and, if_false, h2])
  have e0 : Matrix.tab Wn.cols 1 (fun a _ =>
      if a < 0 then (∑ k ∈ Finset.range Wn.rows, Wn.entry k a * Dn.entry k 0) *
        (A.entry a 0 * (1 - A.entry a 0)) else (0 : T)) = Matrix.tab Wn.cols 1 (fun _ _ => 0) := by
    apply Matrix.tab_congr; intro a b _ _; simp
  have e1 : Matrix.tab Wn.cols 1 (fun a _ =>
      if a < Wn.cols then (∑ k ∈ Finset.range Wn.rows, Wn.entry k a * Dn.entry k 0) *
        (A.entry a 0 * (1 - A.entry a 0)) else (0 : T)) = specHiddenDelta Wn A Dn := by
    apply Matrix.tab_congr; intro a b ha _; simp [ha]
  simp only [] at this
  rw [e0, e1] at this
  exact this

end MLP

end MLPSpec

namespace MLPSpec

/-- A bind whose first computation returns a known value. -/
theorem bind_eq_of {α β : Type} {x : Except Err α} {a : α} {f : α → Except Err β}
    {r : Except Err β} (h1 : x = .ok a) (h2 : f a = r) : (x >>= f) = r := by
  subst h1; exact h2

/-- A descending loop whose state after `m` steps is a known function of `m`. -/
theorem forLoopDown_eq {σ : Type} (start : Int) (cnt : Nat) (hc : (start + 1).toNat = cnt)
    (body : Nat → σ → Except Err σ) (f : Nat → σ)
    (hstep : ∀ m, m < cnt → body (cnt - 1 - m) (f m) = .ok (f (m + 1)))
    (s0 : σ) (h0 : s0 = f 0) (r : σ) (hr : r = f cnt) :
    forLoopDown start body s0 = .ok r := by
  subst h0 hr
  unfold forLoopDown
  rw [hc]
  exact forLoop_eq cnt _ f hstep

namespace MLP

variable {T : Type}

theorem specDeltaRev_isCol [Field T] (exp : T → T) {n : MLP T} (h : n.WF) {x : Matrix T}
    (hx : IsCol x (n.dim 0)) (t : Matrix T) (hL : 1 ≤ n.depth) :
    ∀ d, d < n.depth → IsCol (specDeltaRev exp n x t d) (n.W (n.depth - 1 - d)).rows
  | 0, _ => by
    have ha := specAct_isCol exp h hx n.depth (Nat.le_refl _)
    have hw := (h.layer (by omega : n.depth - 1 < n.depth)).2.2.1
    have e : n.depth - 1 + 1 = n.depth := by omega
    refine ⟨Matrix.tab_WF _ _ _, ?_, rfl⟩
    simp only [specDeltaRev, specOutputDelta, Matrix.tab_rows, Nat.sub_zero, hw, e, ha.2.1]
  | d + 1, hd => by
    have hw1 := (h.layer (by omega : n.depth - 1 - d < n.depth)).2.2.2.1
    have hw2 := (h.layer (by omega : n.depth - 1 - (d + 1) < n.depth)).2.2.1
    have e : n.depth - 1 - (d + 1) + 1 = n.depth - 1 - d := by omega
    refine ⟨Matrix.tab_WF _ _ _, ?_, rfl⟩
    simp only [specDeltaRev, specHiddenDelta, Matrix.tab_rows, hw1, hw2, e]

/-- The backward pass as the sequence of its four stages. -/
theorem backward_of [Field T] (n : MLP T) (acts : List (Matrix T)) (E : Matrix T)
    {A D : Matrix T} {d1 d2 res : List (Matrix T)}
    (h0 : back acts = .ok A) (h1 : sigmoidDerivative A = .ok D)
    (h2 : assignAt (List.replicate n.weights.length (Matrix.empty : Matrix T))
      (sizeSub (List.replicate n.weights.length (Matrix.empty : Matrix T)).length 1)
      (Matrix.ofSize E.rows E.cols) = .ok d1)
    (h3 : forLoop E.rows (fun i deltas =>
      forLoop E.cols (fun j deltas => do
        let e ← E.get i j
        let d ← D.get i j
        let dl ← idx deltas (sizeSub deltas.length 1)
        let dl ← dl.setE i j (2 * e * d)
        assignAt deltas (sizeSub deltas.length 1) dl) deltas) d1 = .ok d2)
    (h4 : forLoopDown (sizeToInt (sizeSub n.weights.length 2)) (fun i deltas => do
      let sigmoidDeriv ← sigmoidDerivative (← idx acts (i + 1))
      let deltas ← assignAt deltas i (Matrix.ofSize (← idx n.weights (i + 1)).cols 1)
      forLoop (← idx deltas i).rows (fun j deltas => do
        let sum ← forLoop (← idx n.weights (i + 1)).rows (fun k sum => do
          let w ← (← idx n.weights (i + 1)).get k j
          let d ← (← idx deltas (i + 1)).get k 0
          pure (sum + w * d)) (0 : T)
        let sd ← sigmoidDeriv.get j 0
        let di ← idx deltas i
        let di ← di.setE j 0 (sum * sd)
        assignAt deltas i di) deltas) d2 = .ok res) :
    backward n acts E = .ok res := by
  unfold backward
  refine bind_eq_of h0 ?_
  refine bind_eq_of h1 ?_
  refine bind_eq_of h2 ?_
  refine bind_eq_of h3 ?_
  exact h4

/-- The backward pass of one sample computes the deltas `specDelta`. -/
theorem backward_eq [Field T] (exp : T → T) {n : MLP T} (h : n.WF) {x t E : Matrix T}
    (hx : IsCol x (n.dim 0)) (hL : 1 ≤ n.depth) (hL2 : n.depth < 2 ^ 31)
    (hE : IsCol E (n.dim n.depth))
    (hEe : ∀ j, j < n.dim n.depth →
      E.entry j 0 = (specAct exp n x n.depth).entry j 0 - t.entry j 0) :
    backward n ((List.range (n.depth + 1)).map (specAct exp n x)) E =
      .ok ((List.range n.depth).map (specDelta exp n x t)) := by
  have ha := specAct_isCol exp h hx n.depth (Nat.le_refl _)
  have hlen : (List.replicate n.weights.length (Matrix.empty : Matrix T)).length = n.depth := by
    simp [depth]
  have hp : n.depth - 1 < (List.replicate n.weights.length (Matrix.empty : Matrix T)).length := by
    rw [hlen]; omega
  have hp2 : sizeSub (List.replicate n.weights.length (Matrix.empty : Matrix T)).length 1 =
      n.depth - 1 := by
    rw [hlen]; exact sizeSub_one hL (by omega)
  have hout := outputDelta_loop (List.replicate n.weights.length (Matrix.empty : Matrix T)) hp hp2
    hE.1 (Matrix.tab_WF (specAct exp n x n.depth).rows (specAct exp n x n.depth).cols
      (fun i j => (specAct exp n x n.depth).entry i j * (1 - (specAct exp n x n.depth).entry i j)))
    (by rw [Matrix.tab_rows, ha.2.1, hE.2.1]) (by rw [Matrix.tab_cols, ha.2.2, hE.2.2])
    (fun _ _ => 0)
  have hdepth : n.weights.length = n.depth := rfl
  refine backward_of n _ E (back_map_range n.depth (specAct exp n x))
    (sigmoidDerivative_eq ha.1) (by rw [hp2]; exact assignAt_eq _ _ hp)
    (by rw [Matrix.ofSize_eq_tab]; exact hout) ?_
  refine forLoopDown_eq _ (n.depth - 1) (by rw [hdepth]; exact sizeToInt_sizeSub_two hL hL2) _
    (fun m => (List.range n.depth).map (fun i =>
      if n.depth - 1 - m ≤ i then specDeltaRev exp n x t (n.depth - 1 - i) else Matrix.empty))
    ?_ _ ?_ _ ?_
  · intro m hm
    have hi : n.depth - 1 - 1 - m + 1 = n.depth - 1 - m := by omega
    have hlt : n.depth - 1 - 1 - m + 1 < n.depth := by omega
    have hstep := @hiddenDelta_step T _ n ((List.range (n.depth + 1)).map (specAct exp n x))
      ((List.range n.depth).map (fun i =>
        if n.depth - 1 - m ≤ i then specDeltaRev exp n x t (n.depth - 1 - i) else Matrix.empty))
      (n.depth - 1 - 1 - m) (n.W (n.depth - 1 - m))
      (specAct exp n x (n.depth - 1 - m)) (specDeltaRev exp n x t m)
      (by simp; omega)
      (by rw [hi]; exact h.idx_weights (by omega))
      (by rw [hi]; exact idx_map_range _ _ (by omega))
      (by
        rw [hi, idx_map_range _ _ (by omega)]
        have e : n.depth - 1 - (n.depth - 1 - m) = m := by omega
        simp only [Nat.le_refl, if_true, e])
      (h.layer (by omega)).1
      (by
        have := specAct_isCol exp h hx (n.depth - 1 - m) (by omega)
        rw [(h.layer (by omega : n.depth - 1 - m < n.depth)).2.2.2.1]
        exact this)
      (by
        have := specDeltaRev_isCol exp h hx t hL m (by omega)
        exact this)
    refine hstep.trans ?_
    refine congrArg Except.ok ?_
    rw [set_map_range _ _ _ (by omega)]
    apply map_range_congr
    intro j hj
    by_cases hji : j = n.depth - 1 - 1 - m
    · have e1 : n.depth - 1 - j = m + 1 := by omega
      have e2 : n.depth - 1 - (m + 1) ≤ j := by omega
      simp only [hji, if_true]
      rw [← hji]
      simp only [e1, e2, if_true, specDeltaRev]
    · have e : (n.depth - 1 - (m + 1) ≤ j) ↔ (n.depth - 1 - m ≤ j) := by omega
      simp only [hji, if_false, e]
  · apply List.ext_getElem
    · simp [depth]
    · intro j h1 h2
      simp only [List.length_map, List.length_range] at h2
      by_cases hj : j = n.depth - 1
      · subst hj
        have e : n.depth - 1 - (n.depth - 1) = 0 := by omega
        simp only [List.getElem_set_self, List.getElem_map, List.getElem_range, Nat.sub_zero,
          Nat.le_refl, if_true, e, specDeltaRev, specOutputDelta, hE.2.1, hE.2.2, ha.2.1]
        apply Matrix.tab_congr
        intro a b ha1 hb
        have hb0 : b = 0 := by omega
        subst hb0
        rw [Matrix.entry_tab _ _ _ (by exact ha1) (by rw [ha.2.2]; exact hb),
          hEe a ha1]
      · have hne : ¬ n.depth - 1 = j := fun e => hj e.symm
        have hlt : ¬ (n.depth - 1 - 0 ≤ j) := by omega
        have hlt2 : ¬ (n.depth ≤ j + 1) := by omega
        simp [List.getElem_set_ne hne, hlt, hlt2]
  · apply map_range_congr
    intro j _
    have : n.depth - 1 - (n.depth - 1) ≤ j := by omega
    simp only [this, if_true, specDelta]

end MLP

end MLPSpec
namespace MLPSpec

theorem Matrix.get_tab {T : Type} [Zero T] (r c : Nat) (g : Nat → Nat → T) {i j : Nat}
    (hi : i < r) (hj : j < c) : (Matrix.tab r c g).get i j = .ok (g i j) := by
  rw [Matrix.get_eq (Matrix.tab_WF r c g) (by rw [Matrix.tab_rows]; exact hi)
    (by rw [Matrix.tab_cols]; exact hj), Matrix.entry_tab r c g hi hj]

theorem set_self_of_idx {α : Type} {v : List α} {i : Nat} {a : α} (h : idx v i = .ok a) :
    v.set i a = v := by
  obtain ⟨hi, ha⟩ := idx_ok h a
  apply List.ext_getElem
  · simp
  · intro j h1 h2
    by_cases hj : i = j
    · subst hj
      simp only [List.getElem_set_self]
      rw [ha, List.getD_eq_getElem?_getD, List.getElem?_eq_getElem h2, Option.getD_some]
    · simp [List.getElem_set_ne hj]

/-- A loop whose state after `k` steps is a known function of `k`, with the
first and the last state given up to equality. -/
theorem forLoop_eq_gen {σ : Type} (n : Nat) (body : Nat → σ → Except Err σ) (f : Nat → σ)
    (hstep : ∀ k, k < n → body k (f k) = .ok (f (k + 1))) (s0 : σ) (h0 : s0 = f 0) (r : σ)
    (hr : r = f n) : forLoop n body s0 = .ok r := by
  subst h0 hr
  exact forLoop_eq n body f hstep

namespace MLP

variable {T : Type}

/-- The loop over the columns of row `j` in the accumulation of layer `i`: the
row `j` of the weight gradient grows by `delta(j) * activation(k)`. -/
theorem accumulate_row [Field T] (deltas acts v : List (Matrix T)) {i j r c : Nat}
    {D A : Matrix T} (hi : i < v.length) (hD : idx deltas i = .ok D)
    (hA : idx acts i = .ok A) (hDc : IsCol D r) (hAc : IsCol A c) (hj : j < r)
    (g0 : Nat → Nat → T) :
    forLoop c (fun k wg => do
        let d ← (← idx deltas i).get j 0
        let a ← (← idx acts i).get k 0
        let gradient := d * a
        let g ← idx wg i
        let old ← g.get j k
        let g ← g.setE j k (old + gradient)
        assignAt wg i g) (v.set i (Matrix.tab r c g0)) =
      .ok (v.set i (Matrix.tab r c (fun a b =>
        if a = j then g0 a b + D.entry j 0 * A.entry b 0 else g0 a b))) := by
  have := forLoop_eq c (fun k wg => do
        let d ← (← idx deltas i).get j 0
        let a ← (← idx acts i).get k 0
        let gradient := d * a
        let g ← idx wg i
        let old ← g.get j k
        let g ← g.setE j k (old + gradient)
        assignAt wg i g)
    (fun q => v.set i (Matrix.tab r c (fun a b =>
      if a = j ∧ b < q then g0 a b + D.entry j 0 * A.entry b 0 else g0 a b)))
    (fun q hq => by
      have hj2 : j < D.rows := by rw [hDc.2.1]; exact hj
      have h02 : 0 < D.cols := by rw [hDc.2.2]; exact Nat.one_pos
      have hq2 : q < A.rows := by rw [hAc.2.1]; exact hq
      have h03 : 0 < A.cols := by rw [hAc.2.2]; exact Nat.one_pos
      simp only [hD, hA, bind_ok_eq, Matrix.get_eq hDc.1 hj2 h02, Matrix.get_eq hAc.1 hq2 h03,
        idx_set_self v _ hi, Matrix.get_tab r c _ hj hq, Matrix.setE_tab r c _ hj hq,
        assignAt_set_self v _ _ hi]
      refine congrArg (fun m => Except.ok (v.set i m)) ?_
      apply Matrix.tab_congr
      intro a b _ _
      by_cases h1 : a = j ∧ b = q
      · obtain ⟨rfl, rfl⟩ := h1; simp
      · have h2 : (a = j ∧ b < q + 1) ↔ (a = j ∧ b < q) := by omega
        simp only [h1, if_false, h2])
  have e0 : Matrix.tab r c (fun a b =>
      if a = j ∧ b < 0 then g0 a b + D.entry j 0 * A.entry b 0 else g0 a b) =
      Matrix.tab r c g0 := by
    apply Matrix.tab_congr; intro a b _ _; simp
  have e1 : Matrix.tab r c (fun a b =>
      if a = j ∧ b < c then g0 a b + D.entry j 0 * A.entry b 0 else g0 a b) =
      Matrix.tab r c (fun a b =>
        if a = j then g0 a b + D.entry j 0 * A.entry b 0 else g0 a b) := by
    apply Matrix.tab_congr; intro a b _ hb; simp [hb]
  simp only [] at this
  rw [e0, e1] at this
  exact this

/-- The loop over the rows of layer `i` in the accumulation: the weight gradient
of the layer grows by `delta(j) * activation(k)` and its bias gradient by
`delta(j)`. -/
theorem accumulate_layer [Field T] (n : MLP T) (deltas acts v u : List (Matrix T))
    {i r c : Nat} {Wi D A : Matrix T} (hW : idx n.weights i = .ok Wi) (hr : Wi.rows = r)
    (hc : Wi.cols = c) (hiv : i < v.length) (hiu : i < u.length)
    (hD : idx deltas i = .ok D) (hA : idx acts i = .ok A) (hDc : IsCol D r) (hAc : IsCol A c)
    (g0 h0 : Nat → Nat → T) :
    (do forLoop (← idx n.weights i).rows (fun j (wg, bg) => do
          let wg ← forLoop (← idx n.weights i).cols (fun k wg => do
            let d ← (← idx deltas i).get j 0
            let a ← (← idx acts i).get k 0
            let gradient := d * a
            let g ← idx wg i
            let old ← g.get j k
            let g ← g.setE j k (old + gradient)
            assignAt wg i g) wg
          let b ← idx bg i
          let old ← b.get j 0
          let d ← (← idx deltas i).get j 0
          let b ← b.setE j 0 (old + d)
          let bg ← assignAt bg i b
          pure (wg, bg)) (v.set i (Matrix.tab r c g0), u.set i (Matrix.tab r 1 h0)) :
        Except Err (List (Matrix T) × List (Matrix T))) =
      .ok (v.set i (Matrix.tab r c (fun a b => g0 a b + D.entry a 0 * A.entry b 0)),
        u.set i (Matrix.tab r 1 (fun a b => h0 a b + D.entry a 0))) := by
  simp only [hW, bind_ok_eq, hr, hc]
  have := @forLoop_eq (List (Matrix T) × List (Matrix T)) r (fun j p => do
          let wg ← forLoop c (fun k (wg : List (Matrix T)) => do
            let d ← (← idx deltas i).get j 0
            let a ← (← idx acts i).get k 0
            let gradient := d * a
            let g ← idx wg i
            let old ← g.get j k
            let g ← g.setE j k (old + gradient)
            assignAt wg i g) p.1
          let b : Matrix T ← idx p.2 i
          let old ← b.get j 0
          let d ← (← idx deltas i).get j 0
          let b ← b.setE j 0 (old + d)
          let bg ← assignAt p.2 i b
          pure (wg, bg))
    (fun q => (v.set i (Matrix.tab r c (fun a b =>
        if a < q then g0 a b + D.entry a 0 * A.entry b 0 else g0 a b)),
      u.set i (Matrix.tab r 1 (fun a b => if a < q then h0 a b + D.entry a 0 else h0 a b))))
    (fun q hq => by
      have hq2 : q < D.rows := by rw [hDc.2.1]; exact hq
      have h02 : 0 < D.cols := by rw [hDc.2.2]; exact Nat.one_pos
      simp only []
      rw [accumulate_row deltas acts v hiv hD hA hDc hAc hq]
      simp only [bind_ok_eq, idx_set_self u _ hiu, Matrix.get_tab r 1 _ hq Nat.one_pos, hD,
        Matrix.get_eq hDc.1 hq2 h02, Matrix.setE_tab r 1 _ hq Nat.one_pos,
        assignAt_set_self u _ _ hiu, pure_eq_ok]
      refine congrArg₂ (fun m1 m2 => Except.ok (v.set i m1, u.set i m2)) ?_ ?_
      · apply Matrix.tab_congr
        intro a b _ _
        by_cases h1 : a = q
        · subst h1; simp
        · have h2 : a < q + 1 ↔ a < q := by omega
          simp only [h1, if_false, h2]
      · apply Matrix.tab_congr
        intro a b _ hb
        have hb0 : b = 0 := by omega
        subst hb0
        by_cases h1 : a = q
        · subst h1; simp
        · have h2 : a < q + 1 ↔ a < q := by omega
          simp only [h1, false_and, if_false, h2])
  have e0 : Matrix.tab r c (fun a b =>
      if a < 0 then g0 a b + D.entry a 0 * A.entry b 0 else g0 a b) = Matrix.tab r c g0 := by
    apply Matrix.tab_congr; intro a b _ _; simp
  have e1 : Matrix.tab r c (fun a b =>
      if a < r then g0 a b + D.entry a 0 * A.entry b 0 else g0 a b) =
      Matrix.tab r c (fun a b => g0 a b + D.entry a 0 * A.entry b 0) := by
    apply Matrix.tab_congr; intro a b ha _; simp [ha]
  have e2 : Matrix.tab r 1 (fun a b => if a < 0 then h0 a b + D.entry a 0 else h0 a b) =
      Matrix.tab r 1 h0 := by
    apply Matrix.tab_congr; intro a b _ _; simp
  have e3 : Matrix.tab r 1 (fun a b => if a < r then h0 a b + D.entry a 0 else h0 a b) =
      Matrix.tab r 1 (fun a b => h0 a b + D.entry a 0) := by
    apply Matrix.tab_congr; intro a b ha _; simp [ha]
  simp only [] at this
  rw [e0, e1, e2, e3] at this
  exact this

/-- The accumulation of one sample: the weight gradient of every layer grows by
`delta_i(j) * activation_i(k)` and its bias gradient by `delta_i(j)`. -/
theorem accumulate_eq [Field T] {n : MLP T} (h : n.WF) (acts deltas : List (Matrix T))
    (A D : Nat → Matrix T) (G H : Nat → Nat → Nat → T)
    (hacts : ∀ i, i < n.depth → idx acts i = .ok (A i))
    (hdeltas : ∀ i, i < n.depth → idx deltas i = .ok (D i))
    (hA : ∀ i, i < n.depth → IsCol (A i) (n.W i).cols)
    (hD : ∀ i, i < n.depth → IsCol (D i) (n.W i).rows) :
    accumulate n acts deltas
      ((List.range n.depth).map (fun i => Matrix.tab (n.W i).rows (n.W i).cols (G i)))
      ((List.range n.depth).map (fun i => Matrix.tab (n.W i).rows 1 (H i))) =
    .ok ((List.range n.depth).map (fun i => Matrix.tab (n.W i).rows (n.W i).cols
          (fun a b => G i a b + (D i).entry a 0 * (A i).entry b 0)),
        (List.range n.depth).map (fun i => Matrix.tab (n.W i).rows 1
          (fun a b => H i a b + (D i).entry a 0))) := by
  unfold accumulate
  refine forLoop_eq_gen _ _
    (fun q => ((List.range n.depth).map (fun i =>
        if i < q then Matrix.tab (n.W i).rows (n.W i).cols
          (fun a b => G i a b + (D i).entry a 0 * (A i).entry b 0)
        else Matrix.tab (n.W i).rows (n.W i).cols (G i)),
      (List.range n.depth).map (fun i =>
        if i < q then Matrix.tab (n.W i).rows 1 (fun a b => H i a b + (D i).entry a 0)
        else Matrix.tab (n.W i).rows 1 (H i)))) ?_ _ ?_ _ ?_
  · intro q hq
    have hq2 : q < n.depth := hq
    have hv := idx_map_range n.depth (fun i =>
        if i < q then Matrix.tab (n.W i).rows (n.W i).cols
          (fun a b => G i a b + (D i).entry a 0 * (A i).entry b 0)
        else Matrix.tab (n.W i).rows (n.W i).cols (G i)) hq2
    have hu := idx_map_range n.depth (fun i =>
        if i < q then Matrix.tab (n.W i).rows 1 (fun a b => H i a b + (D i).entry a 0)
        else Matrix.tab (n.W i).rows 1 (H i)) hq2
    simp only [Nat.lt_irrefl, if_false] at hv hu
    have key := accumulate_layer n deltas acts
      ((List.range n.depth).map (fun i =>
        if i < q then Matrix.tab (n.W i).rows (n.W i).cols
          (fun a b => G i a b + (D i).entry a 0 * (A i).entry b 0)
        else Matrix.tab (n.W i).rows (n.W i).cols (G i)))
      ((List.range n.depth).map (fun i =>
        if i < q then Matrix.tab (n.W i).rows 1 (fun a b => H i a b + (D i).entry a 0)
        else Matrix.tab (n.W i).rows 1 (H i)))
      (h.idx_weights hq2) rfl rfl
      (by simpa using hq2) (by simpa using hq2) (hdeltas q hq2) (hacts q hq2) (hD q hq2)
      (hA q hq2) (G q) (H q)
    rw [set_self_of_idx hv, set_self_of_idx hu] at key
    refine key.trans ?_
    rw [set_map_range _ _ _ hq2, set_map_range _ _ _ hq2]
    refine congrArg₂ (fun m1 m2 => Except.ok (m1, m2)) ?_ ?_
    · apply map_range_congr
      intro j _
      by_cases hj : j = q
      · subst hj; simp
      · have e : j < q + 1 ↔ j < q := by omega
        simp only [hj, if_false, e]
    · apply map_range_congr
      intro j _
      by_cases hj : j = q
      · subst hj; simp
      · have e : j < q + 1 ↔ j < q := by omega
        simp only [hj, if_false, e]
  · simp
  · refine congrArg₂ (fun m1 m2 => (m1, m2)) ?_ ?_
    · apply map_range_congr
      intro j hj
      have hj2 : j < n.weights.length := hj
      simp only [hj2, if_true]
    · apply map_range_congr
      intro j hj
      have hj2 : j < n.weights.length := hj
      simp only [hj2, if_true]

end MLP

end MLPSpec
namespace MLPSpec

namespace MLP

variable {T : Type}

/-- The loop over the columns of row `j` in the update of layer `i`: every
weight of the row loses `learningRate * (gradient * (1 / sampleCount))`. -/
theorem update_row [Field T] (wg : List (Matrix T)) (N : Nat) (ws bs : List (Matrix T))
    (ls : List Int) (lr : T) {i j r c : Nat} {GW : Matrix T} (hi : i < ws.length)
    (hGW : idx wg i = .ok GW) (hGWwf : GW.WF) (hGr : GW.rows = r) (hGc : GW.cols = c)
    (hj : j < r) (w0 : Nat → Nat → T) :
    forLoop c (fun k (self : MLP T) => do
        let g ← (← idx wg i).get j k
        let avgGradient := g * (1 / (N : T))
        let w ← idx self.weights i
        let old ← w.get j k
        let w ← w.setE j k (old - self.learningRate * avgGradient)
        let ws ← assignAt self.weights i w
        pure { self with weights := ws }) (MLP.mk (ws.set i (Matrix.tab r c w0)) bs ls lr) =
      .ok (MLP.mk (ws.set i (Matrix.tab r c (fun a b =>
        if a = j then w0 a b - lr * (GW.entry j b * (1 / (N : T))) else w0 a b))) bs ls lr) := by
  refine forLoop_eq_gen c _
    (fun q => MLP.mk (ws.set i (Matrix.tab r c (fun a b =>
      if a = j ∧ b < q then w0 a b - lr * (GW.entry j b * (1 / (N : T))) else w0 a b))) bs ls lr)
    ?_ _ ?_ _ ?_
  · intro q hq
    have hj2 : j < GW.rows := by rw [hGr]; exact hj
    have hq2 : q < GW.cols := by rw [hGc]; exact hq
    simp only [hGW, bind_ok_eq, Matrix.get_eq hGWwf hj2 hq2, idx_set_self ws _ hi,
      Matrix.get_tab r c _ hj hq, Matrix.setE_tab r c _ hj hq, assignAt_set_self ws _ _ hi,
      pure_eq_ok]
    refine congrArg (fun m => Except.ok (MLP.mk (ws.set i m) bs ls lr)) ?_
    apply Matrix.tab_congr
    intro a b _ _
    by_cases h1 : a = j ∧ b = q
    · obtain ⟨rfl, rfl⟩ := h1; simp
    · have h2 : (a = j ∧ b < q + 1) ↔ (a = j ∧ b < q) := by omega
      simp only [h1, if_false, h2]
  · refine congrArg (fun m => MLP.mk (ws.set i m) bs ls lr) ?_
    apply Matrix.tab_congr; intro a b _ _; simp
  · refine congrArg (fun m => MLP.mk (ws.set i m) bs ls lr) ?_
    apply Matrix.tab_congr; intro a b _ hb; simp [hb]

/-- The loop over the rows of layer `i` in the update: every weight and every
bias of the layer loses `learningRate * (gradient * (1 / sampleCount))`. -/
theorem update_layer [Field T] (wg bg : List (Matrix T)) (N : Nat) (ws bs : List (Matrix T))
    (ls : List Int) (lr : T) {i r c : Nat} {GW GB : Matrix T} (hi : i < ws.length)
    (hib : i < bs.length) (hGW : idx wg i = .ok GW) (hGB : idx bg i = .ok GB)
    (hGWwf : GW.WF) (hGr : GW.rows = r) (hGc : GW.cols = c) (hGBc : IsCol GB r)
    (w0 b0 : Nat → Nat → T) :
    (do forLoop (← idx (MLP.mk (ws.set i (Matrix.tab r c w0)) (bs.set i (Matrix.tab r 1 b0))
            ls lr).weights i).rows (fun j (self : MLP T) => do
          let self ← forLoop (← idx self.weights i).cols (fun k (self : MLP T) => do
            let g ← (← idx wg i).get j k
            let avgGradient := g * (1 / (N : T))
            let w ← idx self.weights i
            let old ← w.get j k
            let w ← w.setE j k (old - self.learningRate * avgGradient)
            let ws ← assignAt self.weights i w
            pure { self with weights := ws }) self
          let g ← (← idx bg i).get j 0
          let avgBiasGradient := g * (1 / (N : T))
          let b ← idx self.biases i
          let old ← b.get j 0
          let b ← b.setE j 0 (old - self.learningRate * avgBiasGradient)
          let bs ← assignAt self.biases i b
          pure { self with biases := bs })
            (MLP.mk (ws.set i (Matrix.tab r c w0)) (bs.set i (Matrix.tab r 1 b0)) ls lr)) =
      .ok (MLP.mk
        (ws.set i (Matrix.tab r c (fun a b => w0 a b - lr * (GW.entry a b * (1 / (N : T))))))
        (bs.set i (Matrix.tab r 1 (fun a b => b0 a b - lr * (GB.entry a 0 * (1 / (N : T))))))
        ls lr) := by
  simp only [idx_set_self ws _ hi, bind_ok_eq, Matrix.tab_rows]
  refine forLoop_eq_gen r _
    (fun q => MLP.mk
      (ws.set i (Matrix.tab r c (fun a b =>
        if a < q then w0 a b - lr * (GW.entry a b * (1 / (N : T))) else w0 a b)))
      (bs.set i (Matrix.tab r 1 (fun a b =>
        if a < q then b0 a b - lr * (GB.entry a 0 * (1 / (N : T))) else b0 a b))) ls lr)
    ?_ _ ?_ _ ?_
  · intro q hq
    have hq2 : q < GB.rows := by rw [hGBc.2.1]; exact hq
    have h02 : 0 < GB.cols := by rw [hGBc.2.2]; exact Nat.one_pos
    simp only [idx_set_self ws _ hi, bind_ok_eq, Matrix.tab_cols]
    rw [update_row wg N ws _ ls lr hi hGW hGWwf hGr hGc hq]
    simp only [bind_ok_eq, hGB, Matrix.get_eq hGBc.1 hq2 h02, idx_set_self bs _ hib,
      Matrix.get_tab r 1 _ hq Nat.one_pos, Matrix.setE_tab r 1 _ hq Nat.one_pos,
      assignAt_set_self bs _ _ hib, pure_eq_ok]
    refine congrArg₂ (fun m1 m2 => Except.ok (MLP.mk (ws.set i m1) (bs.set i m2) ls lr)) ?_ ?_
    · apply Matrix.tab_congr
      intro a b _ _
      by_cases h1 : a = q
      · subst h1; simp
      · have h2 : a < q + 1 ↔ a < q := by omega
        simp only [h1, if_false, h2]
    · apply Matrix.tab_congr
      intro a b _ hb
      have hb0 : b = 0 := by omega
      subst hb0
      by_cases h1 : a = q
      · subst h1; simp
      · have h2 : a < q + 1 ↔ a < q := by omega
        simp only [h1, false_and, if_false, h2]
  · refine congrArg₂ (fun m1 m2 => MLP.mk (ws.set i m1) (bs.set i m2) ls lr) ?_ ?_
    · apply Matrix.tab_congr; intro a b _ _; simp
    · apply Matrix.tab_congr; intro a b _ _; simp
  · refine congrArg₂ (fun m1 m2 => MLP.mk (ws.set i m1) (bs.set i m2) ls lr) ?_ ?_
    · apply Matrix.tab_congr; intro a b ha _; simp [ha]
    · apply Matrix.tab_congr; intro a b ha _; simp [ha]

theorem WF.eq_mk {n : MLP T} (_h : n.WF) :
    n = MLP.mk ((List.range n.depth).map n.W) ((List.range n.depth).map n.B)
      n.layerSizes n.learningRate := by
  obtain ⟨ws, bs, ls, lr⟩ := n
  obtain ⟨h1, h2, _⟩ := _h
  simp only at h1 h2
  have e1 : ws = (List.range ws.length).map (fun i => ws.getD i Matrix.empty) :=
    eq_map_range ws Matrix.empty
  have e2 : bs = (List.range bs.length).map (fun i => bs.getD i Matrix.empty) :=
    eq_map_range bs Matrix.empty
  have hl : bs.length = ws.length := by rw [h1, h2]
  rw [hl] at e2
  simp only [MLP.mk.injEq, and_true]
  exact ⟨e1, e2⟩

/-- The parameter update: every weight and every bias loses
`learningRate * (gradient * (1 / sampleCount))`. -/
theorem update_eq [Field T] {n : MLP T} (h : n.WF) (wg bg : List (Matrix T)) (N : Nat)
    (GW GB : Nat → Matrix T)
    (hwg : ∀ i, i < n.depth → idx wg i = .ok (GW i))
    (hbg : ∀ i, i < n.depth → idx bg i = .ok (GB i))
    (hGW : ∀ i, i < n.depth →
      (GW i).WF ∧ (GW i).rows = (n.W i).rows ∧ (GW i).cols = (n.W i).cols)
    (hGB : ∀ i, i < n.depth → IsCol (GB i) (n.W i).rows) :
    update n wg bg N = .ok (MLP.mk
      ((List.range n.depth).map (fun i => Matrix.tab (n.W i).rows (n.W i).cols (fun a b =>
        (n.W i).entry a b - n.learningRate * ((GW i).entry a b * (1 / (N : T))))))
      ((List.range n.depth).map (fun i => Matrix.tab (n.W i).rows 1 (fun a _ =>
        (n.B i).entry a 0 - n.learningRate * ((GB i).entry a 0 * (1 / (N : T))))))
      n.layerSizes n.learningRate) := by
  unfold update
  refine forLoop_eq_gen _ _
    (fun q => MLP.mk
      ((List.range n.depth).map (fun i =>
        if i < q then Matrix.tab (n.W i).rows (n.W i).cols (fun a b =>
          (n.W i).entry a b - n.learningRate * ((GW i).entry a b * (1 / (N : T))))
        else n.W i))
      ((List.range n.depth).map (fun i =>
        if i < q then Matrix.tab (n.W i).rows 1 (fun a _ =>
          (n.B i).entry a 0 - n.learningRate * ((GB i).entry a 0 * (1 / (N : T))))
        else n.B i))
      n.layerSizes n.learningRate) ?_ _ ?_ _ ?_
  · intro q hq
    have hq2 : q < n.depth := hq
    obtain ⟨hw, hb, hr, _, hbr, hbc⟩ := h.layer hq2
    have hv := idx_map_range n.depth (fun i =>
        if i < q then Matrix.tab (n.W i).rows (n.W i).cols (fun a b =>
          (n.W i).entry a b - n.learningRate * ((GW i).entry a b * (1 / (N : T))))
        else n.W i) hq2
    have hu := idx_map_range n.depth (fun i =>
        if i < q then Matrix.tab (n.W i).rows 1 (fun a _ =>
          (n.B i).entry a 0 - n.learningRate * ((GB i).entry a 0 * (1 / (N : T))))
        else n.B i) hq2
    simp only [Nat.lt_irrefl, if_false] at hv hu
    have hW2 : Matrix.tab (n.W q).rows (n.W q).cols (n.W q).entry = n.W q :=
      (Matrix.eq_tab hw).symm
    have hB2 : Matrix.tab (n.W q).rows 1 (n.B q).entry = n.B q := by
      have := (Matrix.eq_tab hb).symm
      rw [hbr, hbc] at this
      rw [hr]
      exact this
    have key := update_layer wg bg N
      ((List.range n.depth).map (fun i =>
        if i < q then Matrix.tab (n.W i).rows (n.W i).cols (fun a b =>
          (n.W i).entry a b - n.learningRate * ((GW i).entry a b * (1 / (N : T))))
        else n.W i))
      ((List.range n.depth).map (fun i =>
        if i < q then Matrix.tab (n.W i).rows 1 (fun a _ =>
          (n.B i).entry a 0 - n.learningRate * ((GB i).entry a 0 * (1 / (N : T))))
        else n.B i))
      n.layerSizes n.learningRate (by simpa using hq2) (by simpa using hq2) (hwg q hq2)
      (hbg q hq2) (hGW q hq2).1 (hGW q hq2).2.1 (hGW q hq2).2.2 (hGB q hq2)
      (n.W q).entry (n.B q).entry
    rw [hW2, hB2, set_self_of_idx hv, set_self_of_idx hu] at key
    refine key.trans ?_
    rw [set_map_range _ _ _ hq2, set_map_range _ _ _ hq2]
    refine congrArg₂ (fun m1 m2 => Except.ok (MLP.mk m1 m2 n.layerSizes n.learningRate)) ?_ ?_
    · apply map_range_congr
      intro j _
      by_cases hj : j = q
      · subst hj; simp
      · have e : j < q + 1 ↔ j < q := by omega
        simp only [hj, if_false, e]
    · apply map_range_congr
      intro j _
      by_cases hj : j = q
      · subst hj
        simp only [if_true, Nat.lt_succ_self]
        apply Matrix.tab_congr
        intro a b _ hb
        have hb0 : b = 0 := by omega
        subst hb0
        rfl
      · have e : j < q + 1 ↔ j < q := by omega
        simp only [hj, if_false, e]
  · simp only [Nat.not_lt_zero, if_false]
    exact h.eq_mk
  · refine congrArg₂ (fun m1 m2 => MLP.mk m1 m2 n.layerSizes n.learningRate) ?_ ?_
    · apply map_range_congr
      intro j hj
      have hj2 : j < n.weights.length := hj
      simp only [hj2, if_true]
    · apply map_range_congr
      intro j hj
      have hj2 : j < n.weights.length := hj
      simp only [hj2, if_true]

end MLP

end MLPSpec

namespace MLPSpec

namespace Matrix

variable {T : Type}

/-- What `operator*(T)` returns on a well-formed matrix. -/
theorem smul_eq [Zero T] [Mul T] {A : Matrix T} (hA : A.WF) (s : T) :
    A.smul s = .ok (tab A.rows A.cols (fun i j => A.entry i j * s)) := by
  apply build_eq
  intro i j hi hj
  simp only [raw_eq hA hi hj, bind_ok_eq, pure_eq_ok]

theorem raw_tab [Zero T] (r c : Nat) (g : Nat → Nat → T) {i j : Nat} (hi : i < r) (hj : j < c) :
    (tab r c g).raw i j = .ok (g i j) := by
  rw [raw_eq (tab_WF r c g) hi hj, entry_tab r c g hi hj]

/-- `toVector` on a tabulated matrix lists the elements in row-major order. -/
theorem toVector_tab [Zero T] (r c : Nat) (g : Nat → Nat → T) :
    (tab r c g).toVector = .ok ((List.range (r * c)).map (fun q => g (q / c) (q % c))) := by
  have inner : ∀ i, i < r →
      forLoop c (fun j result => do
        let v ← (tab r c g).raw i j
        pure (result ++ [v])) ((List.range (i * c)).map (fun q => g (q / c) (q % c))) =
      .ok ((List.range ((i + 1) * c)).map (fun q => g (q / c) (q % c))) := by
    intro i hi
    have := forLoop_eq c (fun j result => do
        let v ← (tab r c g).raw i j
        pure (result ++ [v]))
      (fun k => (List.range (i * c + k)).map (fun q => g (q / c) (q % c)))
      (fun k hk => by
        have hc : 0 < c := by omega
        have e1 : (i * c + k) / c = i := by
          rw [Nat.add_comm, Nat.add_mul_div_right _ _ hc, Nat.div_eq_of_lt hk, Nat.zero_add]
        have e2 : (i * c + k) % c = k := by
          rw [Nat.add_comm, Nat.add_mul_mod_self_right, Nat.mod_eq_of_lt hk]
        simp only [raw_tab r c g hi hk, bind_ok_eq, pure_eq_ok]
        rw [show i * c + (k + 1) = (i * c + k) + 1 from rfl, List.range_succ, List.map_append,
          List.map_cons, List.map_nil, e1, e2])
    simp only [Nat.add_zero] at this
    rw [this, Nat.succ_mul]
  have outer := forLoop_eq r (fun i result =>
      forLoop c (fun j result => do
        let v ← (tab r c g).raw i j
        pure (result ++ [v])) result)
    (fun k => (List.range (k * c)).map (fun q => g (q / c) (q % c)))
    (fun k hk => inner k hk)
  simp only [Nat.zero_mul, List.range_zero, List.map_nil] at outer
  exact outer

end Matrix

/-- C13: for well-formed `A` and `B` of one shape over a type whose addition
and subtraction are exact (an additive group), `A + B` returns, and subtracting
`B` from it returns `A` itself: same shape, same elements. -/
theorem add_sub_cancel_contract {T : Type} [AddGroup T] (A B : Matrix T) (hA : A.WF)
    (hB : B.WF) (hr : A.rows = B.rows) (hc : A.cols = B.cols) :
    ∃ S, A.add B = .ok S ∧ S.rows = A.rows ∧ S.cols = A.cols ∧ S.sub B = .ok A := by
  refine ⟨_, Matrix.add_eq hA hB hr hc, rfl, rfl, ?_⟩
  rw [Matrix.sub_eq (Matrix.tab_WF _ _ _) hB (by simpa using hr) (by simpa using hc)]
  congr 1
  refine (Matrix.ext_of_WF hA (Matrix.tab_WF _ _ _) rfl rfl ?_).symm
  intro i j hi hj
  rw [Matrix.entry_tab _ _ _ hi hj, Matrix.entry_tab _ _ _ hi hj, add_sub_cancel_right]

/-- C13, instance: two 2 x 2 integer matrices. -/
theorem add_sub_cancel_contract_witness :
    (Matrix.mk [[1, 2], [3, 4]] 2 2 : Matrix Int).WF ∧
    (Matrix.mk [[5, 6], [7, 8]] 2 2 : Matrix Int).WF ∧
    (Matrix.mk [[1, 2], [3, 4]] 2 2 : Matrix Int).rows =
      (Matrix.mk [[5, 6], [7, 8]] 2 2 : Matrix Int).rows ∧
    (Matrix.mk [[1, 2], [3, 4]] 2 2 : Matrix Int).cols =
      (Matrix.mk [[5, 6], [7, 8]] 2 2 : Matrix Int).cols ∧
    ∃ S, (Matrix.mk [[1, 2], [3, 4]] 2 2 : Matrix Int).add (Matrix.mk [[5, 6], [7, 8]] 2 2)
        = .ok S ∧ S.rows = 2 ∧ S.cols = 2 ∧
      S.sub (Matrix.mk [[5, 6], [7, 8]] 2 2) = .ok (Matrix.mk [[1, 2], [3, 4]] 2 2) :=
  ⟨by decide, by decide, by decide, by decide,
    add_sub_cancel_contract (Matrix.mk [[1, 2], [3, 4]] 2 2 : Matrix Int)
      (Matrix.mk [[5, 6], [7, 8]] 2 2) (by decide) (by decide) (by decide) (by decide)⟩

/-- C14: for well-formed `A` (p x q), `B` (q x r) and `C` (r x s) over a
semiring, `(A * B) * C` and `A * (B * C)` both return, and return the same
well-formed p x s matrix. -/
theorem mul_assoc_contract {T : Type} [Semiring T] (A B C : Matrix T) (hA : A.WF) (hB : B.WF)
    (hC : C.WF) (hAB : A.cols = B.rows) (hBC : B.cols = C.rows) :
    ∃ AB BC M, A.mul B = .ok AB ∧ B.mul C = .ok BC ∧ AB.mul C = .ok M ∧ A.mul BC = .ok M ∧
      M.WF ∧ M.rows = A.rows ∧ M.cols = C.cols := by
  refine ⟨_, _, _, Matrix.mul_eq hA hB hAB, Matrix.mul_eq hB hC hBC,
    Matrix.mul_eq (Matrix.tab_WF _ _ _) hC (by simpa using hBC), ?_, Matrix.tab_WF _ _ _, rfl, rfl⟩
  rw [Matrix.mul_eq hA (Matrix.tab_WF _ _ _) (by simpa using hAB)]
  congr 1
  simp only [Matrix.tab_rows, Matrix.tab_cols]
  apply Matrix.tab_congr
  intro i j hi hj
  have e1 : ∀ k ∈ Finset.range B.cols,
      (Matrix.tab A.rows B.cols
        (fun i j => ∑ l ∈ Finset.range A.cols, A.entry i l * B.entry l j)).entry i k *
          C.entry k j =
      ∑ l ∈ Finset.range A.cols, A.entry i l * (B.entry l k * C.entry k j) := by
    intro k hk
    rw [Matrix.entry_tab _ _ _ hi (Finset.mem_range.1 hk), Finset.sum_mul]
    exact Finset.sum_congr rfl (fun l _ => mul_assoc _ _ _)
  have e2 : ∀ l ∈ Finset.range A.cols,
      A.entry i l * (Matrix.tab B.rows C.cols
        (fun i j => ∑ k ∈ Finset.range B.cols, B.entry i k * C.entry k j)).entry l j =
      ∑ k ∈ Finset.range B.cols, A.entry i l * (B.entry l k * C.entry k j) := by
    intro l hl
    rw [Matrix.entry_tab _ _ _ (by rw [← hAB]; exact Finset.mem_range.1 hl) hj, Finset.mul_sum]
  rw [Finset.sum_congr rfl e1, Finset.sum_congr rfl e2, Finset.sum_comm]

/-- C14, instance: three 2 x 2 integer matrices. -/
theorem mul_assoc_contract_witness :
    (Matrix.mk [[1, 2], [3, 4]] 2 2 : Matrix Int).WF ∧
    (Matrix.mk [[0, 1], [1, 0]] 2 2 : Matrix Int).WF ∧
    (Matrix.mk [[2, 0], [1, 3]] 2 2 : Matrix Int).WF ∧
    (Matrix.mk [[1, 2], [3, 4]] 2 2 : Matrix Int).cols =
      (Matrix.mk [[0, 1], [1, 0]] 2 2 : Matrix Int).rows ∧
    (Matrix.mk [[0, 1], [1, 0]] 2 2 : Matrix Int).cols =
      (Matrix.mk [[2, 0], [1, 3]] 2 2 : Matrix Int).rows ∧
    ∃ AB BC M,
      (Matrix.mk [[1, 2], [3, 4]] 2 2 : Matrix Int).mul (Matrix.mk [[0, 1], [1, 0]] 2 2) = .ok AB ∧
      (Matrix.mk [[0, 1], [1, 0]] 2 2 : Matrix Int).mul (Matrix.mk [[2, 0], [1, 3]] 2 2) = .ok BC ∧
      AB.mul (Matrix.mk [[2, 0], [1, 3]] 2 2) = .ok M ∧
      (Matrix.mk [[1, 2], [3, 4]] 2 2 : Matrix Int).mul BC = .ok M ∧
      M.WF ∧ M.rows = 2 ∧ M.cols = 2 :=
  ⟨by decide, by decide, by decide, by decide, by decide,
    mul_assoc_contract (Matrix.mk [[1, 2], [3, 4]] 2 2 : Matrix Int)
      (Matrix.mk [[0, 1], [1, 0]] 2 2) (Matrix.mk [[2, 0], [1, 3]] 2 2)
      (by decide) (by decide) (by decide) (by decide) (by decide)⟩

/-- C15: on a well-formed matrix `A` the scalar product `A * s` returns the
well-formed matrix of the shape of `A` whose `(i, j)` element is `A(i,j) * s`,
and `A * 1` returns `A`. -/
theorem smul_contract {T : Type} [Semiring T] (A : Matrix T) (s : T) (hA : A.WF) :
    (∃ M, A.smul s = .ok M ∧ M.WF ∧ M.rows = A.rows ∧ M.cols = A.cols ∧
      ∀ i j, i < A.rows → j < A.cols → M.entry i j = A.entry i j * s) ∧
    A.smul 1 = .ok A := by
  refine ⟨⟨_, Matrix.smul_eq hA s, Matrix.tab_WF _ _ _, rfl, rfl,
    fun i j hi hj => Matrix.entry_tab _ _ _ hi hj⟩, ?_⟩
  rw [Matrix.smul_eq hA 1]
  congr 1
  refine (Matrix.ext_of_WF hA (Matrix.tab_WF _ _ _) rfl rfl ?_).symm
  intro i j hi hj
  rw [Matrix.entry_tab _ _ _ hi hj, mul_one]

/-- C15, instance: a 2 x 2 integer matrix and the scalar 3. -/
theorem smul_contract_witness :
    (Matrix.mk [[1, 2], [3, 4]] 2 2 : Matrix Int).WF ∧
    (∃ M, (Matrix.mk [[1, 2], [3, 4]] 2 2 : Matrix Int).smul 3 = .ok M ∧ M.WF ∧
      M.rows = 2 ∧ M.cols = 2 ∧
      ∀ i j, i < 2 → j < 2 →
        M.entry i j = (Matrix.mk [[1, 2], [3, 4]] 2 2 : Matrix Int).entry i j * 3) ∧
    (Matrix.mk [[1, 2], [3, 4]] 2 2 : Matrix Int).smul 1 = .ok (Matrix.mk [[1, 2], [3, 4]] 2 2) :=
  ⟨by decide, smul_contract (Matrix.mk [[1, 2], [3, 4]] 2 2 : Matrix Int) 3 (by decide)⟩

end MLPSpec

namespace MLPSpec

namespace Matrix

variable {T : Type}

theorem ofVector_column [Zero T] (vec : List T) :
    ofVector vec true = .ok (tab vec.length 1 (fun i _ => vec.getD i 0)) := by
  have h0 : (⟨List.replicate vec.length [0], vec.length, 1⟩ : Matrix T) =
      tab vec.length 1 (fun a _ => if a < 0 then vec.getD a 0 else 0) := by
    have := ofSize_eq_tab (T := T) vec.length 1
    simp only [ofSize, List.replicate_one] at this
    rw [this]
    apply tab_congr; intro a b _ _; simp
  have := forLoop_eq vec.length (fun i m => do
      let v ← idx vec i
      m.rawSet i 0 v)
    (fun k => tab vec.length 1 (fun a _ => if a < k then vec.getD a 0 else 0))
    (fun k hk => by
      simp only [idx_getD vec 0 hk, bind_ok_eq]
      rw [rawSet_tab _ _ _ hk Nat.one_pos]
      refine congrArg Except.ok ?_
      apply tab_congr
      intro a b _ hb
      have hb0 : b = 0 := by omega
      subst hb0
      by_cases h1 : a = k
      · subst h1; simp
      · have h2 : a < k + 1 ↔ a < k := by omega
        simp only [h1, false_and, if_false, h2])
  simp only [ofVector, if_true, h0]
  rw [this]
  refine congrArg Except.ok ?_
  apply tab_congr
  intro a b ha _
  simp only [ha, if_true]

theorem ofVector_row [Zero T] (vec : List T) :
    ofVector vec false = .ok (tab 1 vec.length (fun _ j => vec.getD j 0)) := by
  simp only [ofVector, Bool.false_eq_true, if_false]
  refine congrArg Except.ok ?_
  have hr : List.range 1 = [0] := rfl
  simp only [tab, Matrix.mk.injEq, and_true, List.replicate_one, hr, List.map_cons,
    List.map_nil, List.cons.injEq]
  exact eq_map_range vec 0

theorem get_stored {m : Matrix T} (h : m.WF) {row col : Nat} (hi : row < m.rows)
    (hj : col < m.cols) :
    ∃ r v, m.data[row]? = some r ∧ r[col]? = some v ∧ m.get row col = .ok v := by
  have hi2 : row < m.data.length := by rw [h.1]; exact hi
  have hj2 : col < (m.data[row]).length := by rw [h.row_length row hi2]; exact hj
  refine ⟨m.data[row], (m.data[row])[col], by simp [hi2], by simp [hj2], ?_⟩
  have : ¬ (row ≥ m.rows ∨ col ≥ m.cols) := by omega
  simp [Matrix.get, this, Matrix.raw, hi2, hj2]

end Matrix

/-- C17: for a flat sequence `v` of length `N`, `Matrix(v, true)` is a
well-formed `N x 1` matrix with element `(k, 0)` equal to `v[k]`,
`Matrix(v, false)` is a well-formed `1 x N` matrix with element `(0, k)` equal
to `v[k]`, and `toVector` of either returns `v`. -/
theorem ofVector_contract {T : Type} [Zero T] (v : List T) :
    (∃ m, Matrix.ofVector v true = .ok m ∧ m.WF ∧ m.rows = v.length ∧ m.cols = 1 ∧
      (∀ k, k < v.length → m.get k 0 = .ok (v.getD k 0)) ∧ m.toVector = .ok v) ∧
    (∃ m, Matrix.ofVector v false = .ok m ∧ m.WF ∧ m.rows = 1 ∧ m.cols = v.length ∧
      (∀ k, k < v.length → m.get 0 k = .ok (v.getD k 0)) ∧ m.toVector = .ok v) := by
  refine ⟨⟨_, Matrix.ofVector_column v, Matrix.tab_WF _ _ _, rfl, rfl, ?_, ?_⟩,
    ⟨_, Matrix.ofVector_row v, Matrix.tab_WF _ _ _, rfl, rfl, ?_, ?_⟩⟩
  · intro k hk
    rw [Matrix.get_eq (Matrix.tab_WF _ _ _) hk Nat.one_pos,
      Matrix.entry_tab _ _ _ hk Nat.one_pos]
  · rw [Matrix.toVector_tab]
    refine congrArg Except.ok ?_
    simp only [Nat.mul_one, Nat.div_one]
    exact (eq_map_range v 0).symm
  · intro k hk
    rw [Matrix.get_eq (Matrix.tab_WF _ _ _) Nat.one_pos hk,
      Matrix.entry_tab _ _ _ Nat.one_pos hk]
  · rw [Matrix.toVector_tab]
    refine congrArg Except.ok ?_
    simp only [Nat.one_mul]
    refine Eq.trans ?_ (eq_map_range v 0).symm
    apply map_range_congr
    intro q hq
    rw [Nat.mod_eq_of_lt hq]

/-- C16, as the code behaves: the constructor from a nested sequence never
fails; on `[[1, 2], [3]]` it returns a matrix with `rows = 2`, `cols = 2` and
the ragged storage as given, which is not well-formed, where the claim
announces the dimension error. -/
theorem ofNested_ragged :
    Matrix.ofNested ([[1, 2], [3]] : List (List Int)) = ⟨[[1, 2], [3]], 2, 2⟩ ∧
    ¬ (Matrix.ofNested ([[1, 2], [3]] : List (List Int))).WF ∧
    (Matrix.ofNested ([[1, 2], [3]] : List (List Int))).get 1 1 = .error .pastEnd := by
  decide

/-- C16, amended: the constructor from a nested sequence returns, for every
argument, the matrix that stores the argument as given with `rows` the outer
length and `cols` the length of the first inner sequence (`0` for the empty
sequence).  When every inner sequence has the length of the first, the result
is well-formed (every row has `cols` elements) and its `(i, j)` element is the
`j`-th value of the `i`-th inner sequence. -/
theorem ofNested_contract {T : Type} (input : List (List T)) :
    (Matrix.ofNested input).data = input ∧
    (Matrix.ofNested input).rows = input.length ∧
    (Matrix.ofNested input).cols = (input.head?.map List.length).getD 0 ∧
    ((∀ r ∈ input, r.length = (input.getD 0 []).length) →
      (Matrix.ofNested input).WF ∧
      ∀ i j, i < (Matrix.ofNested input).rows → j < (Matrix.ofNested input).cols →
        ∃ r v, input[i]? = some r ∧ r[j]? = some v ∧
          (Matrix.ofNested input).get i j = .ok v) := by
  refine ⟨rfl, rfl, ?_, ?_⟩
  · cases input with
    | nil => rfl
    | cons a l => simp [Matrix.ofNested]
  · intro h
    have hwf : (Matrix.ofNested input).WF := by
      refine ⟨rfl, ?_⟩
      intro r hr
      cases input with
      | nil => exact absurd hr (List.not_mem_nil r)
      | cons a l =>
        have := h r hr
        simp only [Matrix.ofNested, List.length_cons, List.getD_cons_zero] at this ⊢
        simp [this]
    refine ⟨hwf, ?_⟩
    intro i j hi hj
    exact Matrix.get_stored hwf hi hj

/-- C16, instance of the amended claim: a 2 x 2 nested sequence. -/
theorem ofNested_contract_witness :
    (∀ r ∈ ([[1, 2], [3, 4]] : List (List Int)),
      r.length = (([[1, 2], [3, 4]] : List (List Int)).getD 0 []).length) ∧
    (Matrix.ofNested ([[1, 2], [3, 4]] : List (List Int))).WF ∧
    ∀ i j, i < (Matrix.ofNested ([[1, 2], [3, 4]] : List (List Int))).rows →
      j < (Matrix.ofNested ([[1, 2], [3, 4]] : List (List Int))).cols →
      ∃ r v, ([[1, 2], [3, 4]] : List (List Int))[i]? = some r ∧ r[j]? = some v ∧
        (Matrix.ofNested ([[1, 2], [3, 4]] : List (List Int))).get i j = .ok v :=
  ⟨by decide, (ofNested_contract ([[1, 2], [3, 4]] : List (List Int))).2.2.2 (by decide)⟩

end MLPSpec

namespace MLPSpec

namespace MLP

variable {T : Type}

theorem WF.depth_pos {n : MLP T} (h : n.WF) (hlen : 2 ≤ n.layerSizes.length) : 1 ≤ n.depth := by
  have := h.1
  unfold depth
  omega

theorem WF.dim_last {n : MLP T} (h : n.WF) :
    n.dim n.depth = (n.layerSizes.getLast?.getD 0).toNat := by
  have h1 : n.depth = n.layerSizes.length - 1 := h.1
  simp only [MLP.dim, h1, List.getLast?_eq_getElem?, List.getD_eq_getElem?_getD]

/-- A wrongly shaped input makes the first layer of `forward` throw
`invalid_argument`. -/
theorem forward_error [Field T] (exp : T → T) {n : MLP T} (hn : n.WF) (hL : 1 ≤ n.depth)
    {x : Matrix T} (hx : x.WF) (hs : ¬ (x.rows = n.dim 0 ∧ x.cols = 1)) :
    forward exp n x = .error .invalidArgument := by
  obtain ⟨d, hd⟩ : ∃ d, n.weights.length = d + 1 := ⟨n.depth - 1, by unfold depth at hL ⊢; omega⟩
  obtain ⟨hw, hb, hr, hc, hbr, hbc⟩ := hn.layer (by omega : 0 < n.depth)
  have hbody : (do
      let w ← idx n.weights 0
      let prod ← w.mul x
      let b ← idx n.biases 0
      let linear ← prod.add b
      sigmoid exp linear) = Except.error Err.invalidArgument := by
    rw [hn.idx_weights (by omega : 0 < n.depth), hn.idx_biases (by omega : 0 < n.depth)]
    simp only [bind_ok_eq]
    by_cases hrow : (n.W 0).cols = x.rows
    · have hcol : x.cols ≠ 1 := fun e => hs ⟨by rw [← hrow, hc], e⟩
      rw [Matrix.mul_eq hw hx hrow]
      simp only [bind_ok_eq]
      have : (Matrix.tab (n.W 0).rows x.cols
          (fun i j => ∑ k ∈ Finset.range (n.W 0).cols, (n.W 0).entry i k * x.entry k j)).add
          (n.B 0) = Except.error Err.invalidArgument := by
        rw [Matrix.add, if_pos]
        right
        rw [Matrix.tab_cols, hbc]
        exact hcol
      rw [this]
      rfl
    · rw [Matrix.mul, if_pos hrow]
      rfl
  simp only [forward, hd, forLoop, forLoopFrom, hbody]
  rfl

end MLP

/-- C11: on a well-formed network with at least two layer sizes whose weights
and biases are all zero, `forward` returns, for every input column of
`layerSizes[0]` rows, a column of `layerSizes.last` rows whose every element is
`1 / 2`, the value of the sigmoid at zero (the exponential being `1` at `0`). -/
theorem forward_zero_contract {T : Type} [Field T] (exp : T → T) (n : MLP T) (x : Matrix T)
    (hn : n.WF) (hlen : 2 ≤ n.layerSizes.length) (hx : IsCol x (n.dim 0)) (hexp : exp 0 = 1)
    (hW : ∀ i j k, (n.W i).entry j k = 0) (hB : ∀ i j, (n.B i).entry j 0 = 0) :
    ∃ a, MLP.forward exp n x = .ok (a, n) ∧
      IsCol a (n.layerSizes.getLast?.getD 0).toNat ∧
      ∀ j, j < a.rows → a.entry j 0 = 1 / 2 := by
  have hL := hn.depth_pos hlen
  have ha := MLP.specAct_isCol exp hn hx n.depth (Nat.le_refl _)
  refine ⟨_, MLP.forward_eq exp hn hx, by rw [← hn.dim_last]; exact ha, ?_⟩
  intro j hj
  obtain ⟨d, hd⟩ : ∃ d, n.depth = d + 1 := ⟨n.depth - 1, by omega⟩
  rw [hd] at hj ⊢
  have hj2 : j < (n.W d).rows := by
    have := MLP.specLayer_isCol exp (n.W d) (n.B d) (MLP.specAct exp n x d)
    simpa [MLP.specAct, this.2.1] using hj
  simp only [MLP.specAct, MLP.specLayer]
  rw [Matrix.entry_tab _ _ _ hj2 Nat.one_pos]
  simp only [hW, hB, zero_mul, Finset.sum_const_zero, add_zero, MLP.sig, neg_zero, hexp]
  norm_num

/-- C11, instance: the all-zero network `zeroNet` on `exampleInput`. -/
theorem forward_zero_contract_witness :
    zeroNet.WF ∧ 2 ≤ zeroNet.layerSizes.length ∧ IsCol exampleInput (zeroNet.dim 0) ∧
    unitExp 0 = 1 ∧ (∀ i j k, (zeroNet.W i).entry j k = 0) ∧
    (∀ i j, (zeroNet.B i).entry j 0 = 0) ∧
    ∃ a, MLP.forward unitExp zeroNet exampleInput = .ok (a, zeroNet) ∧
      IsCol a (zeroNet.layerSizes.getLast?.getD 0).toNat ∧
      ∀ j, j < a.rows → a.entry j 0 = 1 / 2 :=
  have hW : ∀ i j k, (zeroNet.W i).entry j k = 0 := by
    intro i j k
    match i, j, k with
    | 0, 0, 0 => rfl
    | 0, 0, 1 => rfl
    | 0, 0, k + 2 => rfl
    | 0, 1, 0 => rfl
    | 0, 1, 1 => rfl
    | 0, 1, k + 2 => rfl
    | 0, j + 2, _ => rfl
    | 1, 0, 0 => rfl
    | 1, 0, 1 => rfl
    | 1, 0, k + 2 => rfl
    | 1, j + 1, _ => rfl
    | i + 2, _, _ => rfl
  have hB : ∀ i j, (zeroNet.B i).entry j 0 = 0 := by
    intro i j
    match i, j with
    | 0, 0 => rfl
    | 0, 1 => rfl
    | 0, j + 2 => rfl
    | 1, 0 => rfl
    | 1, j + 1 => rfl
    | i + 2, _ => rfl
  ⟨by decide, by decide, by decide, rfl, hW, hB,
    forward_zero_contract unitExp zeroNet exampleInput (by decide) (by decide) (by decide) rfl
      hW hB⟩

/-- C20: on a well-formed network with at least two layer sizes and a
well-formed input matrix, `forward` is the `invalid_argument` failure exactly
when the input is not a `layerSizes[0] x 1` matrix; on a `layerSizes[0] x 1`
input it returns. -/
theorem forward_dimension_contract {T : Type} [Field T] (exp : T → T) (n : MLP T)
    (x : Matrix T) (hn : n.WF) (hlen : 2 ≤ n.layerSizes.length) (hx : x.WF) :
    (MLP.forward exp n x = .error .invalidArgument ↔ ¬ (x.rows = n.dim 0 ∧ x.cols = 1)) ∧
    ((x.rows = n.dim 0 ∧ x.cols = 1) → ∃ a, MLP.forward exp n x = .ok (a, n)) := by
  have hok : (x.rows = n.dim 0 ∧ x.cols = 1) → ∃ a, MLP.forward exp n x = .ok (a, n) :=
    fun hs => ⟨_, MLP.forward_eq exp hn ⟨hx, hs.1, hs.2⟩⟩
  refine ⟨⟨?_, fun hs => MLP.forward_error exp hn (hn.depth_pos hlen) hx hs⟩, hok⟩
  intro herr hs
  obtain ⟨a, ha⟩ := hok hs
  rw [ha] at herr
  exact absurd herr (by simp)

/-- C20, instance: `exampleNet` on a 1 x 1 input and on a 2 x 1 input. -/
theorem forward_dimension_contract_witness :
    exampleNet.WF ∧ 2 ≤ exampleNet.layerSizes.length ∧ exampleTarget.WF ∧ exampleInput.WF ∧
    (MLP.forward exampleExp exampleNet exampleTarget = .error .invalidArgument ↔
      ¬ (exampleTarget.rows = exampleNet.dim 0 ∧ exampleTarget.cols = 1)) ∧
    (exampleInput.rows = exampleNet.dim 0 ∧ exampleInput.cols = 1) ∧
    ∃ a, MLP.forward exampleExp exampleNet exampleInput = .ok (a, exampleNet) :=
  ⟨by decide, by decide, by decide, by decide,
    (forward_dimension_contract exampleExp exampleNet exampleTarget (by decide) (by decide)
      (by decide)).1,
    by decide,
    (forward_dimension_contract exampleExp exampleNet exampleInput (by decide) (by decide)
      (by decide)).2 (by decide)⟩

end MLPSpec

namespace MLPSpec

/-- On the empty data set `evaluate` runs no iteration and returns the product
of the zero loss with the quotient of one by the zero sample count. -/
theorem evaluate_nil {T : Type} [Zero T] [One T] [Add T] [Sub T] [Neg T] [Mul T] [Div T]
    [NatCast T] (exp : T → T) (n : MLP T) :
    MLP.evaluate exp n [] [] = .ok ((0 : T) * (1 / ((0 : Nat) : T)), n) :=
  rfl

/-- Over `double`, on a data set of one sample whose target is the output of
`forward`, `evaluate` returns zero. -/
theorem evaluate_ieee_fit :
    MLP.forward ieeeExp ieeeNet ⟨[[.fin 1], [.fin 2]], 2, 1⟩ =
      .ok (⟨[[.fin (1 / 2)]], 1, 1⟩, ieeeNet) ∧
    MLP.evaluate ieeeExp ieeeNet [⟨[[.fin 1], [.fin 2]], 2, 1⟩] [⟨[[.fin (1 / 2)]], 1, 1⟩] =
      .ok (0, ieeeNet) := by
  decide!

/-- C12, as stated, fails on the empty data set over `double`: the network is
well-formed, the two sequences have equal length and every target (there is none)
is the output of `forward`, yet `evaluate` computes `0 * (1 / 0)`, where `1 / 0`
is the positive infinity and `0` times it is NaN, and returns NaN instead of `0`. -/
theorem evaluate_empty_nan :
    ieeeNet.WF ∧ ValidData ieeeNet [] [] ∧
    (∀ s, s < ([] : List (Matrix IeeeDouble)).length →
      MLP.forward ieeeExp ieeeNet (([] : List (Matrix IeeeDouble)).getD s Matrix.empty) =
        .ok (([] : List (Matrix IeeeDouble)).getD s Matrix.empty, ieeeNet)) ∧
    (1 : IeeeDouble) / ((([] : List (Matrix IeeeDouble)).length : Nat) : IeeeDouble) =
      IeeeDouble.posInf ∧
    MLP.evaluate ieeeExp ieeeNet [] [] = .ok (IeeeDouble.nan, ieeeNet) ∧
    MLP.evaluate ieeeExp ieeeNet [] [] ≠ .ok (0, ieeeNet) :=
  ⟨by decide, by decide, fun s hs => absurd hs (Nat.not_lt_zero s), by decide!, by decide!,
    by decide!⟩

/-- C12, amended: on a well-formed network and a non-empty valid data set in
which every target is the matrix that `forward` returns on the corresponding
input, `evaluate` returns exactly `0` (and the network). -/
theorem evaluate_zero_contract {T : Type} [Field T] (exp : T → T) (n : MLP T)
    (inputs targets : List (Matrix T)) (hn : n.WF) (hd : ValidData n inputs targets)
    (_hne : inputs ≠ [])
    (hfit : ∀ s, s < inputs.length →
      MLP.forward exp n (inputs.getD s Matrix.empty) = .ok (targets.getD s Matrix.empty, n)) :
    MLP.evaluate exp n inputs targets = .ok (0, n) := by
  rw [MLP.evaluate_eq exp hn hd]
  have hz : (∑ s ∈ Finset.range inputs.length, ∑ i ∈ Finset.range (n.dim n.depth),
      ∑ j ∈ Finset.range 1,
        ((MLP.specAct exp n (inputs.getD s Matrix.empty) n.depth).entry i j -
          (targets.getD s Matrix.empty).entry i j) ^ 2) = 0 := by
    apply Finset.sum_eq_zero
    intro s hs
    apply Finset.sum_eq_zero
    intro i _
    apply Finset.sum_eq_zero
    intro j _
    have h1 := hfit s (Finset.mem_range.1 hs)
    rw [MLP.forward_eq exp hn (hd.input (Finset.mem_range.1 hs))] at h1
    simp only [Except.ok.injEq, Prod.mk.injEq, and_true] at h1
    rw [h1, sub_self]
    exact zero_pow (by norm_num)
  rw [hz, zero_div]

/-- Over the rationals: the column that `forward` returns for `tinyNet` on
`exampleInput` with `unitExp`. -/
theorem tinyNet_forward :
    MLP.forward unitExp tinyNet exampleInput = .ok (⟨[[1 / 2]], 1, 1⟩, tinyNet) := by
  decide!

/-- C12, instance: `tinyNet` with its own output as the target. -/
theorem evaluate_zero_contract_witness :
    tinyNet.WF ∧ ValidData tinyNet [exampleInput] [⟨[[1 / 2]], 1, 1⟩] ∧
    [exampleInput] ≠ [] ∧
    (∀ s, s < [exampleInput].length →
      MLP.forward unitExp tinyNet ([exampleInput].getD s Matrix.empty) =
        .ok (([⟨[[1 / 2]], 1, 1⟩] : List (Matrix ℚ)).getD s Matrix.empty, tinyNet)) ∧
    MLP.evaluate unitExp tinyNet [exampleInput] [⟨[[1 / 2]], 1, 1⟩] = .ok (0, tinyNet) :=
  have hfit : ∀ s, s < [exampleInput].length →
      MLP.forward unitExp tinyNet ([exampleInput].getD s Matrix.empty) =
        .ok (([⟨[[1 / 2]], 1, 1⟩] : List (Matrix ℚ)).getD s Matrix.empty, tinyNet) := by
    intro s hs
    have : s = 0 := by simpa using hs
    subst this
    exact tinyNet_forward
  ⟨by decide, by decide, List.cons_ne_nil _ _, hfit,
    evaluate_zero_contract unitExp tinyNet [exampleInput] [⟨[[1 / 2]], 1, 1⟩] (by decide)
      (by decide) (List.cons_ne_nil _ _) hfit⟩

end MLPSpec

namespace MLPSpec

/-! ## Splitting a loop, and a loop seen through a projection of its state -/

theorem forLoopFrom_shift {σ : Type} (g : σ → Except Err σ) :
    ∀ (fuel i : Nat) (s : σ),
      forLoopFrom (fun _ => g) fuel i s = forLoopFrom (fun _ => g) fuel 0 s := by
  intro fuel
  induction fuel with
  | zero => intro i s; rfl
  | succ m ih =>
    intro i s
    simp only [forLoopFrom]
    cases g s with
    | error e => rfl
    | ok s1 => simp only []; rw [ih (i + 1) s1, ih (0 + 1) s1]

theorem forLoopFrom_add {σ : Type} (body : Nat → σ → Except Err σ) :
    ∀ (a b i : Nat) (s : σ),
      forLoopFrom body (a + b) i s =
        (forLoopFrom body a i s >>= fun s1 => forLoopFrom body b (i + a) s1) := by
  intro a
  induction a with
  | zero => intro b i s; simp [forLoopFrom]
  | succ m ih =>
    intro b i s
    have e : m + 1 + b = (m + b) + 1 := by omega
    rw [e]
    simp only [forLoopFrom]
    cases body i s with
    | error e => rfl
    | ok s1 =>
      simp only []
      rw [ih b (i + 1) s1]
      have e2 : i + 1 + m = i + (m + 1) := by omega
      rw [e2]

/-- A loop over an index-free body run `a + b` times is the loop run `a` times
followed by the loop run `b` times. -/
theorem forLoop_add {σ : Type} (g : σ → Except Err σ) (a b : Nat) (s : σ) :
    forLoop (a + b) (fun _ => g) s =
      (forLoop a (fun _ => g) s >>= fun s1 => forLoop b (fun _ => g) s1) := by
  simp only [forLoop]
  rw [forLoopFrom_add]
  congr 1
  funext s1
  exact forLoopFrom_shift g b (0 + a) s1

/-- A loop seen through a projection `π` of its state: when, on the states
that satisfy an invariant, every iteration projects to one iteration of `g`. -/
theorem forLoopFrom_proj {σ τ : Type} (π : σ → τ) (I : σ → Prop)
    (body : Nat → σ → Except Err σ) (g : τ → Except Err τ)
    (hI : ∀ k s s1, I s → body k s = .ok s1 → I s1)
    (h : ∀ k s, I s → (body k s >>= fun s1 => pure (π s1)) = g (π s)) :
    ∀ (fuel i : Nat) (s : σ), I s →
      (forLoopFrom body fuel i s >>= fun s1 => pure (π s1)) =
        forLoopFrom (fun _ => g) fuel i (π s) := by
  intro fuel
  induction fuel with
  | zero => intro i s _; rfl
  | succ m ih =>
    intro i s hs
    simp only [forLoopFrom]
    have hk := h i s hs
    cases hb : body i s with
    | error e =>
      rw [hb] at hk
      simp only [bind_error_eq] at hk
      rw [← hk]
      rfl
    | ok s1 =>
      rw [hb] at hk
      simp only [bind_ok_eq, pure_eq_ok] at hk
      rw [← hk]
      exact ih (i + 1) s1 (hI i s s1 hs hb)

namespace MLP

variable {T : Type}

theorem validData_transfer {n m : MLP T} {inputs targets : List (Matrix T)}
    (h : ValidData n inputs targets) (hn : n.WF) (hm : m.WF)
    (hl : m.layerSizes = n.layerSizes) : ValidData m inputs targets := by
  have hd : m.depth = n.depth := by
    have h1 : m.depth = m.layerSizes.length - 1 := hm.1
    have h2 : n.depth = n.layerSizes.length - 1 := hn.1
    rw [h1, h2, hl]
  have e0 : m.dim 0 = n.dim 0 := by simp only [dim, hl]
  have e1 : m.dim m.depth = n.dim n.depth := by simp only [dim, hl, hd]
  exact ⟨h.1, by rw [e0]; exact h.2.1, by rw [e1]; exact h.2.2⟩

/-- One epoch of `trainWithValidation`, seen on the network alone: it is the
epoch body `epochStep`, whether or not the progress line is printed. -/
theorem epoch_body_proj [Field T] (exp : T → T) (trI trT vI vT : List (Matrix T))
    (verbose : Bool) (epoch : Nat) (s : MLP T) (out : List (Nat × T × T))
    (hs : verbose = true → s.WF ∧ ValidData s vI vT) :
    ((do
        let (self, totalLoss) ← epochStep exp s trI trT
        if verbose && epoch % 100 == 0 then
          let trainLoss := totalLoss * (1 / (trI.length : T))
          let (valLoss, self) ← evaluate exp self vI vT
          pure (self, out ++ [(epoch, trainLoss, valLoss)])
        else pure (self, out)) >>= fun (r : MLP T × List (Nat × T × T)) => pure r.1) =
      (epochStep exp s trI trT >>= fun r => pure r.1) := by
  cases he : epochStep exp s trI trT with
  | error e => rfl
  | ok r =>
    obtain ⟨s1, loss⟩ := r
    simp only [bind_ok_eq]
    cases verbose with
    | false => rfl
    | true =>
      obtain ⟨hwf, hv⟩ := hs rfl
      have hp := epochStep_preserves exp trI trT hwf he
      have hv1 := validData_transfer hv hwf hp.1 hp.2.1
      by_cases hc : (epoch % 100 == 0) = true
      · simp only [hc, Bool.and_self, if_true, evaluate_eq exp hp.1 hv1, bind_ok_eq, pure_eq_ok]
      · simp only [hc, Bool.true_and, if_false, Bool.false_eq_true, bind_ok_eq, pure_eq_ok]

/-- The network that `trainWithValidation` leaves is the epoch body iterated
`epochs` times. -/
theorem train_proj [Field T] (exp : T → T) (trI trT vI vT : List (Matrix T))
    (verbose : Bool) (epochs : Int) (n : MLP T)
    (hn : verbose = true → n.WF ∧ ValidData n vI vT) :
    (trainWithValidation exp n trI trT vI vT epochs verbose >>= fun r => pure r.1) =
      forLoop epochs.toNat (fun _ s => epochStep exp s trI trT >>= fun r => pure r.1) n := by
  unfold trainWithValidation forLoop
  refine forLoopFrom_proj Prod.fst (fun p => verbose = true → p.1.WF ∧ ValidData p.1 vI vT)
    _ _ ?_ ?_ epochs.toNat 0 (n, []) hn
  · intro k ⟨s, out⟩ ⟨s1, out1⟩ hI hb hv
    obtain ⟨hwf, hvd⟩ := hI hv
    have hproj := epoch_body_proj exp trI trT vI vT verbose k s out hI
    simp only at hb
    rw [hb] at hproj
    simp only [bind_ok_eq, pure_eq_ok] at hproj
    cases he : epochStep exp s trI trT with
    | error e => rw [he] at hproj; simp at hproj
    | ok r =>
      obtain ⟨s2, loss⟩ := r
      rw [he] at hproj
      simp only [bind_ok_eq, pure_eq_ok, Except.ok.injEq] at hproj
      have hp := epochStep_preserves exp trI trT hwf he
      simp only at hproj ⊢
      rw [hproj]
      exact ⟨hp.1, validData_transfer hvd hwf hp.1 hp.2.1⟩
  · intro k ⟨s, out⟩ hI
    exact epoch_body_proj exp trI trT vI vT verbose k s out hI

end MLP

end MLPSpec

namespace MLPSpec

/-- C18: training is resumable.  For epoch counts `a >= 0` and `b >= 0` and the
same data, the call with `epochs = a` followed by the call with `epochs = b` on
the network it leaves ends with the same network (weights, biases, layer sizes,
learning rate) as the single call with `epochs = a + b`, and fails when the
single call fails.  With `verbose` off this holds for every network state and
all data; with `verbose` on, for a well-formed network and valid validation
data. -/
theorem resume_contract {T : Type} [Field T] (exp : T → T) (n : MLP T)
    (trI trT vI vT : List (Matrix T)) (a b : Int) (verbose : Bool) (ha : 0 ≤ a) (hb : 0 ≤ b)
    (hv : verbose = true → n.WF ∧ ValidData n vI vT) :
    (do
      let r ← MLP.trainWithValidation exp n trI trT vI vT a verbose
      let r2 ← MLP.trainWithValidation exp r.1 trI trT vI vT b verbose
      pure r2.1) =
    (do
      let r ← MLP.trainWithValidation exp n trI trT vI vT (a + b) verbose
      pure r.1) := by
  rw [MLP.train_proj exp trI trT vI vT verbose (a + b) n hv, Int.toNat_add ha hb, forLoop_add,
    ← MLP.train_proj exp trI trT vI vT verbose a n hv]
  cases h : MLP.trainWithValidation exp n trI trT vI vT a verbose with
  | error e => rfl
  | ok r =>
    simp only [bind_ok_eq, pure_eq_ok]
    refine MLP.train_proj exp trI trT vI vT verbose b r.1 ?_
    intro hverb
    obtain ⟨hwf, hvd⟩ := hv hverb
    have hp := MLP.trainWithValidation_preserves exp trI trT vI vT a verbose hwf h
    exact ⟨hp.1, MLP.validData_transfer hvd hwf hp.1 hp.2.1⟩

/-- C18, instance: `tinyNet`, one epoch and then one more, against two epochs;
both ways end with `tinyTrainedTwice`. -/
theorem resume_contract_witness :
    (0 : Int) ≤ 1 ∧ (0 : Int) ≤ 1 ∧
    (true = true → tinyNet.WF ∧ ValidData tinyNet [exampleInput] [exampleTarget]) ∧
    (do
      let r ← MLP.trainWithValidation unitExp tinyNet [exampleInput] [exampleTarget]
        [exampleInput] [exampleTarget] 1 true
      let r2 ← MLP.trainWithValidation unitExp r.1 [exampleInput] [exampleTarget]
        [exampleInput] [exampleTarget] 1 true
      pure r2.1) =
    (do
      let r ← MLP.trainWithValidation unitExp tinyNet [exampleInput] [exampleTarget]
        [exampleInput] [exampleTarget] (1 + 1) true
      pure r.1) ∧
    MLP.trainWithValidation unitExp tinyNet [exampleInput] [exampleTarget]
      [exampleInput] [exampleTarget] (1 + 1) true =
        .ok (tinyTrainedTwice, [(0, 1 / 4, 1 / 4)]) :=
  ⟨by decide, by decide, fun _ => ⟨by decide, by decide⟩,
    resume_contract unitExp tinyNet [exampleInput] [exampleTarget] [exampleInput]
      [exampleTarget] 1 1 true (by decide) (by decide) (fun _ => ⟨by decide, by decide⟩),
    by decide!⟩

end MLPSpec
namespace MLPSpec

namespace MLP

variable {T : Type}

theorem specDelta_isCol [Field T] (exp : T → T) {n : MLP T} (h : n.WF) {x : Matrix T}
    (hx : IsCol x (n.dim 0)) (t : Matrix T) {i : Nat} (hi : i < n.depth) :
    IsCol (specDelta exp n x t i) (n.W i).rows := by
  have := specDeltaRev_isCol exp h hx t (by omega) (n.depth - 1 - i) (by omega)
  have e : n.depth - 1 - (n.depth - 1 - i) = i := by omega
  rw [e] at this
  exact this

/-- The loop that creates the gradient accumulators: one zero matrix of the
shape of every weight matrix and of every bias matrix. -/
theorem zeroGradients_eq [Field T] {n : MLP T} (h : n.WF) :
    forLoop n.weights.length (fun i (wg, bg) => do
      let w ← idx n.weights i
      let b ← idx n.biases i
      pure (wg ++ [Matrix.ofSize w.rows w.cols], bg ++ [Matrix.ofSize b.rows b.cols]))
      (([] : List (Matrix T)), ([] : List (Matrix T))) =
    .ok ((List.range n.depth).map (fun i =>
        Matrix.tab (n.W i).rows (n.W i).cols (fun _ _ => (0 : T))),
      (List.range n.depth).map (fun i => Matrix.tab (n.W i).rows 1 (fun _ _ => (0 : T)))) := by
  refine forLoop_eq_gen _ _
    (fun q => ((List.range q).map (fun i =>
        Matrix.tab (n.W i).rows (n.W i).cols (fun _ _ => (0 : T))),
      (List.range q).map (fun i => Matrix.tab (n.W i).rows 1 (fun _ _ => (0 : T)))))
    ?_ _ rfl _ rfl
  intro q hq
  have hq2 : q < n.depth := hq
  obtain ⟨_, _, hr, _, hbr, hbc⟩ := h.layer hq2
  simp only [h.idx_weights hq2, h.idx_biases hq2, bind_ok_eq, pure_eq_ok,
    Matrix.ofSize_eq_tab, List.range_succ, List.map_append, List.map_cons, List.map_nil,
    hbr, hbc, hr]

/-- The body of the sample loop of an epoch: the squared error of the sample is
added to the loss, and `delta_i(j) * activation_i(k)` and `delta_i(j)` to the
gradient accumulators. -/
theorem sample_step [Field T] (exp : T → T) {n : MLP T} (hn : n.WF) (hL : 1 ≤ n.depth)
    (hL2 : n.depth < 2 ^ 31) {inputs targets : List (Matrix T)}
    (hd : ValidData n inputs targets) {s : Nat} (hs : s < inputs.length) (total : T)
    (G H : Nat → Nat → Nat → T) :
    (do let input ← idx inputs s
        let (activations, _) ← forwardCache exp n input
        let error ← (← back activations).sub (← idx targets s)
        let totalLoss ← addSquaredError error total
        let deltas ← backward n activations error
        let (wg, bg) ← accumulate n activations deltas
          ((List.range n.depth).map (fun i => Matrix.tab (n.W i).rows (n.W i).cols (G i)))
          ((List.range n.depth).map (fun i => Matrix.tab (n.W i).rows 1 (H i)))
        pure (totalLoss, wg, bg)) =
      Except.ok (total + ∑ i ∈ Finset.range (n.dim n.depth), ∑ j ∈ Finset.range 1,
          ((specAct exp n (inputs.getD s Matrix.empty) n.depth).entry i j -
            (targets.getD s Matrix.empty).entry i j) ^ 2,
        (List.range n.depth).map (fun i => Matrix.tab (n.W i).rows (n.W i).cols (fun a b =>
          G i a b +
            (specDelta exp n (inputs.getD s Matrix.empty) (targets.getD s Matrix.empty) i).entry
              a 0 * (specAct exp n (inputs.getD s Matrix.empty) i).entry b 0)),
        (List.range n.depth).map (fun i => Matrix.tab (n.W i).rows 1 (fun a b =>
          H i a b +
            (specDelta exp n (inputs.getD s Matrix.empty) (targets.getD s Matrix.empty) i).entry
              a 0))) := by
  have hx := hd.input hs
  have ht := hd.target hs
  have ha := specAct_isCol exp hn hx n.depth (Nat.le_refl _)
  obtain ⟨lins, hfc⟩ := forwardCache_eq exp hn hx
  have hsub := Matrix.sub_eq ha.1 ht.1 (by rw [ha.2.1, ht.2.1]) (by rw [ha.2.2, ht.2.2])
  have hE : IsCol (Matrix.tab (specAct exp n (inputs.getD s Matrix.empty) n.depth).rows
      (specAct exp n (inputs.getD s Matrix.empty) n.depth).cols
      (fun i j => (specAct exp n (inputs.getD s Matrix.empty) n.depth).entry i j -
        (targets.getD s Matrix.empty).entry i j)) (n.dim n.depth) :=
    ⟨Matrix.tab_WF _ _ _, by rw [Matrix.tab_rows, ha.2.1], by rw [Matrix.tab_cols, ha.2.2]⟩
  have hback := backward_eq exp hn hx (t := targets.getD s Matrix.empty) hL hL2 hE
    (fun j hj => Matrix.entry_tab _ _ _ (by rw [ha.2.1]; exact hj)
      (by rw [ha.2.2]; exact Nat.one_pos))
  have hacc := accumulate_eq hn
    ((List.range (n.depth + 1)).map (specAct exp n (inputs.getD s Matrix.empty)))
    ((List.range n.depth).map
      (specDelta exp n (inputs.getD s Matrix.empty) (targets.getD s Matrix.empty)))
    (specAct exp n (inputs.getD s Matrix.empty))
    (specDelta exp n (inputs.getD s Matrix.empty) (targets.getD s Matrix.empty)) G H
    (fun i hi => idx_map_range _ _ (by omega))
    (fun i hi => idx_map_range _ _ hi)
    (fun i hi => by
      rw [(hn.layer hi).2.2.2.1]
      exact specAct_isCol exp hn hx i (Nat.le_of_lt hi))
    (fun i hi => specDelta_isCol exp hn hx _ hi)
  refine bind_eq_of (idx_getD inputs Matrix.empty hs) ?_
  refine bind_eq_of hfc ?_
  refine bind_eq_of (back_map_range n.depth _) ?_
  refine bind_eq_of (idx_getD targets Matrix.empty (hd.1 ▸ hs)) ?_
  refine bind_eq_of hsub ?_
  refine bind_eq_of (addSquaredError_eq hE.1 total) ?_
  refine bind_eq_of hback ?_
  refine bind_eq_of hacc ?_
  refine congrArg (fun v => Except.ok (total + v, _, _)) ?_
  rw [Matrix.tab_rows, Matrix.tab_cols, ha.2.1, ha.2.2]
  apply Finset.sum_congr rfl
  intro i hi
  apply Finset.sum_congr rfl
  intro j hj
  rw [Matrix.entry_tab _ _ _ (Finset.mem_range.1 hi) (Finset.mem_range.1 hj)]
  ring

/-- The sample loop of an epoch: the summed squared error and the accumulated
gradients of all samples, every one computed from the parameters of `n`. -/
theorem sampleLoop_eq [Field T] (exp : T → T) {n : MLP T} (hn : n.WF) (hL : 1 ≤ n.depth)
    (hL2 : n.depth < 2 ^ 31) {inputs targets : List (Matrix T)}
    (hd : ValidData n inputs targets) :
    forLoop inputs.length (fun sample (totalLoss, wg, bg) => do
        let input ← idx inputs sample
        let (activations, _) ← forwardCache exp n input
        let error ← (← back activations).sub (← idx targets sample)
        let totalLoss ← addSquaredError error totalLoss
        let deltas ← backward n activations error
        let (wg, bg) ← accumulate n activations deltas wg bg
        pure (totalLoss, wg, bg))
      ((0 : T),
        (List.range n.depth).map (fun i =>
          Matrix.tab (n.W i).rows (n.W i).cols (fun _ _ => (0 : T))),
        (List.range n.depth).map (fun i => Matrix.tab (n.W i).rows 1 (fun _ _ => (0 : T)))) =
    .ok (specTotalLoss exp n inputs targets,
      (List.range n.depth).map (fun i => Matrix.tab (n.W i).rows (n.W i).cols
        (fun a b => specWeightGradient exp n inputs targets i a b)),
      (List.range n.depth).map (fun i => Matrix.tab (n.W i).rows 1
        (fun a _ => specBiasGradient exp n inputs targets i a))) := by
  refine forLoop_eq_gen _ _
    (fun q => (∑ s ∈ Finset.range q, ∑ i ∈ Finset.range (n.dim n.depth),
        ∑ j ∈ Finset.range 1,
          ((specAct exp n (inputs.getD s Matrix.empty) n.depth).entry i j -
            (targets.getD s Matrix.empty).entry i j) ^ 2,
      (List.range n.depth).map (fun i => Matrix.tab (n.W i).rows (n.W i).cols (fun a b =>
        ∑ s ∈ Finset.range q,
          (specDelta exp n (inputs.getD s Matrix.empty) (targets.getD s Matrix.empty) i).entry
            a 0 * (specAct exp n (inputs.getD s Matrix.empty) i).entry b 0)),
      (List.range n.depth).map (fun i => Matrix.tab (n.W i).rows 1 (fun a _ =>
        ∑ s ∈ Finset.range q,
          (specDelta exp n (inputs.getD s Matrix.empty) (targets.getD s Matrix.empty) i).entry
            a 0))))
    ?_ _ ?_ _ ?_
  · intro q hq
    refine (sample_step exp hn hL hL2 hd hq _ _ _).trans ?_
    simp only [Finset.sum_range_succ]
  · simp only [Finset.range_zero, Finset.sum_empty]
  · rfl

/-- One epoch on a well-formed network and a valid data set returns the network
`specEpoch` and the summed squared error of the data set. -/
theorem epochStep_eq [Field T] (exp : T → T) {n : MLP T} (hn : n.WF) (hL : 1 ≤ n.depth)
    (hL2 : n.depth < 2 ^ 31) {inputs targets : List (Matrix T)}
    (hd : ValidData n inputs targets) :
    epochStep exp n inputs targets =
      .ok (specEpoch exp n inputs targets, specTotalLoss exp n inputs targets) := by
  have hup := update_eq hn
    ((List.range n.depth).map (fun i => Matrix.tab (n.W i).rows (n.W i).cols
      (fun a b => specWeightGradient exp n inputs targets i a b)))
    ((List.range n.depth).map (fun i => Matrix.tab (n.W i).rows 1
      (fun a _ => specBiasGradient exp n inputs targets i a)))
    inputs.length
    (fun i => Matrix.tab (n.W i).rows (n.W i).cols
      (fun a b => specWeightGradient exp n inputs targets i a b))
    (fun i => Matrix.tab (n.W i).rows 1
      (fun a _ => specBiasGradient exp n inputs targets i a))
    (fun i hi => idx_map_range _ _ hi) (fun i hi => idx_map_range _ _ hi)
    (fun i _ => ⟨Matrix.tab_WF _ _ _, rfl, rfl⟩)
    (fun i _ => ⟨Matrix.tab_WF _ _ _, rfl, rfl⟩)
  unfold epochStep
  refine bind_eq_of (zeroGradients_eq hn) ?_
  refine bind_eq_of (sampleLoop_eq exp hn hL hL2 hd) ?_
  refine bind_eq_of hup ?_
  refine congrArg (fun m => Except.ok (m, specTotalLoss exp n inputs targets)) ?_
  unfold specEpoch
  refine congrArg₂ (fun m1 m2 => MLP.mk m1 m2 n.layerSizes n.learningRate) ?_ ?_
  · apply map_range_congr
    intro i _
    apply Matrix.tab_congr
    intro a b ha hb
    rw [Matrix.entry_tab _ _ _ ha hb]
  · apply map_range_congr
    intro i hi
    obtain ⟨_, _, hr, _, hbr, _⟩ := hn.layer hi
    rw [hbr, ← hr]
    apply Matrix.tab_congr
    intro a b ha hb
    rw [Matrix.entry_tab _ _ _ ha Nat.one_pos]

end MLP

end MLPSpec
namespace MLPSpec

namespace MLP

variable {T : Type}

theorem evaluate_eq_spec [Field T] (exp : T → T) {n : MLP T} (hn : n.WF)
    {inputs targets : List (Matrix T)} (hd : ValidData n inputs targets) :
    evaluate exp n inputs targets =
      .ok (specTotalLoss exp n inputs targets / (inputs.length : T), n) :=
  evaluate_eq exp hn hd

/-- The networks `specTrain` keep the shape invariant, the layer sizes and the
learning rate. -/
theorem specTrain_inv [Field T] (exp : T → T) {n : MLP T} (hn : n.WF) (hL : 1 ≤ n.depth)
    (hL2 : n.depth < 2 ^ 31) {inputs targets : List (Matrix T)}
    (hd : ValidData n inputs targets) :
    ∀ e, (specTrain exp n inputs targets e).WF ∧
      (specTrain exp n inputs targets e).layerSizes = n.layerSizes ∧
      (specTrain exp n inputs targets e).learningRate = n.learningRate
  | 0 => ⟨hn, rfl, rfl⟩
  | e + 1 => by
    obtain ⟨h1, h2, h3⟩ := specTrain_inv exp hn hL hL2 hd e
    have hdep : (specTrain exp n inputs targets e).depth = n.depth := by
      have a1 : (specTrain exp n inputs targets e).depth =
          (specTrain exp n inputs targets e).layerSizes.length - 1 := h1.1
      have a2 : n.depth = n.layerSizes.length - 1 := hn.1
      rw [a1, a2, h2]
    have hstep := epochStep_eq exp h1 (by rw [hdep]; exact hL) (by rw [hdep]; exact hL2)
      (validData_transfer hd hn h1 h2)
    obtain ⟨q1, q2, q3⟩ := epochStep_preserves exp inputs targets h1 hstep
    exact ⟨q1, q2.trans h2, q3.trans h3⟩

theorem specTrain_depth [Field T] (exp : T → T) {n : MLP T} (hn : n.WF) (hL : 1 ≤ n.depth)
    (hL2 : n.depth < 2 ^ 31) {inputs targets : List (Matrix T)}
    (hd : ValidData n inputs targets) (e : Nat) :
    (specTrain exp n inputs targets e).depth = n.depth := by
  obtain ⟨h1, h2, _⟩ := specTrain_inv exp hn hL hL2 hd e
  have a1 : (specTrain exp n inputs targets e).depth =
      (specTrain exp n inputs targets e).layerSizes.length - 1 := h1.1
  have a2 : n.depth = n.layerSizes.length - 1 := hn.1
  rw [a1, a2, h2]

/-- The method `trainWithValidation` on a well-formed network and valid data
returns the network `specTrain` after the requested epochs and the progress
lines `specLog`. -/
theorem trainWithValidation_eq [Field T] (exp : T → T) {n : MLP T} (hn : n.WF)
    (hL : 1 ≤ n.depth) (hL2 : n.depth < 2 ^ 31) {trI trT vI vT : List (Matrix T)}
    (hd : ValidData n trI trT) (verbose : Bool) (hv : verbose = true → ValidData n vI vT)
    (epochs : Int) :
    trainWithValidation exp n trI trT vI vT epochs verbose =
      .ok (specTrain exp n trI trT epochs.toNat,
        specLog exp n trI trT vI vT verbose epochs.toNat) := by
  unfold trainWithValidation
  refine forLoop_eq_gen _ _
    (fun q => (specTrain exp n trI trT q, specLog exp n trI trT vI vT verbose q))
    ?_ _ rfl _ rfl
  intro q _
  obtain ⟨h1, h2, _⟩ := specTrain_inv exp hn hL hL2 hd q
  obtain ⟨k1, k2, _⟩ := specTrain_inv exp hn hL hL2 hd (q + 1)
  have hdep := specTrain_depth exp hn hL hL2 hd q
  have hstep := epochStep_eq exp h1 (by rw [hdep]; exact hL) (by rw [hdep]; exact hL2)
    (validData_transfer hd hn h1 h2)
  refine bind_eq_of hstep ?_
  by_cases hc : (verbose && q % 100 == 0) = true
  · have hvb : verbose = true := by
      simp only [Bool.and_eq_true] at hc
      exact hc.1
    have hev := evaluate_eq_spec exp k1 (validData_transfer (hv hvb) hn k1 k2)
    simp only [hc, if_true]
    refine bind_eq_of hev ?_
    simp only [specLog, hc, if_true]
    rfl
  · simp only [hc, if_false, Bool.false_eq_true]
    simp only [specLog, hc, if_false, Bool.false_eq_true, List.append_nil]
    rfl

end MLP

end MLPSpec
namespace MLPSpec

theorem length_cast_ne_zero {T : Type} [LinearOrderedField T] {α : Type} {l : List α}
    (h : l ≠ []) : ((l.length : Nat) : T) ≠ 0 := by
  have : l.length ≠ 0 := fun e => h (List.length_eq_zero.1 e)
  exact Nat.cast_ne_zero.2 this

/-- C19: on a well-formed network whose architecture has at least two layer
sizes (and at most `2^31`, the range of the `int` counter of the backward
loop), with an input column of `layerSizes[0]` rows and non-empty valid
training, validation and test sets, the methods `forward`, `evaluate`,
`calculateAccuracy` and `trainWithValidation` (any epoch count, verbose or not)
return a result: no `out_of_range`, no `invalid_argument` and no read past the
end of a sequence.  The sample counts they divide by are not zero, and the
network that training returns is again well-formed with the same layer sizes,
so that the same holds for every later call. -/
theorem no_failure_contract {T : Type} [LinearOrderedField T] (exp : T → T) (n : MLP T)
    (x : Matrix T) (trI trT vI vT teI teT : List (Matrix T)) (threshold : T) (epochs : Int)
    (verbose : Bool) (hn : n.WF) (hlen : 2 ≤ n.layerSizes.length)
    (hmax : n.layerSizes.length ≤ 2 ^ 31) (hx : IsCol x (n.dim 0))
    (htr : ValidData n trI trT) (htr0 : trI ≠ []) (hva : ValidData n vI vT) (hva0 : vI ≠ [])
    (hte : ValidData n teI teT) (hte0 : teI ≠ []) :
    (∃ a, MLP.forward exp n x = .ok (a, n)) ∧
    (∃ l, MLP.evaluate exp n teI teT = .ok (l, n)) ∧
    (∃ a, MLP.calculateAccuracy exp n teI teT threshold = .ok (a, n)) ∧
    (∃ r, MLP.trainWithValidation exp n trI trT vI vT epochs verbose = .ok r ∧
      r.1.WF ∧ r.1.layerSizes = n.layerSizes) ∧
    ((trI.length : Nat) : T) ≠ 0 ∧ ((vI.length : Nat) : T) ≠ 0 ∧
    ((teI.length : Nat) : T) ≠ 0 := by
  have hL : 1 ≤ n.depth := hn.depth_pos hlen
  have hL2 : n.depth < 2 ^ 31 := by
    have h1 : n.depth = n.layerSizes.length - 1 := hn.1
    omega
  have htrain : MLP.trainWithValidation exp n trI trT vI vT epochs verbose = _ :=
    MLP.trainWithValidation_eq exp hn hL hL2 htr verbose (fun _ => hva) epochs
  have hinv := MLP.specTrain_inv exp hn hL hL2 htr epochs.toNat
  exact ⟨⟨_, MLP.forward_eq exp hn hx⟩, ⟨_, MLP.evaluate_eq exp hn hte⟩,
    ⟨_, MLP.calculateAccuracy_eq exp hn hte threshold⟩,
    ⟨_, htrain, hinv.1, hinv.2.1⟩,
    length_cast_ne_zero htr0, length_cast_ne_zero hva0, length_cast_ne_zero hte0⟩

/-- C19, instance: `tinyNet` with one sample as training, validation and test
set, three verbose epochs. -/
theorem no_failure_contract_witness :
    tinyNet.WF ∧ 2 ≤ tinyNet.layerSizes.length ∧ tinyNet.layerSizes.length ≤ 2 ^ 31 ∧
    IsCol exampleInput (tinyNet.dim 0) ∧
    ValidData tinyNet [exampleInput] [exampleTarget] ∧ [exampleInput] ≠ [] ∧
    (∃ a, MLP.forward unitExp tinyNet exampleInput = .ok (a, tinyNet)) ∧
    (∃ l, MLP.evaluate unitExp tinyNet [exampleInput] [exampleTarget] = .ok (l, tinyNet)) ∧
    (∃ a, MLP.calculateAccuracy unitExp tinyNet [exampleInput] [exampleTarget] (1 / 2) =
      .ok (a, tinyNet)) ∧
    (∃ r, MLP.trainWithValidation unitExp tinyNet [exampleInput] [exampleTarget]
        [exampleInput] [exampleTarget] 3 true = .ok r ∧
      r.1.WF ∧ r.1.layerSizes = tinyNet.layerSizes) ∧
    (([exampleInput].length : Nat) : ℚ) ≠ 0 ∧ (([exampleInput].length : Nat) : ℚ) ≠ 0 ∧
    (([exampleInput].length : Nat) : ℚ) ≠ 0 :=
  ⟨by decide, by decide, by decide, by decide, by decide, by decide,
    no_failure_contract unitExp tinyNet exampleInput [exampleInput] [exampleTarget]
      [exampleInput] [exampleTarget] [exampleInput] [exampleTarget] (1 / 2) 3 true
      (by decide) (by decide) (by decide) (by decide) (by decide) (by decide) (by decide)
      (by decide) (by decide) (by decide)⟩

end MLPSpec
namespace MLPSpec

/-- C2: on a well-formed network (at least two and at most `2^31` layer sizes)
and a valid training set of `N` samples, `N` not zero as a scalar, one epoch of
`trainWithValidation` returns, and it replaces every `weights[i](j,k)` by
`weights[i](j,k) - learningRate * (1/N) * (sum over the samples of
delta_i(j) * activation_i(k))` and every `biases[i](j,0)` by
`biases[i](j,0) - learningRate * (1/N) * (sum over the samples of delta_i(j))`.
The activations `acts s` and the deltas `deltas s` of sample `s` are those that
the cached forward pass and the backward pass of the code compute on the
network as it was at the start of the epoch. -/
theorem epoch_update_contract {T : Type} [Field T] (exp : T → T) (n : MLP T)
    (trI trT vI vT : List (Matrix T)) (verbose : Bool) (hn : n.WF)
    (hlen : 2 ≤ n.layerSizes.length) (hmax : n.layerSizes.length ≤ 2 ^ 31)
    (htr : ValidData n trI trT) (_hN : ((trI.length : Nat) : T) ≠ 0)
    (hva : verbose = true → ValidData n vI vT) :
    ∃ (acts deltas : Nat → List (Matrix T)) (r : MLP T × List (Nat × T × T)),
      (∀ s, s < trI.length → ∃ lins out err,
        MLP.forwardCache exp n (trI.getD s Matrix.empty) = .ok (acts s, lins) ∧
        back (acts s) = .ok out ∧ out.sub (trT.getD s Matrix.empty) = .ok err ∧
        MLP.backward n (acts s) err = .ok (deltas s)) ∧
      MLP.trainWithValidation exp n trI trT vI vT 1 verbose = .ok r ∧
      r.1.layerSizes = n.layerSizes ∧ r.1.learningRate = n.learningRate ∧
      ∀ i, i < n.layerSizes.length - 1 →
        (∀ j k, j < (n.W i).rows → k < (n.W i).cols →
          (r.1.W i).entry j k =
            (n.W i).entry j k - n.learningRate * (1 / ((trI.length : Nat) : T)) *
              ∑ s ∈ Finset.range trI.length,
                ((deltas s).getD i Matrix.empty).entry j 0 *
                  ((acts s).getD i Matrix.empty).entry k 0) ∧
        (∀ j, j < (n.B i).rows →
          (r.1.B i).entry j 0 =
            (n.B i).entry j 0 - n.learningRate * (1 / ((trI.length : Nat) : T)) *
              ∑ s ∈ Finset.range trI.length,
                ((deltas s).getD i Matrix.empty).entry j 0) := by
  have hL : 1 ≤ n.depth := hn.depth_pos hlen
  have hd : n.depth = n.layerSizes.length - 1 := hn.1
  have hL2 : n.depth < 2 ^ 31 := by omega
  have htrain : MLP.trainWithValidation exp n trI trT vI vT 1 verbose = _ :=
    MLP.trainWithValidation_eq exp hn hL hL2 htr verbose hva 1
  refine ⟨fun s => (List.range (n.depth + 1)).map (MLP.specAct exp n (trI.getD s Matrix.empty)),
    fun s => (List.range n.depth).map
      (MLP.specDelta exp n (trI.getD s Matrix.empty) (trT.getD s Matrix.empty)),
    _, ?_, htrain, rfl, rfl, ?_⟩
  · intro s hs
    have hx := htr.input hs
    have ht := htr.target hs
    have ha := MLP.specAct_isCol exp hn hx n.depth (Nat.le_refl _)
    obtain ⟨lins, hfc⟩ := MLP.forwardCache_eq exp hn hx
    refine ⟨lins, _, _, hfc, back_map_range n.depth _,
      Matrix.sub_eq ha.1 ht.1 (by rw [ha.2.1, ht.2.1]) (by rw [ha.2.2, ht.2.2]), ?_⟩
    exact MLP.backward_eq exp hn hx hL hL2
      ⟨Matrix.tab_WF _ _ _, by rw [Matrix.tab_rows, ha.2.1], by rw [Matrix.tab_cols, ha.2.2]⟩
      (fun j hj => Matrix.entry_tab _ _ _ (by rw [ha.2.1]; exact hj)
        (by rw [ha.2.2]; exact Nat.one_pos))
  · intro i hi
    have hi2 : i < n.depth := by omega
    have e1 : (1 : Int).toNat = 1 := rfl
    have hW : (MLP.specTrain exp n trI trT (1 : Int).toNat).W i =
        Matrix.tab (n.W i).rows (n.W i).cols (fun j k =>
          (n.W i).entry j k - n.learningRate *
            (MLP.specWeightGradient exp n trI trT i j k * (1 / ((trI.length : Nat) : T)))) := by
      rw [e1]
      exact getD_map_range _ _ _ hi2
    have hB : (MLP.specTrain exp n trI trT (1 : Int).toNat).B i =
        Matrix.tab (n.B i).rows 1 (fun j _ =>
          (n.B i).entry j 0 - n.learningRate *
            (MLP.specBiasGradient exp n trI trT i j * (1 / ((trI.length : Nat) : T)))) := by
      rw [e1]
      exact getD_map_range _ _ _ hi2
    refine ⟨fun j k hj hk => ?_, fun j hj => ?_⟩
    · rw [hW, Matrix.entry_tab _ _ _ hj hk]
      have hsum : MLP.specWeightGradient exp n trI trT i j k =
          ∑ s ∈ Finset.range trI.length,
            (((List.range n.depth).map (MLP.specDelta exp n (trI.getD s Matrix.empty)
              (trT.getD s Matrix.empty))).getD i Matrix.empty).entry j 0 *
            (((List.range (n.depth + 1)).map
              (MLP.specAct exp n (trI.getD s Matrix.empty))).getD i Matrix.empty).entry k 0 := by
        unfold MLP.specWeightGradient
        apply Finset.sum_congr rfl
        intro s _
        rw [getD_map_range _ _ _ hi2, getD_map_range _ _ _ (by omega : i < n.depth + 1)]
      rw [hsum]
      ring
    · rw [hB, Matrix.entry_tab _ _ _ hj Nat.one_pos]
      have hsum : MLP.specBiasGradient exp n trI trT i j =
          ∑ s ∈ Finset.range trI.length,
            (((List.range n.depth).map (MLP.specDelta exp n (trI.getD s Matrix.empty)
              (trT.getD s Matrix.empty))).getD i Matrix.empty).entry j 0 := by
        unfold MLP.specBiasGradient
        apply Finset.sum_congr rfl
        intro s _
        rw [getD_map_range _ _ _ hi2]
      rw [hsum]
      ring

/-- C2, instance: one verbose epoch of `tinyNet` on one sample. -/
theorem epoch_update_contract_witness :
    tinyNet.WF ∧ 2 ≤ tinyNet.layerSizes.length ∧ tinyNet.layerSizes.length ≤ 2 ^ 31 ∧
    ValidData tinyNet [exampleInput] [exampleTarget] ∧
    (([exampleInput].length : Nat) : ℚ) ≠ 0 ∧
    MLP.trainWithValidation unitExp tinyNet [exampleInput] [exampleTarget] [exampleInput]
      [exampleTarget] 1 true = .ok (tinyTrained, [(0, 1 / 4, 1 / 4)]) ∧
    ∃ (acts deltas : Nat → List (Matrix ℚ)) (r : MLP ℚ × List (Nat × ℚ × ℚ)),
      (∀ s, s < [exampleInput].length → ∃ lins out err,
        MLP.forwardCache unitExp tinyNet ([exampleInput].getD s Matrix.empty) =
          .ok (acts s, lins) ∧
        back (acts s) = .ok out ∧ out.sub ([exampleTarget].getD s Matrix.empty) = .ok err ∧
        MLP.backward tinyNet (acts s) err = .ok (deltas s)) ∧
      MLP.trainWithValidation unitExp tinyNet [exampleInput] [exampleTarget] [exampleInput]
        [exampleTarget] 1 true = .ok r ∧
      r.1.layerSizes = tinyNet.layerSizes ∧ r.1.learningRate = tinyNet.learningRate ∧
      ∀ i, i < tinyNet.layerSizes.length - 1 →
        (∀ j k, j < (tinyNet.W i).rows → k < (tinyNet.W i).cols →
          (r.1.W i).entry j k =
            (tinyNet.W i).entry j k -
              tinyNet.learningRate * (1 / (([exampleInput].length : Nat) : ℚ)) *
              ∑ s ∈ Finset.range [exampleInput].length,
                ((deltas s).getD i Matrix.empty).entry j 0 *
                  ((acts s).getD i Matrix.empty).entry k 0) ∧
        (∀ j, j < (tinyNet.B i).rows →
          (r.1.B i).entry j 0 =
            (tinyNet.B i).entry j 0 -
              tinyNet.learningRate * (1 / (([exampleInput].length : Nat) : ℚ)) *
              ∑ s ∈ Finset.range [exampleInput].length,
                ((deltas s).getD i Matrix.empty).entry j 0) :=
  ⟨by decide, by decide, by decide, by decide, by simp, by decide!,
    epoch_update_contract unitExp tinyNet [exampleInput] [exampleTarget] [exampleInput]
      [exampleTarget] true (by decide) (by decide) (by decide) (by decide) (by simp)
      (fun _ => by decide)⟩

end MLPSpec
namespace MLPSpec

namespace MLP

/-- The derivative of the sigmoid `1 / (1 + exp(-x))` is `s * (1 - s)` for its
value `s`. -/
theorem sig_hasDerivAt (z : ℝ) :
    HasDerivAt (sig Real.exp) (sig Real.exp z * (1 - sig Real.exp z)) z := by
  have h1 : HasDerivAt (fun x : ℝ => Real.exp (-x)) (Real.exp (-z) * (-1)) z :=
    (hasDerivAt_neg z).exp
  have h2 : HasDerivAt (fun x : ℝ => 1 + Real.exp (-x)) (Real.exp (-z) * (-1)) z :=
    h1.const_add 1
  have hpos : (1 + Real.exp (-z)) ≠ 0 := ne_of_gt (by positivity)
  have h3 := (hasDerivAt_const z (1 : ℝ)).div h2 hpos
  have e : sig Real.exp = fun x : ℝ => 1 / (1 + Real.exp (-x)) := rfl
  rw [e]
  convert h3 using 1
  field_simp
  ring

/-- The sigmoid along a differentiable curve. -/
theorem sig_comp_hasDerivAt {g : ℝ → ℝ} {g' v0 : ℝ} (h : HasDerivAt g g' v0) :
    HasDerivAt (fun v => sig Real.exp (g v))
      (sig Real.exp (g v0) * (1 - sig Real.exp (g v0)) * g') v0 :=
  (sig_hasDerivAt (g v0)).comp v0 h

/-- Backpropagation: when the pre-activations `γ v` of the layer that enters the
last `d` layers move along differentiable curves through their actual values, the
summed squared error of the sample moves with derivative
`sum over q of delta(q) * γ'(q)`. -/
theorem lossFrom_hasDerivAt {n : MLP ℝ} (hn : n.WF) {x : Matrix ℝ} (hx : IsCol x (n.dim 0))
    (t : Matrix ℝ) :
    ∀ d, d < n.depth → ∀ (γ : ℝ → Nat → ℝ) (γ' : Nat → ℝ) (v0 : ℝ),
      (∀ q, q < (n.W (n.depth - 1 - d)).rows → HasDerivAt (fun v => γ v q) (γ' q) v0) →
      (∀ q, q < (n.W (n.depth - 1 - d)).rows →
        sig Real.exp (γ v0 q) = (specAct Real.exp n x (n.depth - d)).entry q 0) →
      HasDerivAt (fun v => specLossFrom Real.exp n t d
          (Matrix.tab (n.W (n.depth - 1 - d)).rows 1 (fun q _ => sig Real.exp (γ v q))))
        (∑ q ∈ Finset.range (n.W (n.depth - 1 - d)).rows,
          (specDeltaRev Real.exp n x t d).entry q 0 * γ' q) v0 := by
  intro d
  induction d with
  | zero =>
    intro hd γ γ' v0 hγ hpt
    simp only [Nat.sub_zero] at hγ hpt ⊢
    have hR : (n.W (n.depth - 1)).rows = n.dim n.depth := by
      have := (hn.layer (by omega : n.depth - 1 < n.depth)).2.2.1
      rw [this]
      congr 1
      omega
    have ha := specAct_isCol Real.exp hn hx n.depth (Nat.le_refl _)
    have hfun : (fun v => specLossFrom Real.exp n t 0
        (Matrix.tab (n.W (n.depth - 1)).rows 1 (fun q _ => sig Real.exp (γ v q)))) =
        fun v => ∑ j ∈ Finset.range (n.W (n.depth - 1)).rows,
          (sig Real.exp (γ v j) - t.entry j 0) ^ 2 := by
      funext v
      simp only [specLossFrom]
      rw [← hR]
      apply Finset.sum_congr rfl
      intro j hj
      rw [Matrix.entry_tab _ _ _ (Finset.mem_range.1 hj) Nat.one_pos]
    rw [hfun]
    have hsum : HasDerivAt (fun v => ∑ j ∈ Finset.range (n.W (n.depth - 1)).rows,
          (sig Real.exp (γ v j) - t.entry j 0) ^ 2)
        (∑ j ∈ Finset.range (n.W (n.depth - 1)).rows,
          ((2 : Nat) : ℝ) * (sig Real.exp (γ v0 j) - t.entry j 0) ^ (2 - 1) *
            (sig Real.exp (γ v0 j) * (1 - sig Real.exp (γ v0 j)) * γ' j)) v0 :=
      HasDerivAt.sum (fun j hj => ((sig_comp_hasDerivAt (hγ j (Finset.mem_range.1 hj))).sub_const
        (t.entry j 0)).pow 2)
    refine hsum.congr_deriv ?_
    apply Finset.sum_congr rfl
    intro q hq
    have hq2 : q < (specAct Real.exp n x n.depth).rows := by
      rw [ha.2.1, ← hR]; exact Finset.mem_range.1 hq
    simp only [specDeltaRev, specOutputDelta]
    rw [Matrix.entry_tab _ _ _ hq2 Nat.one_pos, hpt q (Finset.mem_range.1 hq)]
    simp only [Nat.cast_ofNat, Nat.add_one_sub_one, pow_one]
    ring
  | succ d ih =>
    intro hd γ γ' v0 hγ hpt
    have hd2 : d < n.depth := by omega
    have e1 : n.depth - (d + 1) = n.depth - 1 - d := by omega
    have e2 : n.depth - 1 - (d + 1) + 1 = n.depth - 1 - d := by omega
    have e3 : n.depth - 1 - d + 1 = n.depth - d := by omega
    obtain ⟨_, _, hr0, _, _, _⟩ := hn.layer (by omega : n.depth - 1 - (d + 1) < n.depth)
    obtain ⟨_, _, _, hc1, _, _⟩ := hn.layer (by omega : n.depth - 1 - d < n.depth)
    have hRC : (n.W (n.depth - 1 - d)).cols = (n.W (n.depth - 1 - (d + 1))).rows := by
      rw [hc1, hr0, e2]
    rw [e1] at hpt
    have hfun : (fun v => specLossFrom Real.exp n t (d + 1)
        (Matrix.tab (n.W (n.depth - 1 - (d + 1))).rows 1 (fun q _ => sig Real.exp (γ v q)))) =
        fun v => specLossFrom Real.exp n t d
          (Matrix.tab (n.W (n.depth - 1 - d)).rows 1 (fun q _ => sig Real.exp
            (∑ k ∈ Finset.range (n.W (n.depth - 1 - d)).cols,
              (n.W (n.depth - 1 - d)).entry q k * sig Real.exp (γ v k) +
              (n.B (n.depth - 1 - d)).entry q 0))) := by
      funext v
      show specLossFrom Real.exp n t d (specLayer Real.exp (n.W (n.depth - 1 - d))
        (n.B (n.depth - 1 - d)) _) = _
      refine congrArg (specLossFrom Real.exp n t d) ?_
      unfold specLayer
      apply Matrix.tab_congr
      intro q b _ _
      refine congrArg (fun s => sig Real.exp (s + (n.B (n.depth - 1 - d)).entry q 0)) ?_
      apply Finset.sum_congr rfl
      intro k hk
      rw [Matrix.entry_tab _ _ _ (by rw [← hRC]; exact Finset.mem_range.1 hk) Nat.one_pos]
    rw [hfun]
    have hγ2 : ∀ q, q < (n.W (n.depth - 1 - d)).rows →
        HasDerivAt (fun v => ∑ k ∈ Finset.range (n.W (n.depth - 1 - d)).cols,
            (n.W (n.depth - 1 - d)).entry q k * sig Real.exp (γ v k) +
            (n.B (n.depth - 1 - d)).entry q 0)
          (∑ k ∈ Finset.range (n.W (n.depth - 1 - d)).cols,
            (n.W (n.depth - 1 - d)).entry q k *
              (sig Real.exp (γ v0 k) * (1 - sig Real.exp (γ v0 k)) * γ' k)) v0 := by
      intro q _
      have hs : HasDerivAt (fun v => ∑ k ∈ Finset.range (n.W (n.depth - 1 - d)).cols,
            (n.W (n.depth - 1 - d)).entry q k * sig Real.exp (γ v k))
          (∑ k ∈ Finset.range (n.W (n.depth - 1 - d)).cols,
            (n.W (n.depth - 1 - d)).entry q k *
              (sig Real.exp (γ v0 k) * (1 - sig Real.exp (γ v0 k)) * γ' k)) v0 :=
        HasDerivAt.sum (fun k hk =>
          (sig_comp_hasDerivAt (hγ k (by rw [← hRC]; exact Finset.mem_range.1 hk))).const_mul
            ((n.W (n.depth - 1 - d)).entry q k))
      exact hs.add_const _
    have hpt2 : ∀ q, q < (n.W (n.depth - 1 - d)).rows →
        sig Real.exp (∑ k ∈ Finset.range (n.W (n.depth - 1 - d)).cols,
            (n.W (n.depth - 1 - d)).entry q k * sig Real.exp (γ v0 k) +
            (n.B (n.depth - 1 - d)).entry q 0) =
          (specAct Real.exp n x (n.depth - d)).entry q 0 := by
      intro q hq
      have hs : specAct Real.exp n x (n.depth - d) =
          specLayer Real.exp (n.W (n.depth - 1 - d)) (n.B (n.depth - 1 - d))
            (specAct Real.exp n x (n.depth - 1 - d)) := by
        rw [← e3]; rfl
      rw [hs]
      unfold specLayer
      rw [Matrix.entry_tab _ _ _ hq Nat.one_pos]
      refine congrArg (fun s => sig Real.exp (s + (n.B (n.depth - 1 - d)).entry q 0)) ?_
      apply Finset.sum_congr rfl
      intro k hk
      rw [hpt k (by rw [← hRC]; exact Finset.mem_range.1 hk)]
    have hstep := ih hd2
      (fun v q => ∑ k ∈ Finset.range (n.W (n.depth - 1 - d)).cols,
        (n.W (n.depth - 1 - d)).entry q k * sig Real.exp (γ v k) +
        (n.B (n.depth - 1 - d)).entry q 0)
      (fun q => ∑ k ∈ Finset.range (n.W (n.depth - 1 - d)).cols,
        (n.W (n.depth - 1 - d)).entry q k *
          (sig Real.exp (γ v0 k) * (1 - sig Real.exp (γ v0 k)) * γ' k)) v0 hγ2 hpt2
    refine hstep.congr_deriv ?_
    simp only [specDeltaRev, specHiddenDelta]
    rw [← hRC]
    simp only [Finset.mul_sum]
    rw [Finset.sum_comm]
    apply Finset.sum_congr rfl
    intro k hk
    rw [Matrix.entry_tab _ _ _ (Finset.mem_range.1 hk) Nat.one_pos,
      hpt k (by rw [← hRC]; exact Finset.mem_range.1 hk), Finset.sum_mul, Finset.sum_mul]
    apply Finset.sum_congr rfl
    intro q _
    ring

end MLP

end MLPSpec
namespace MLPSpec

namespace MLP

variable {T : Type}

/-- The summed squared error of a sample, seen from the activation that enters
the last `m` layers. -/
theorem specLossFrom_specAct [Field T] (exp : T → T) (n : MLP T) (x t : Matrix T) :
    ∀ m, m ≤ n.depth →
      specLossFrom exp n t m (specAct exp n x (n.depth - m)) =
        ∑ j ∈ Finset.range (n.dim n.depth),
          ((specAct exp n x n.depth).entry j 0 - t.entry j 0) ^ 2
  | 0, _ => rfl
  | m + 1, hm => by
    have ih := specLossFrom_specAct exp n x t m (by omega)
    have e1 : n.depth - m = (n.depth - 1 - m) + 1 := by omega
    have e2 : n.depth - (m + 1) = n.depth - 1 - m := by omega
    rw [e1] at ih
    rw [e2]
    exact ih

theorem withLayer_W (n : MLP T) {i : Nat} (hi : i < n.depth) (w b : Matrix T) (k : Nat) :
    (n.withLayer i w b).W k = if k = i then w else n.W k :=
  getD_set n.weights i k w Matrix.empty hi

theorem withLayer_B {n : MLP T} (hn : n.WF) {i : Nat} (hi : i < n.depth) (w b : Matrix T)
    (k : Nat) : (n.withLayer i w b).B k = if k = i then b else n.B k :=
  getD_set n.biases i k b Matrix.empty (by rw [hn.2.1, ← hn.1]; exact hi)

theorem withLayer_depth (n : MLP T) (i : Nat) (w b : Matrix T) :
    (n.withLayer i w b).depth = n.depth := by
  simp [withLayer, depth]

theorem withLayer_WF {n : MLP T} (hn : n.WF) {i : Nat} (hi : i < n.depth) {w b : Matrix T}
    (hw : w.WF) (hwr : w.rows = (n.W i).rows) (hwc : w.cols = (n.W i).cols) (hb : b.WF)
    (hbr : b.rows = (n.B i).rows) (hbc : b.cols = (n.B i).cols) : (n.withLayer i w b).WF := by
  have h1 := hn.set_weight hi hw hwr hwc
  have hib : i < n.biases.length := by rw [hn.2.1, ← hn.1]; exact hi
  have hB : ({ n with weights := n.weights.set i w } : MLP T).B i = n.B i := rfl
  exact h1.set_bias hib hb (by rw [hB]; exact hbr) (by rw [hB]; exact hbc)

/-- The activations up to layer `i` do not depend on the parameters of layer `i`. -/
theorem withLayer_specAct [Field T] (exp : T → T) {n : MLP T} (hn : n.WF) {i : Nat}
    (hi : i < n.depth) (w b x : Matrix T) :
    ∀ k, k ≤ i → specAct exp (n.withLayer i w b) x k = specAct exp n x k
  | 0, _ => rfl
  | k + 1, hk => by
    have ih := withLayer_specAct exp hn hi w b x k (by omega)
    have hne : ¬ k = i := by omega
    show specLayer exp ((n.withLayer i w b).W k) ((n.withLayer i w b).B k)
      (specAct exp (n.withLayer i w b) x k) = specLayer exp (n.W k) (n.B k) (specAct exp n x k)
    rw [ih, withLayer_W n hi, withLayer_B hn hi, if_neg hne, if_neg hne]

/-- The activation after layer `i` of the network with layer `i` replaced. -/
theorem withLayer_specAct_succ [Field T] (exp : T → T) {n : MLP T} (hn : n.WF) {i : Nat}
    (hi : i < n.depth) (w b x : Matrix T) :
    specAct exp (n.withLayer i w b) x (i + 1) = specLayer exp w b (specAct exp n x i) := by
  show specLayer exp ((n.withLayer i w b).W i) ((n.withLayer i w b).B i)
    (specAct exp (n.withLayer i w b) x i) = _
  rw [withLayer_specAct exp hn hi w b x i (Nat.le_refl _), withLayer_W n hi,
    withLayer_B hn hi, if_pos rfl, if_pos rfl]

/-- The layers after layer `i` do not depend on the parameters of layer `i`. -/
theorem withLayer_specLossFrom [Field T] (exp : T → T) {n : MLP T} (hn : n.WF) {i : Nat}
    (hi : i < n.depth) (w b t : Matrix T) :
    ∀ m, m ≤ n.depth - 1 - i → ∀ a,
      specLossFrom exp (n.withLayer i w b) t m a = specLossFrom exp n t m a
  | 0, _, a => by
    show ∑ j ∈ Finset.range ((n.withLayer i w b).dim (n.withLayer i w b).depth),
      (a.entry j 0 - t.entry j 0) ^ 2 = _
    rw [withLayer_depth]
    rfl
  | m + 1, hm, a => by
    have hne : ¬ n.depth - 1 - m = i := by omega
    show specLossFrom exp (n.withLayer i w b) t m
      (specLayer exp ((n.withLayer i w b).W ((n.withLayer i w b).depth - 1 - m))
        ((n.withLayer i w b).B ((n.withLayer i w b).depth - 1 - m)) a) = _
    rw [withLayer_depth, withLayer_W n hi, withLayer_B hn hi, if_neg hne, if_neg hne,
      withLayer_specLossFrom exp hn hi w b t m (by omega)]
    rfl

/-- The summed squared error of a sample on the network with layer `i`
replaced, through the unchanged layers after it. -/
theorem withLayer_loss [Field T] (exp : T → T) {n : MLP T} (hn : n.WF) {i : Nat}
    (hi : i < n.depth) (w b x t : Matrix T) :
    ∑ j ∈ Finset.range (n.dim n.depth),
        ((specAct exp (n.withLayer i w b) x n.depth).entry j 0 - t.entry j 0) ^ 2 =
      specLossFrom exp n t (n.depth - 1 - i) (specLayer exp w b (specAct exp n x i)) := by
  have h1 := specLossFrom_specAct exp (n.withLayer i w b) x t (n.depth - 1 - i)
    (by rw [withLayer_depth]; omega)
  rw [withLayer_depth] at h1
  have e : n.depth - (n.depth - 1 - i) = i + 1 := by omega
  rw [e, withLayer_specAct_succ exp hn hi,
    withLayer_specLossFrom exp hn hi w b t _ (Nat.le_refl _)] at h1
  rw [h1]
  rfl

end MLP

end MLPSpec
namespace MLPSpec

namespace MLP

/-- The summed squared error of a sample as a function of the parameters of layer
`i`: when the pre-activations of the layer move along differentiable curves through
their actual values, its derivative is `sum over q of delta_i(q) * γ'(q)`. -/
theorem layer_loss_hasDerivAt {n : MLP ℝ} (hn : n.WF) {x : Matrix ℝ} (hx : IsCol x (n.dim 0))
    (t : Matrix ℝ) {i : Nat} (hi : i < n.depth) (w b : ℝ → Matrix ℝ) (γ' : Nat → ℝ) (v0 : ℝ)
    (hwr : ∀ v, (w v).rows = (n.W i).rows) (hwc : ∀ v, (w v).cols = (n.W i).cols)
    (hγ : ∀ q, q < (n.W i).rows →
      HasDerivAt (fun v => ∑ k ∈ Finset.range (n.W i).cols,
        (w v).entry q k * (specAct Real.exp n x i).entry k 0 + (b v).entry q 0) (γ' q) v0)
    (h0 : ∀ q, q < (n.W i).rows →
      ∑ k ∈ Finset.range (n.W i).cols,
        (w v0).entry q k * (specAct Real.exp n x i).entry k 0 + (b v0).entry q 0 =
      specPre Real.exp n x i q) :
    HasDerivAt (fun v => ∑ q ∈ Finset.range (n.dim n.depth),
        ((specAct Real.exp (n.withLayer i (w v) (b v)) x n.depth).entry q 0 - t.entry q 0) ^ 2)
      (∑ q ∈ Finset.range (n.W i).rows, (specDelta Real.exp n x t i).entry q 0 * γ' q) v0 := by
  have e1 : n.depth - 1 - (n.depth - 1 - i) = i := by omega
  have e2 : n.depth - (n.depth - 1 - i) = i + 1 := by omega
  have key := lossFrom_hasDerivAt hn hx t (n.depth - 1 - i) (by omega)
    (fun v q => ∑ k ∈ Finset.range (n.W i).cols,
      (w v).entry q k * (specAct Real.exp n x i).entry k 0 + (b v).entry q 0) γ' v0
  rw [e1, e2] at key
  have hfun : (fun v => ∑ q ∈ Finset.range (n.dim n.depth),
      ((specAct Real.exp (n.withLayer i (w v) (b v)) x n.depth).entry q 0 - t.entry q 0) ^ 2) =
      fun v => specLossFrom Real.exp n t (n.depth - 1 - i)
        (Matrix.tab (n.W i).rows 1 (fun q _ => sig Real.exp
          (∑ k ∈ Finset.range (n.W i).cols,
            (w v).entry q k * (specAct Real.exp n x i).entry k 0 + (b v).entry q 0))) := by
    funext v
    rw [withLayer_loss Real.exp hn hi]
    refine congrArg (specLossFrom Real.exp n t (n.depth - 1 - i)) ?_
    unfold specLayer
    rw [hwr v, hwc v]
  rw [hfun]
  refine key hγ ?_
  intro q hq
  rw [h0 q hq]
  show _ = (specLayer Real.exp (n.W i) (n.B i) (specAct Real.exp n x i)).entry q 0
  unfold specLayer
  rw [Matrix.entry_tab _ _ _ hq Nat.one_pos]
  rfl

theorem withEntry_entry {T : Type} [Zero T] (m : Matrix T) (j k : Nat) (v : T) {a b : Nat}
    (ha : a < m.rows) (hb : b < m.cols) :
    (m.withEntry j k v).entry a b = if a = j ∧ b = k then v else m.entry a b :=
  Matrix.entry_tab _ _ _ ha hb

/-- The partial derivative of the summed squared error of a sample with respect
to `weights[i](j,k)` is `delta_i(j) * activation_i(k)`. -/
theorem weight_loss_hasDerivAt {n : MLP ℝ} (hn : n.WF) {x : Matrix ℝ}
    (hx : IsCol x (n.dim 0)) (t : Matrix ℝ) {i j k : Nat} (hi : i < n.depth)
    (hj : j < (n.W i).rows) (hk : k < (n.W i).cols) :
    HasDerivAt (fun v => ∑ q ∈ Finset.range (n.dim n.depth),
        ((specAct Real.exp (n.withWeight i j k v) x n.depth).entry q 0 - t.entry q 0) ^ 2)
      ((specDelta Real.exp n x t i).entry j 0 * (specAct Real.exp n x i).entry k 0)
      ((n.W i).entry j k) := by
  have hbc : (n.B i).cols = 1 := (hn.layer hi).2.2.2.2.2
  have key := layer_loss_hasDerivAt hn hx t hi (fun v => (n.W i).withEntry j k v)
    (fun _ => n.B i) (fun q => if q = j then (specAct Real.exp n x i).entry k 0 else 0)
    ((n.W i).entry j k) (fun _ => rfl) (fun _ => rfl)
    (by
      intro q hq
      beta_reduce
      have hs : HasDerivAt (fun v => ∑ c ∈ Finset.range (n.W i).cols,
            ((n.W i).withEntry j k v).entry q c * (specAct Real.exp n x i).entry c 0)
          (∑ c ∈ Finset.range (n.W i).cols,
            if q = j ∧ c = k then (specAct Real.exp n x i).entry c 0 else 0)
          ((n.W i).entry j k) := by
        refine HasDerivAt.sum (fun c hc => ?_)
        simp only [withEntry_entry _ _ _ _ hq (Finset.mem_range.1 hc)]
        by_cases hcond : q = j ∧ c = k
        · simp only [hcond, and_self, if_true]
          simpa using (hasDerivAt_id ((n.W i).entry j k)).mul_const
            ((specAct Real.exp n x i).entry k 0)
        · simp only [hcond, if_false]
          exact hasDerivAt_const _ _
      have hsum : (∑ c ∈ Finset.range (n.W i).cols,
          if q = j ∧ c = k then (specAct Real.exp n x i).entry c 0 else 0) =
          if q = j then (specAct Real.exp n x i).entry k 0 else 0 := by
        by_cases hq2 : q = j
        · simp only [hq2, true_and, if_true, Finset.sum_ite_eq', Finset.mem_range, hk]
        · simp only [hq2, false_and, if_false, Finset.sum_const_zero]
      rw [← hsum]
      exact hs.add_const _)
    (by
      intro q hq
      beta_reduce
      unfold specPre
      refine congrArg (fun s => s + (n.B i).entry q 0) ?_
      apply Finset.sum_congr rfl
      intro c hc
      rw [withEntry_entry _ _ _ _ hq (Finset.mem_range.1 hc)]
      by_cases hcond : q = j ∧ c = k
      · rw [if_pos hcond, hcond.1, hcond.2]
      · rw [if_neg hcond])
  refine key.congr_deriv ?_
  simp only [mul_ite, mul_zero, Finset.sum_ite_eq', Finset.mem_range, hj, if_true]

/-- The partial derivative of the summed squared error of a sample with respect
to `biases[i](j,0)` is `delta_i(j)`. -/
theorem bias_loss_hasDerivAt {n : MLP ℝ} (hn : n.WF) {x : Matrix ℝ}
    (hx : IsCol x (n.dim 0)) (t : Matrix ℝ) {i j : Nat} (hi : i < n.depth)
    (hj : j < (n.W i).rows) :
    HasDerivAt (fun v => ∑ q ∈ Finset.range (n.dim n.depth),
        ((specAct Real.exp (n.withBias i j v) x n.depth).entry q 0 - t.entry q 0) ^ 2)
      ((specDelta Real.exp n x t i).entry j 0) ((n.B i).entry j 0) := by
  obtain ⟨_, _, hr, _, hbr, hbc⟩ := hn.layer hi
  have hR : (n.B i).rows = (n.W i).rows := by rw [hbr, hr]
  have key := layer_loss_hasDerivAt hn hx t hi (fun _ => n.W i)
    (fun v => (n.B i).withEntry j 0 v) (fun q => if q = j then 1 else 0)
    ((n.B i).entry j 0) (fun _ => rfl) (fun _ => rfl)
    (by
      intro q hq
      have hq2 : q < (n.B i).rows := by rw [hR]; exact hq
      have h01 : 0 < (n.B i).cols := by rw [hbc]; exact Nat.one_pos
      beta_reduce
      simp only [withEntry_entry _ _ _ _ hq2 h01]
      by_cases hcond : q = j
      · simp only [hcond, and_self, if_true]
        exact (hasDerivAt_id ((n.B i).entry j 0)).const_add _
      · simp only [hcond, false_and, if_false]
        exact hasDerivAt_const _ _)
    (by
      intro q hq
      have hq2 : q < (n.B i).rows := by rw [hR]; exact hq
      have h01 : 0 < (n.B i).cols := by rw [hbc]; exact Nat.one_pos
      beta_reduce
      unfold specPre
      rw [withEntry_entry _ _ _ _ hq2 h01]
      by_cases hcond : q = j
      · rw [if_pos ⟨hcond, rfl⟩, hcond]
      · rw [if_neg (fun h => hcond h.1)])
  refine key.congr_deriv ?_
  simp only [mul_ite, mul_one, mul_zero, Finset.sum_ite_eq', Finset.mem_range, hj, if_true]

end MLP

end MLPSpec
namespace MLPSpec

namespace MLP

/-- The derivative of the mean squared error of a data set with respect to a
parameter of layer `i`, from the derivatives of the errors of the samples. -/
theorem withLayer_mse_hasDerivAt (n : MLP ℝ) (i : Nat) (w b : ℝ → Matrix ℝ)
    (trI trT : List (Matrix ℝ)) (D : Nat → ℝ) (v0 : ℝ)
    (hs : ∀ s, s < trI.length →
      HasDerivAt (fun v => ∑ q ∈ Finset.range (n.dim n.depth),
        ((specAct Real.exp (n.withLayer i (w v) (b v)) (trI.getD s Matrix.empty) n.depth).entry
          q 0 - (trT.getD s Matrix.empty).entry q 0) ^ 2) (D s) v0) :
    HasDerivAt (fun v => specTotalLoss Real.exp (n.withLayer i (w v) (b v)) trI trT /
        ((trI.length : Nat) : ℝ))
      ((∑ s ∈ Finset.range trI.length, D s) * (1 / ((trI.length : Nat) : ℝ))) v0 := by
  have hfun : (fun v => specTotalLoss Real.exp (n.withLayer i (w v) (b v)) trI trT /
      ((trI.length : Nat) : ℝ)) =
      fun v => (∑ s ∈ Finset.range trI.length, ∑ q ∈ Finset.range (n.dim n.depth),
        ((specAct Real.exp (n.withLayer i (w v) (b v)) (trI.getD s Matrix.empty) n.depth).entry
          q 0 - (trT.getD s Matrix.empty).entry q 0) ^ 2) / ((trI.length : Nat) : ℝ) := by
    funext v
    unfold specTotalLoss
    rw [withLayer_depth]
    simp only [Finset.sum_range_one]
    rfl
  rw [hfun]
  have hsum : HasDerivAt (fun v => ∑ s ∈ Finset.range trI.length,
      ∑ q ∈ Finset.range (n.dim n.depth),
        ((specAct Real.exp (n.withLayer i (w v) (b v)) (trI.getD s Matrix.empty) n.depth).entry
          q 0 - (trT.getD s Matrix.empty).entry q 0) ^ 2)
      (∑ s ∈ Finset.range trI.length, D s) v0 :=
    HasDerivAt.sum (fun s hs2 => hs s (Finset.mem_range.1 hs2))
  exact (hsum.div_const _).congr_deriv (div_eq_mul_one_div _ _)

/-- The delta of unit `j` of layer `i` is the derivative of the summed squared
error of the sample with respect to the pre-activation of that unit. -/
theorem delta_hasDerivAt {n : MLP ℝ} (hn : n.WF) {x : Matrix ℝ} (hx : IsCol x (n.dim 0))
    (t : Matrix ℝ) {i j : Nat} (hi : i < n.depth) (hj : j < (n.W i).rows) :
    HasDerivAt (fun z => specLossFrom Real.exp n t (n.depth - 1 - i)
        (Matrix.tab (n.W i).rows 1 (fun q _ =>
          sig Real.exp (if q = j then z else specPre Real.exp n x i q))))
      ((specDelta Real.exp n x t i).entry j 0) (specPre Real.exp n x i j) := by
  have e1 : n.depth - 1 - (n.depth - 1 - i) = i := by omega
  have e2 : n.depth - (n.depth - 1 - i) = i + 1 := by omega
  have key := lossFrom_hasDerivAt hn hx t (n.depth - 1 - i) (by omega)
    (fun z q => if q = j then z else specPre Real.exp n x i q)
    (fun q => if q = j then 1 else 0) (specPre Real.exp n x i j)
  rw [e1, e2] at key
  refine (key ?_ ?_).congr_deriv ?_
  · intro q _
    by_cases hq : q = j
    · simp only [hq, if_true]
      exact hasDerivAt_id _
    · simp only [hq, if_false]
      exact hasDerivAt_const _ _
  · intro q hq
    have hv : (if q = j then specPre Real.exp n x i j else specPre Real.exp n x i q) =
        specPre Real.exp n x i q := by
      by_cases hq2 : q = j
      · rw [if_pos hq2, hq2]
      · rw [if_neg hq2]
    rw [hv]
    show _ = (specLayer Real.exp (n.W i) (n.B i) (specAct Real.exp n x i)).entry q 0
    unfold specLayer
    rw [Matrix.entry_tab _ _ _ hq Nat.one_pos]
    rfl
  · show (∑ q ∈ Finset.range (n.W i).rows,
      (specDelta Real.exp n x t i).entry q 0 * (if q = j then (1 : ℝ) else 0)) = _
    simp only [mul_ite, mul_one, mul_zero, Finset.sum_ite_eq', Finset.mem_range, hj, if_true]

theorem withWeight_self {T : Type} [Zero T] {n : MLP T} (hn : n.WF) {i : Nat}
    (hi : i < n.depth) (j k : Nat) : n.withWeight i j k ((n.W i).entry j k) = n := by
  have hw : (n.W i).withEntry j k ((n.W i).entry j k) = n.W i := by
    have e := Matrix.eq_tab (hn.layer hi).1
    unfold Matrix.withEntry
    refine Eq.trans (Matrix.tab_congr _ _ _ _ ?_) e.symm
    intro a b _ _
    by_cases h : a = j ∧ b = k
    · rw [if_pos h, h.1, h.2]
    · rw [if_neg h]
  unfold withWeight withLayer
  rw [hw, set_self_of_idx (hn.idx_weights hi), set_self_of_idx (hn.idx_biases hi)]

theorem withBias_self {T : Type} [Zero T] {n : MLP T} (hn : n.WF) {i : Nat}
    (hi : i < n.depth) (j : Nat) : n.withBias i j ((n.B i).entry j 0) = n := by
  have hb : (n.B i).withEntry j 0 ((n.B i).entry j 0) = n.B i := by
    have e := Matrix.eq_tab (hn.layer hi).2.1
    unfold Matrix.withEntry
    refine Eq.trans (Matrix.tab_congr _ _ _ _ ?_) e.symm
    intro a b _ _
    by_cases h : a = j ∧ b = 0
    · rw [if_pos h, h.1, h.2]
    · rw [if_neg h]
  unfold withBias withLayer
  rw [hb, set_self_of_idx (hn.idx_weights hi), set_self_of_idx (hn.idx_biases hi)]

end MLP

/-- C3: over the real numbers with `sigmoid(x) = 1 / (1 + exp(-x))`, on a
well-formed network (at least two and at most `2^31` layer sizes) and a
non-empty valid training set, one epoch of `trainWithValidation` returns and is
one step of gradient descent on the mean squared error that `evaluate` computes
on the training set: for every weight (and every bias) there is the function
`mse` that `evaluate` returns when that parameter alone is replaced by `v`, it
has a derivative `g` at the current value of the parameter, and the epoch
replaces the parameter by its value minus `learningRate * g`.  Moreover the
delta `deltas[i](j)` that the backward pass of the code computes for a sample is
the derivative of the summed squared error of the sample with respect to the
pre-activation of unit `j` of layer `i + 1`, the error being taken through the
layers after it (`specLossFrom`), which at the actual pre-activations is the
summed squared error of the output of the sample. -/
theorem gradient_contract (n : MLP ℝ) (trI trT vI vT : List (Matrix ℝ)) (verbose : Bool)
    (hn : n.WF) (hlen : 2 ≤ n.layerSizes.length) (hmax : n.layerSizes.length ≤ 2 ^ 31)
    (htr : ValidData n trI trT) (_hne : trI ≠ [])
    (hva : verbose = true → ValidData n vI vT) :
    ∃ r : MLP ℝ × List (Nat × ℝ × ℝ),
      MLP.trainWithValidation Real.exp n trI trT vI vT 1 verbose = .ok r ∧
      ∀ i, i < n.layerSizes.length - 1 →
        (∀ j k, j < (n.W i).rows → k < (n.W i).cols →
          ∃ (mse : ℝ → ℝ) (g : ℝ),
            (∀ v, MLP.evaluate Real.exp (n.withWeight i j k v) trI trT =
              .ok (mse v, n.withWeight i j k v)) ∧
            MLP.evaluate Real.exp n trI trT = .ok (mse ((n.W i).entry j k), n) ∧
            HasDerivAt mse g ((n.W i).entry j k) ∧
            (r.1.W i).entry j k = (n.W i).entry j k - n.learningRate * g) ∧
        (∀ j, j < (n.B i).rows →
          ∃ (mse : ℝ → ℝ) (g : ℝ),
            (∀ v, MLP.evaluate Real.exp (n.withBias i j v) trI trT =
              .ok (mse v, n.withBias i j v)) ∧
            MLP.evaluate Real.exp n trI trT = .ok (mse ((n.B i).entry j 0), n) ∧
            HasDerivAt mse g ((n.B i).entry j 0) ∧
            (r.1.B i).entry j 0 = (n.B i).entry j 0 - n.learningRate * g) ∧
        (∀ s j, s < trI.length → j < (n.W i).rows →
          ∃ (acts deltas lins : List (Matrix ℝ)) (out err : Matrix ℝ),
            MLP.forwardCache Real.exp n (trI.getD s Matrix.empty) = .ok (acts, lins) ∧
            back acts = .ok out ∧ out.sub (trT.getD s Matrix.empty) = .ok err ∧
            MLP.backward n acts err = .ok deltas ∧
            HasDerivAt (fun z => MLP.specLossFrom Real.exp n (trT.getD s Matrix.empty)
                (n.depth - 1 - i) (Matrix.tab (n.W i).rows 1 (fun q _ => MLP.sig Real.exp
                  (if q = j then z else MLP.specPre Real.exp n (trI.getD s Matrix.empty) i q))))
              ((deltas.getD i Matrix.empty).entry j 0)
              (MLP.specPre Real.exp n (trI.getD s Matrix.empty) i j) ∧
            MLP.specLossFrom Real.exp n (trT.getD s Matrix.empty) (n.depth - 1 - i)
                (Matrix.tab (n.W i).rows 1 (fun q _ => MLP.sig Real.exp
                  (MLP.specPre Real.exp n (trI.getD s Matrix.empty) i q))) =
              ∑ q ∈ Finset.range out.rows,
                (out.entry q 0 - (trT.getD s Matrix.empty).entry q 0) ^ 2) := by
  have hL : 1 ≤ n.depth := hn.depth_pos hlen
  have hd : n.depth = n.layerSizes.length - 1 := hn.1
  have hL2 : n.depth < 2 ^ 31 := by omega
  have htrain : MLP.trainWithValidation Real.exp n trI trT vI vT 1 verbose = _ :=
    MLP.trainWithValidation_eq Real.exp hn hL hL2 htr verbose hva 1
  refine ⟨_, htrain, ?_⟩
  intro i hi
  have hi2 : i < n.depth := by omega
  have e1 : (1 : Int).toNat = 1 := rfl
  obtain ⟨hw, hb, hr, _, hbr, hbc⟩ := hn.layer hi2
  have hR : (n.B i).rows = (n.W i).rows := by rw [hbr, hr]
  have hW : (MLP.specTrain Real.exp n trI trT (1 : Int).toNat).W i =
      Matrix.tab (n.W i).rows (n.W i).cols (fun j k =>
        (n.W i).entry j k - n.learningRate *
          (MLP.specWeightGradient Real.exp n trI trT i j k * (1 / ((trI.length : Nat) : ℝ)))) := by
    rw [e1]
    exact getD_map_range _ _ _ hi2
  have hB : (MLP.specTrain Real.exp n trI trT (1 : Int).toNat).B i =
      Matrix.tab (n.B i).rows 1 (fun j _ =>
        (n.B i).entry j 0 - n.learningRate *
          (MLP.specBiasGradient Real.exp n trI trT i j * (1 / ((trI.length : Nat) : ℝ)))) := by
    rw [e1]
    exact getD_map_range _ _ _ hi2
  refine ⟨?_, ?_, ?_⟩
  · intro j k hj hk
    have hev : ∀ v, MLP.evaluate Real.exp (n.withWeight i j k v) trI trT =
        .ok (MLP.specTotalLoss Real.exp (n.withWeight i j k v) trI trT /
          ((trI.length : Nat) : ℝ), n.withWeight i j k v) := by
      intro v
      have hwf : (n.withWeight i j k v).WF :=
        MLP.withLayer_WF hn hi2 (Matrix.tab_WF _ _ _) rfl rfl hb rfl rfl
      exact MLP.evaluate_eq_spec Real.exp hwf (MLP.validData_transfer htr hn hwf rfl)
    refine ⟨fun v => MLP.specTotalLoss Real.exp (n.withWeight i j k v) trI trT /
        ((trI.length : Nat) : ℝ),
      MLP.specWeightGradient Real.exp n trI trT i j k * (1 / ((trI.length : Nat) : ℝ)),
      hev, ?_, ?_, ?_⟩
    · beta_reduce
      rw [MLP.withWeight_self hn hi2]
      exact MLP.evaluate_eq_spec Real.exp hn htr
    · exact MLP.withLayer_mse_hasDerivAt n i (fun v => (n.W i).withEntry j k v)
        (fun _ => n.B i) trI trT _ _
        (fun s hs => MLP.weight_loss_hasDerivAt hn (htr.input hs) _ hi2 hj hk)
    · rw [hW, Matrix.entry_tab _ _ _ hj hk]
  · intro j hj
    have hj2 : j < (n.W i).rows := by rw [← hR]; exact hj
    have hev : ∀ v, MLP.evaluate Real.exp (n.withBias i j v) trI trT =
        .ok (MLP.specTotalLoss Real.exp (n.withBias i j v) trI trT /
          ((trI.length : Nat) : ℝ), n.withBias i j v) := by
      intro v
      have hwf : (n.withBias i j v).WF :=
        MLP.withLayer_WF hn hi2 hw rfl rfl (Matrix.tab_WF _ _ _) rfl rfl
      exact MLP.evaluate_eq_spec Real.exp hwf (MLP.validData_transfer htr hn hwf rfl)
    refine ⟨fun v => MLP.specTotalLoss Real.exp (n.withBias i j v) trI trT /
        ((trI.length : Nat) : ℝ),
      MLP.specBiasGradient Real.exp n trI trT i j * (1 / ((trI.length : Nat) : ℝ)),
      hev, ?_, ?_, ?_⟩
    · beta_reduce
      rw [MLP.withBias_self hn hi2]
      exact MLP.evaluate_eq_spec Real.exp hn htr
    · exact MLP.withLayer_mse_hasDerivAt n i (fun _ => n.W i)
        (fun v => (n.B i).withEntry j 0 v) trI trT _ _
        (fun s hs => MLP.bias_loss_hasDerivAt hn (htr.input hs) _ hi2 hj2)
    · rw [hB, Matrix.entry_tab _ _ _ hj Nat.one_pos]
  · intro s j hs hj
    have hx := htr.input hs
    have ht := htr.target hs
    have ha := MLP.specAct_isCol Real.exp hn hx n.depth (Nat.le_refl _)
    obtain ⟨lins, hfc⟩ := MLP.forwardCache_eq Real.exp hn hx
    refine ⟨_, _, lins, _, _, hfc, back_map_range n.depth _,
      Matrix.sub_eq ha.1 ht.1 (by rw [ha.2.1, ht.2.1]) (by rw [ha.2.2, ht.2.2]),
      MLP.backward_eq Real.exp hn hx hL hL2
        ⟨Matrix.tab_WF _ _ _, by rw [Matrix.tab_rows, ha.2.1], by rw [Matrix.tab_cols, ha.2.2]⟩
        (fun q hq => Matrix.entry_tab _ _ _ (by rw [ha.2.1]; exact hq)
          (by rw [ha.2.2]; exact Nat.one_pos)), ?_, ?_⟩
    · rw [getD_map_range _ _ _ hi2]
      exact MLP.delta_hasDerivAt hn hx _ hi2 hj
    · have h1 := MLP.specLossFrom_specAct Real.exp n (trI.getD s Matrix.empty)
        (trT.getD s Matrix.empty) (n.depth - 1 - i) (by omega)
      have e2 : n.depth - (n.depth - 1 - i) = i + 1 := by omega
      rw [e2] at h1
      rw [ha.2.1]
      exact h1

/-- C3, instance: one verbose epoch of `realNet` on one sample. -/
theorem gradient_contract_witness :
    realNet.WF ∧ 2 ≤ realNet.layerSizes.length ∧ realNet.layerSizes.length ≤ 2 ^ 31 ∧
    ValidData realNet [realInput] [realTarget] ∧ [realInput] ≠ [] ∧
    ∃ r : MLP ℝ × List (Nat × ℝ × ℝ),
      MLP.trainWithValidation Real.exp realNet [realInput] [realTarget] [realInput] [realTarget] 1 true = .ok r ∧
      ∀ i, i < realNet.layerSizes.length - 1 →
        (∀ j k, j < (realNet.W i).rows → k < (realNet.W i).cols →
          ∃ (mse : ℝ → ℝ) (g : ℝ),
            (∀ v, MLP.evaluate Real.exp (realNet.withWeight i j k v) [realInput] [realTarget] =
              .ok (mse v, realNet.withWeight i j k v)) ∧
            MLP.evaluate Real.exp realNet [realInput] [realTarget] = .ok (mse ((realNet.W i).entry j k), realNet) ∧
            HasDerivAt mse g ((realNet.W i).entry j k) ∧
            (r.1.W i).entry j k = (realNet.W i).entry j k - realNet.learningRate * g) ∧
        (∀ j, j < (realNet.B i).rows →
          ∃ (mse : ℝ → ℝ) (g : ℝ),
            (∀ v, MLP.evaluate Real.exp (realNet.withBias i j v) [realInput] [realTarget] =
              .ok (mse v, realNet.withBias i j v)) ∧
            MLP.evaluate Real.exp realNet [realInput] [realTarget] = .ok (mse ((realNet.B i).entry j 0), realNet) ∧
            HasDerivAt mse g ((realNet.B i).entry j 0) ∧
            (r.1.B i).entry j 0 = (realNet.B i).entry j 0 - realNet.learningRate * g) ∧
        (∀ s j, s < [realInput].length → j < (realNet.W i).rows →
          ∃ (acts deltas lins : List (Matrix ℝ)) (out err : Matrix ℝ),
            MLP.forwardCache Real.exp realNet ([realInput].getD s Matrix.empty) = .ok (acts, lins) ∧
            back acts = .ok out ∧ out.sub ([realTarget].getD s Matrix.empty) = .ok err ∧
            MLP.backward realNet acts err = .ok deltas ∧
            HasDerivAt (fun z => MLP.specLossFrom Real.exp realNet ([realTarget].getD s Matrix.empty)
                (realNet.depth - 1 - i) (Matrix.tab (realNet.W i).rows 1 (fun q _ => MLP.sig Real.exp
                  (if q = j then z else MLP.specPre Real.exp realNet ([realInput].getD s Matrix.empty) i q))))
              ((deltas.getD i Matrix.empty).entry j 0)
              (MLP.specPre Real.exp realNet ([realInput].getD s Matrix.empty) i j) ∧
            MLP.specLossFrom Real.exp realNet ([realTarget].getD s Matrix.empty) (realNet.depth - 1 - i)
                (Matrix.tab (realNet.W i).rows 1 (fun q _ => MLP.sig Real.exp
                  (MLP.specPre Real.exp realNet ([realInput].getD s Matrix.empty) i q))) =
              ∑ q ∈ Finset.range out.rows,
                (out.entry q 0 - ([realTarget].getD s Matrix.empty).entry q 0) ^ 2) :=
  ⟨by decide, by decide, by decide, by decide, List.cons_ne_nil _ _,
    gradient_contract realNet [realInput] [realTarget] [realInput] [realTarget] true
      (by decide) (by decide) (by decide) (by decide) (List.cons_ne_nil _ _)
      (fun _ => by decide)⟩

end MLPSpec
namespace MLPSpec

/-- C21: over a commutative ring of components, `ComplexNumber` with the
componentwise `+` and `-` and with `*` returning
`(a.real * b.real - a.imag * b.imag, a.real * b.imag + a.imag * b.real)` is a
valid arithmetic substitute: addition and multiplication are commutative and
associative, multiplication distributes over addition, `(a + b) - b = a`,
`ComplexNumber(1, 0)` is the multiplicative identity, and the product with a
bare scalar `s` is the product with `ComplexNumber(s, 0)`. -/
theorem complex_arithmetic_contract {T : Type} [CommRing T] :
    (∀ a b : ComplexNumber T,
      a.add b = ⟨a.real + b.real, a.imag + b.imag⟩ ∧
      a.sub b = ⟨a.real - b.real, a.imag - b.imag⟩ ∧
      a.mul b = ⟨a.real * b.real - a.imag * b.imag, a.real * b.imag + a.imag * b.real⟩) ∧
    (∀ a b : ComplexNumber T, a.add b = b.add a) ∧
    (∀ a b c : ComplexNumber T, (a.add b).add c = a.add (b.add c)) ∧
    (∀ a b : ComplexNumber T, a.mul b = b.mul a) ∧
    (∀ a b c : ComplexNumber T, (a.mul b).mul c = a.mul (b.mul c)) ∧
    (∀ a b c : ComplexNumber T, a.mul (b.add c) = (a.mul b).add (a.mul c)) ∧
    (∀ a b c : ComplexNumber T, (a.add b).mul c = (a.mul c).add (b.mul c)) ∧
    (∀ a b : ComplexNumber T, (a.add b).sub b = a) ∧
    (∀ a : ComplexNumber T, a.mul ⟨1, 0⟩ = a ∧ (⟨1, 0⟩ : ComplexNumber T).mul a = a) ∧
    (∀ (a : ComplexNumber T) (s : T),
      a.smul s = a.mul ⟨s, 0⟩ ∧ a.smul s = a.mul (ComplexNumber.ofReal s)) := by
  refine ⟨fun a b => ⟨rfl, rfl, rfl⟩, ?_, ?_, ?_, ?_, ?_, ?_, ?_, ?_, ?_⟩
  · intro a b
    simp only [ComplexNumber.add, ComplexNumber.mk.injEq]
    exact ⟨add_comm _ _, add_comm _ _⟩
  · intro a b c
    simp only [ComplexNumber.add, ComplexNumber.mk.injEq]
    exact ⟨add_assoc _ _ _, add_assoc _ _ _⟩
  · intro a b
    simp only [ComplexNumber.mul, ComplexNumber.mk.injEq]
    constructor <;> ring
  · intro a b c
    simp only [ComplexNumber.mul, ComplexNumber.mk.injEq]
    constructor <;> ring
  · intro a b c
    simp only [ComplexNumber.mul, ComplexNumber.add, ComplexNumber.mk.injEq]
    constructor <;> ring
  · intro a b c
    simp only [ComplexNumber.mul, ComplexNumber.add, ComplexNumber.mk.injEq]
    constructor <;> ring
  · intro a b
    obtain ⟨ar, ai⟩ := a
    simp only [ComplexNumber.add, ComplexNumber.sub, ComplexNumber.mk.injEq]
    constructor <;> ring
  · intro a
    obtain ⟨ar, ai⟩ := a
    simp only [ComplexNumber.mul, ComplexNumber.mk.injEq]
    refine ⟨⟨?_, ?_⟩, ⟨?_, ?_⟩⟩ <;> ring
  · intro a s
    simp only [ComplexNumber.smul, ComplexNumber.mul, ComplexNumber.ofReal,
      ComplexNumber.mk.injEq]
    refine ⟨⟨?_, ?_⟩, ⟨?_, ?_⟩⟩ <;> ring

end MLPSpec
namespace MLPSpec

namespace MLP

variable {T : Type}

theorem specDelta_last [Field T] (exp : T → T) (n : MLP T) (x t : Matrix T) :
    specDelta exp n x t (n.depth - 1) = specOutputDelta (specAct exp n x n.depth) t := by
  unfold specDelta
  rw [Nat.sub_self]
  rfl

theorem specDelta_hidden [Field T] (exp : T → T) (n : MLP T) (x t : Matrix T) {i : Nat}
    (hi : i + 1 < n.depth) :
    specDelta exp n x t i =
      specHiddenDelta (n.W (i + 1)) (specAct exp n x (i + 1)) (specDelta exp n x t (i + 1)) := by
  unfold specDelta
  have e1 : n.depth - 1 - i = (n.depth - 1 - (i + 1)) + 1 := by omega
  have e2 : n.depth - 1 - (n.depth - 1 - (i + 1)) = i + 1 := by omega
  rw [e1]
  show specHiddenDelta (n.W (n.depth - 1 - (n.depth - 1 - (i + 1))))
    (specAct exp n x (n.depth - 1 - (n.depth - 1 - (i + 1))))
    (specDeltaRev exp n x t (n.depth - 1 - (i + 1))) = _
  rw [e2]

end MLP

/-- C22: on a well-formed network (at least two and at most `2^31` layer sizes)
with a column input and a column target, the cached forward pass returns the
activations `a_0 .. a_L` and the backward pass returns one delta per layer: the
delta of the output layer is
`2 * (a_L(j) - target(j)) * a_L(j) * (1 - a_L(j))`, the delta of every earlier
layer `i` is `(sum over k of weights[i+1](k,j) * delta_(i+1)(k)) * a_(i+1)(j) *
(1 - a_(i+1)(j))`, the factor `a * (1 - a)` being what `sigmoidDerivative`
returns on the cached activation, and `delta_i` is a column of
`layerSizes[i+1]` rows. -/
theorem backward_contract {T : Type} [Field T] (exp : T → T) (n : MLP T) (x t : Matrix T)
    (hn : n.WF) (hlen : 2 ≤ n.layerSizes.length) (hmax : n.layerSizes.length ≤ 2 ^ 31)
    (hx : IsCol x (n.dim 0)) (ht : IsCol t (n.dim n.depth)) :
    ∃ (acts deltas lins : List (Matrix T)) (out err : Matrix T),
      MLP.forwardCache exp n x = .ok (acts, lins) ∧ back acts = .ok out ∧
      out.sub t = .ok err ∧ MLP.backward n acts err = .ok deltas ∧
      acts.length = n.layerSizes.length ∧ deltas.length = n.layerSizes.length - 1 ∧
      out = acts.getD (n.layerSizes.length - 1) Matrix.empty ∧
      (∀ j, j < n.dim (n.layerSizes.length - 1) →
        (deltas.getD (n.layerSizes.length - 2) Matrix.empty).entry j 0 =
          2 * (out.entry j 0 - t.entry j 0) * out.entry j 0 * (1 - out.entry j 0)) ∧
      (∀ i, i + 2 < n.layerSizes.length → ∀ j, j < n.dim (i + 1) →
        (deltas.getD i Matrix.empty).entry j 0 =
          (∑ k ∈ Finset.range (n.dim (i + 2)),
            (n.W (i + 1)).entry k j * (deltas.getD (i + 1) Matrix.empty).entry k 0) *
          (acts.getD (i + 1) Matrix.empty).entry j 0 *
          (1 - (acts.getD (i + 1) Matrix.empty).entry j 0)) ∧
      (∀ i, i + 1 < n.layerSizes.length →
        IsCol (deltas.getD i Matrix.empty) (n.dim (i + 1)) ∧
        ∃ sd, MLP.sigmoidDerivative (acts.getD (i + 1) Matrix.empty) = .ok sd ∧
          ∀ j, j < n.dim (i + 1) →
            sd.entry j 0 = (acts.getD (i + 1) Matrix.empty).entry j 0 *
              (1 - (acts.getD (i + 1) Matrix.empty).entry j 0)) := by
  have hL : 1 ≤ n.depth := hn.depth_pos hlen
  have hd : n.depth = n.layerSizes.length - 1 := hn.1
  have hL2 : n.depth < 2 ^ 31 := by omega
  have ha := MLP.specAct_isCol exp hn hx n.depth (Nat.le_refl _)
  obtain ⟨lins, hfc⟩ := MLP.forwardCache_eq exp hn hx
  have hback := MLP.backward_eq exp hn hx (t := t) hL hL2
    (E := Matrix.tab (MLP.specAct exp n x n.depth).rows (MLP.specAct exp n x n.depth).cols
      (fun i j => (MLP.specAct exp n x n.depth).entry i j - t.entry i j))
    ⟨Matrix.tab_WF _ _ _, by rw [Matrix.tab_rows, ha.2.1], by rw [Matrix.tab_cols, ha.2.2]⟩
    (fun j hj => Matrix.entry_tab _ _ _ (by rw [ha.2.1]; exact hj)
      (by rw [ha.2.2]; exact Nat.one_pos))
  have e1 : n.layerSizes.length - 1 = n.depth := hd.symm
  have e2 : n.layerSizes.length - 2 = n.depth - 1 := by omega
  refine ⟨_, _, lins, _, _, hfc, back_map_range n.depth _,
    Matrix.sub_eq ha.1 ht.1 (by rw [ha.2.1, ht.2.1]) (by rw [ha.2.2, ht.2.2]), hback,
    ?_, ?_, ?_, ?_, ?_, ?_⟩
  · simp only [List.length_map, List.length_range]; omega
  · simp only [List.length_map, List.length_range]; omega
  · rw [e1, getD_map_range _ _ _ (by omega : n.depth < n.depth + 1)]
  · intro j hj
    rw [e1] at hj
    rw [e2, getD_map_range _ _ _ (by omega : n.depth - 1 < n.depth), MLP.specDelta_last]
    unfold MLP.specOutputDelta
    rw [Matrix.entry_tab _ _ _ (by rw [ha.2.1]; exact hj) Nat.one_pos]
    ring
  · intro i hi j hj
    have hi1 : i + 1 < n.depth := by omega
    obtain ⟨_, _, hr, hc, _, _⟩ := hn.layer hi1
    rw [getD_map_range _ _ _ (by omega : i < n.depth), getD_map_range _ _ _ hi1,
      getD_map_range _ _ _ (by omega : i + 1 < n.depth + 1), MLP.specDelta_hidden exp n x t hi1]
    unfold MLP.specHiddenDelta
    rw [Matrix.entry_tab _ _ _ (by rw [hc]; exact hj) Nat.one_pos, hr]
    ring
  · intro i hi
    have hi1 : i < n.depth := by omega
    have hcol := MLP.specDelta_isCol exp hn hx t hi1
    have hai := MLP.specAct_isCol exp hn hx (i + 1) (by omega)
    rw [(hn.layer hi1).2.2.1] at hcol
    rw [getD_map_range _ _ _ hi1, getD_map_range _ _ _ (by omega : i + 1 < n.depth + 1)]
    refine ⟨hcol, _, MLP.sigmoidDerivative_eq hai.1, ?_⟩
    intro j hj
    rw [Matrix.entry_tab _ _ _ (by rw [hai.2.1]; exact hj) (by rw [hai.2.2]; exact Nat.one_pos)]

/-- C22, instance: `exampleNet` on one sample. -/
theorem backward_contract_witness :
    exampleNet.WF ∧ 2 ≤ exampleNet.layerSizes.length ∧ exampleNet.layerSizes.length ≤ 2 ^ 31 ∧
    IsCol exampleInput (exampleNet.dim 0) ∧ IsCol exampleTarget (exampleNet.dim exampleNet.depth) ∧
    ∃ (acts deltas lins : List (Matrix ℚ)) (out err : Matrix ℚ),
      MLP.forwardCache exampleExp exampleNet exampleInput = .ok (acts, lins) ∧
      back acts = .ok out ∧ out.sub exampleTarget = .ok err ∧
      MLP.backward exampleNet acts err = .ok deltas ∧
      acts.length = exampleNet.layerSizes.length ∧
      deltas.length = exampleNet.layerSizes.length - 1 ∧
      out = acts.getD (exampleNet.layerSizes.length - 1) Matrix.empty ∧
      (∀ j, j < exampleNet.dim (exampleNet.layerSizes.length - 1) →
        (deltas.getD (exampleNet.layerSizes.length - 2) Matrix.empty).entry j 0 =
          2 * (out.entry j 0 - exampleTarget.entry j 0) * out.entry j 0 *
            (1 - out.entry j 0)) ∧
      (∀ i, i + 2 < exampleNet.layerSizes.length → ∀ j, j < exampleNet.dim (i + 1) →
        (deltas.getD i Matrix.empty).entry j 0 =
          (∑ k ∈ Finset.range (exampleNet.dim (i + 2)),
            (exampleNet.W (i + 1)).entry k j * (deltas.getD (i + 1) Matrix.empty).entry k 0) *
          (acts.getD (i + 1) Matrix.empty).entry j 0 *
          (1 - (acts.getD (i + 1) Matrix.empty).entry j 0)) ∧
      (∀ i, i + 1 < exampleNet.layerSizes.length →
        IsCol (deltas.getD i Matrix.empty) (exampleNet.dim (i + 1)) ∧
        ∃ sd, MLP.sigmoidDerivative (acts.getD (i + 1) Matrix.empty) = .ok sd ∧
          ∀ j, j < exampleNet.dim (i + 1) →
            sd.entry j 0 = (acts.getD (i + 1) Matrix.empty).entry j 0 *
              (1 - (acts.getD (i + 1) Matrix.empty).entry j 0)) :=
  ⟨by decide, by decide, by decide, by decide, by decide,
    backward_contract exampleExp exampleNet exampleInput exampleTarget (by decide) (by decide)
      (by decide) (by decide) (by decide)⟩

end MLPSpec
namespace MLPSpec

namespace MLP

variable {T : Type}

/-- The progress lines as a list over the epoch numbers. -/
theorem specLog_eq [Field T] (exp : T → T) (n : MLP T) (trI trT vI vT : List (Matrix T))
    (verbose : Bool) :
    ∀ E, specLog exp n trI trT vI vT verbose E =
      ((List.range E).filter (fun e => verbose && e % 100 == 0)).map (fun e =>
        (e, specTotalLoss exp (specTrain exp n trI trT e) trI trT *
            (1 / ((trI.length : Nat) : T)),
          specTotalLoss exp (specTrain exp n trI trT (e + 1)) vI vT /
            ((vI.length : Nat) : T)))
  | 0 => rfl
  | E + 1 => by
    have ih := specLog_eq exp n trI trT vI vT verbose E
    rw [List.range_succ, List.filter_append, List.map_append, ← ih]
    show specLog exp n trI trT vI vT verbose E ++ _ = _
    refine congrArg (fun l => specLog exp n trI trT vI vT verbose E ++ l) ?_
    by_cases hc : (verbose && E % 100 == 0) = true
    · simp only [hc, if_true, List.filter_cons_of_pos, List.filter_nil, List.map_cons,
        List.map_nil]
    · simp only [hc, if_false, Bool.false_eq_true, List.filter_cons_of_neg, List.filter_nil,
        List.map_nil, not_false_eq_true]

end MLP

/-- C23: on a well-formed network (at least two and at most `2^31` layer sizes)
and valid training data of `N` samples, `N` not zero as a scalar, there are the
networks `nets e` between the epochs of `trainWithValidation`: `nets 0` is the
network of the call, epoch `e` takes `nets e` to `nets (e + 1)`, and
`trainWithValidation` with `e` epochs returns `nets e`.  On every `nets e` the
forward pass written inline in the training loop ends in the activation that
`forward` returns.  The loss accumulated by epoch `e` times `1 / N` is what
`evaluate` returns on the training set with `nets e`, the parameters before the
update of that epoch, and the progress lines are written for the epochs that are
multiples of 100 when `verbose` holds, each with that training loss and with what
`evaluate` returns on the validation set with `nets (e + 1)`, the parameters after
the update. -/
theorem loss_report_contract {T : Type} [Field T] (exp : T → T) (n : MLP T)
    (trI trT vI vT : List (Matrix T)) (epochs : Int) (verbose : Bool) (hn : n.WF)
    (hlen : 2 ≤ n.layerSizes.length) (hmax : n.layerSizes.length ≤ 2 ^ 31)
    (htr : ValidData n trI trT) (_hN : ((trI.length : Nat) : T) ≠ 0)
    (hva : verbose = true → ValidData n vI vT) :
    ∃ (nets : Nat → MLP T) (trainLoss valLoss : Nat → T),
      nets 0 = n ∧
      (∀ e : Nat, ∃ total, MLP.epochStep exp (nets e) trI trT = .ok (nets (e + 1), total) ∧
        total * (1 / ((trI.length : Nat) : T)) = trainLoss e) ∧
      (∀ e : Nat, ∃ log,
        MLP.trainWithValidation exp n trI trT vI vT (e : Int) verbose = .ok (nets e, log)) ∧
      MLP.trainWithValidation exp n trI trT vI vT epochs verbose =
        .ok (nets epochs.toNat,
          ((List.range epochs.toNat).filter (fun e => verbose && e % 100 == 0)).map
            (fun e => (e, trainLoss e, valLoss e))) ∧
      (∀ e s, s < trI.length → ∃ acts lins out,
        MLP.forwardCache exp (nets e) (trI.getD s Matrix.empty) = .ok (acts, lins) ∧
        back acts = .ok out ∧
        MLP.forward exp (nets e) (trI.getD s Matrix.empty) = .ok (out, nets e)) ∧
      (∀ e, MLP.evaluate exp (nets e) trI trT = .ok (trainLoss e, nets e)) ∧
      (verbose = true →
        ∀ e, MLP.evaluate exp (nets (e + 1)) vI vT = .ok (valLoss e, nets (e + 1))) := by
  have hL : 1 ≤ n.depth := hn.depth_pos hlen
  have hd : n.depth = n.layerSizes.length - 1 := hn.1
  have hL2 : n.depth < 2 ^ 31 := by omega
  have hinv := MLP.specTrain_inv exp hn hL hL2 htr
  have hdep := MLP.specTrain_depth exp hn hL hL2 htr
  have hdata : ∀ e, ValidData (MLP.specTrain exp n trI trT e) trI trT :=
    fun e => MLP.validData_transfer htr hn (hinv e).1 (hinv e).2.1
  refine ⟨MLP.specTrain exp n trI trT,
    fun e => MLP.specTotalLoss exp (MLP.specTrain exp n trI trT e) trI trT /
      ((trI.length : Nat) : T),
    fun e => MLP.specTotalLoss exp (MLP.specTrain exp n trI trT (e + 1)) vI vT /
      ((vI.length : Nat) : T),
    rfl, ?_, ?_, ?_, ?_, ?_, ?_⟩
  · intro e
    exact ⟨_, MLP.epochStep_eq exp (hinv e).1 (by rw [hdep e]; exact hL)
      (by rw [hdep e]; exact hL2) (hdata e), (div_eq_mul_one_div _ _).symm⟩
  · intro e
    have h := MLP.trainWithValidation_eq exp hn hL hL2 htr verbose hva (e : Int)
    rw [Int.toNat_ofNat] at h
    exact ⟨_, h⟩
  · rw [MLP.trainWithValidation_eq exp hn hL hL2 htr verbose hva epochs,
      MLP.specLog_eq exp n trI trT vI vT verbose epochs.toNat]
    refine congrArg (fun l => Except.ok (MLP.specTrain exp n trI trT epochs.toNat, l)) ?_
    apply List.map_congr_left
    intro e _
    beta_reduce
    rw [div_eq_mul_one_div
      (MLP.specTotalLoss exp (MLP.specTrain exp n trI trT e) trI trT)]
  · intro e s hs
    have hx := (hdata e).input hs
    obtain ⟨lins, hfc⟩ := MLP.forwardCache_eq exp (hinv e).1 hx
    have hf := MLP.forward_eq exp (hinv e).1 hx
    rw [hdep e] at hfc
    rw [hdep e] at hf
    exact ⟨_, lins, _, hfc, back_map_range n.depth _, hf⟩
  · intro e
    exact MLP.evaluate_eq_spec exp (hinv e).1 (hdata e)
  · intro hv e
    exact MLP.evaluate_eq_spec exp (hinv (e + 1)).1
      (MLP.validData_transfer (hva hv) hn (hinv (e + 1)).1 (hinv (e + 1)).2.1)

/-- C23, instance: `tinyNet` trained for 201 verbose epochs on one sample. -/
theorem loss_report_contract_witness :
    tinyNet.WF ∧ 2 ≤ tinyNet.layerSizes.length ∧ tinyNet.layerSizes.length ≤ 2 ^ 31 ∧
    ValidData tinyNet [exampleInput] [exampleTarget] ∧
    (([exampleInput].length : Nat) : ℚ) ≠ 0 ∧
    ∃ (nets : Nat → MLP ℚ) (trainLoss valLoss : Nat → ℚ),
      nets 0 = tinyNet ∧
      (∀ e : Nat, ∃ total,
        MLP.epochStep unitExp (nets e) [exampleInput] [exampleTarget] =
          .ok (nets (e + 1), total) ∧
        total * (1 / (([exampleInput].length : Nat) : ℚ)) = trainLoss e) ∧
      (∀ e : Nat, ∃ log,
        MLP.trainWithValidation unitExp tinyNet [exampleInput] [exampleTarget] [secondInput]
          [secondTarget] (e : Int) true = .ok (nets e, log)) ∧
      MLP.trainWithValidation unitExp tinyNet [exampleInput] [exampleTarget] [secondInput]
          [secondTarget] 201 true =
        .ok (nets (201 : Int).toNat,
          ((List.range (201 : Int).toNat).filter (fun e => true && e % 100 == 0)).map
            (fun e => (e, trainLoss e, valLoss e))) ∧
      (∀ e s, s < [exampleInput].length → ∃ acts lins out,
        MLP.forwardCache unitExp (nets e) ([exampleInput].getD s Matrix.empty) =
          .ok (acts, lins) ∧
        back acts = .ok out ∧
        MLP.forward unitExp (nets e) ([exampleInput].getD s Matrix.empty) =
          .ok (out, nets e)) ∧
      (∀ e, MLP.evaluate unitExp (nets e) [exampleInput] [exampleTarget] =
        .ok (trainLoss e, nets e)) ∧
      (true = true →
        ∀ e, MLP.evaluate unitExp (nets (e + 1)) [secondInput] [secondTarget] =
          .ok (valLoss e, nets (e + 1))) :=
  ⟨by decide, by decide, by decide, by decide, by simp,
    loss_report_contract unitExp tinyNet [exampleInput] [exampleTarget] [secondInput]
      [secondTarget] 201 true (by decide) (by decide) (by decide) (by decide) (by simp)
      (fun _ => by decide)⟩

end MLPSpec
namespace MLPSpec

theorem ok_of_bind_pure {α β : Type} {x : Except Err α} {g : α → β} {b : β}
    (h : (x >>= fun a => pure (g a)) = .ok b) : ∃ a, x = .ok a ∧ g a = b := by
  cases x with
  | error e => exact absurd h (by simp [bind, Except.bind])
  | ok a =>
    refine ⟨a, rfl, ?_⟩
    simpa [bind, Except.bind, pure, Except.pure] using h

/-- C24: the network that `trainWithValidation` leaves does not depend on the
validation data or on the verbose flag.  Two calls from the same well-formed
network with the same training data and epoch count, each with valid validation
data and any verbose flag, have the same outcome as far as the network goes: the
one returns when the other does, and then the weights and biases (and the rest
of the network) are identical. -/
theorem validation_independence_contract {T : Type} [Field T] (exp : T → T) (n : MLP T)
    (trI trT vI vT vI2 vT2 : List (Matrix T)) (epochs : Int) (verbose verbose2 : Bool)
    (hn : n.WF) (hv : ValidData n vI vT) (hv2 : ValidData n vI2 vT2) :
    ((do let r ← MLP.trainWithValidation exp n trI trT vI vT epochs verbose
         pure r.1) =
     (do let r ← MLP.trainWithValidation exp n trI trT vI2 vT2 epochs verbose2
         pure r.1)) ∧
    ((∃ r, MLP.trainWithValidation exp n trI trT vI vT epochs verbose = .ok r) ↔
      (∃ r2, MLP.trainWithValidation exp n trI trT vI2 vT2 epochs verbose2 = .ok r2)) ∧
    (∀ r r2, MLP.trainWithValidation exp n trI trT vI vT epochs verbose = .ok r →
      MLP.trainWithValidation exp n trI trT vI2 vT2 epochs verbose2 = .ok r2 →
      r.1.weights = r2.1.weights ∧ r.1.biases = r2.1.biases ∧ r.1 = r2.1) := by
  have h1 := MLP.train_proj exp trI trT vI vT verbose epochs n (fun _ => ⟨hn, hv⟩)
  have h2 := MLP.train_proj exp trI trT vI2 vT2 verbose2 epochs n (fun _ => ⟨hn, hv2⟩)
  have heq : (MLP.trainWithValidation exp n trI trT vI vT epochs verbose >>=
        fun r => pure r.1) =
      (MLP.trainWithValidation exp n trI trT vI2 vT2 epochs verbose2 >>=
        fun r => pure r.1) := h1.trans h2.symm
  refine ⟨heq, ⟨?_, ?_⟩, ?_⟩
  · rintro ⟨r, hr⟩
    rw [hr] at heq
    obtain ⟨r2, hr2, _⟩ := ok_of_bind_pure heq.symm
    exact ⟨r2, hr2⟩
  · rintro ⟨r2, hr2⟩
    rw [hr2] at heq
    obtain ⟨r, hr, _⟩ := ok_of_bind_pure heq
    exact ⟨r, hr⟩
  · intro r r2 hr hr2
    rw [hr, hr2] at heq
    have e : r.1 = r2.1 := by
      simpa [bind, Except.bind, pure, Except.pure] using heq
    exact ⟨by rw [e], by rw [e], e⟩

/-- C24, instance: `tinyNet` trained for three epochs, verbose with one
validation set and silent with another. -/
theorem validation_independence_contract_witness :
    tinyNet.WF ∧ ValidData tinyNet [exampleInput] [exampleTarget] ∧
    ValidData tinyNet [secondInput, exampleInput] [secondTarget, exampleTarget] ∧
    (((do let r ← MLP.trainWithValidation unitExp tinyNet [exampleInput] [exampleTarget]
            [exampleInput] [exampleTarget] 3 true
          pure r.1) =
      (do let r ← MLP.trainWithValidation unitExp tinyNet [exampleInput] [exampleTarget]
            [secondInput, exampleInput] [secondTarget, exampleTarget] 3 false
          pure r.1)) ∧
    ((∃ r, MLP.trainWithValidation unitExp tinyNet [exampleInput] [exampleTarget]
        [exampleInput] [exampleTarget] 3 true = .ok r) ↔
      (∃ r2, MLP.trainWithValidation unitExp tinyNet [exampleInput] [exampleTarget]
        [secondInput, exampleInput] [secondTarget, exampleTarget] 3 false = .ok r2)) ∧
    (∀ r r2, MLP.trainWithValidation unitExp tinyNet [exampleInput] [exampleTarget]
        [exampleInput] [exampleTarget] 3 true = .ok r →
      MLP.trainWithValidation unitExp tinyNet [exampleInput] [exampleTarget]
        [secondInput, exampleInput] [secondTarget, exampleTarget] 3 false = .ok r2 →
      r.1.weights = r2.1.weights ∧ r.1.biases = r2.1.biases ∧ r.1 = r2.1)) :=
  ⟨by decide, by decide, by decide,
    validation_independence_contract unitExp tinyNet [exampleInput] [exampleTarget]
      [exampleInput] [exampleTarget] [secondInput, exampleInput]
      [secondTarget, exampleTarget] 3 true false (by decide) (by decide) (by decide)⟩

end MLPSpec
namespace MLPSpec

/-- A sum over the positions of a list is the sum of the list of the terms. -/
theorem sum_range_getD {α M : Type} [AddCommMonoid M] (g : α → M) (d : α) :
    ∀ l : List α, ∑ s ∈ Finset.range l.length, g (l.getD s d) = (l.map g).sum
  | [] => by simp
  | a :: l => by
    have ih := sum_range_getD g d l
    rw [List.length_cons, Finset.sum_range_succ', List.map_cons, List.sum_cons, add_comm]
    simp only [List.getD_cons_succ, List.getD_cons_zero]
    rw [ih]

theorem zip_getD {α β : Type} (d1 : α) (d2 : β) :
    ∀ (xs : List α) (ts : List β) (s : Nat), s < xs.length → s < ts.length →
      (xs.zip ts).getD s (d1, d2) = (xs.getD s d1, ts.getD s d2)
  | [], _, _, h, _ => absurd h (Nat.not_lt_zero _)
  | _ :: _, [], _, _, h => absurd h (Nat.not_lt_zero _)
  | _ :: _, _ :: _, 0, _, _ => rfl
  | _ :: xs, _ :: ts, s + 1, h1, h2 => by
    simp only [List.zip_cons_cons, List.getD_cons_succ]
    exact zip_getD d1 d2 xs ts s (Nat.lt_of_succ_lt_succ h1) (Nat.lt_of_succ_lt_succ h2)

/-- A sum over the samples as the sum of a list over the paired samples. -/
theorem sum_samples_eq {α β M : Type} [AddCommMonoid M] (F : α → β → M) (d1 : α) (d2 : β)
    (xs : List α) (ts : List β) (h : xs.length = ts.length) :
    ∑ s ∈ Finset.range xs.length, F (xs.getD s d1) (ts.getD s d2) =
      ((xs.zip ts).map (fun p => F p.1 p.2)).sum := by
  rw [← sum_range_getD (fun p : α × β => F p.1 p.2) (d1, d2) (xs.zip ts)]
  have hl : (xs.zip ts).length = xs.length := by
    rw [List.length_zip, ← h, Nat.min_self]
  rw [hl]
  apply Finset.sum_congr rfl
  intro s hs
  have hs1 := Finset.mem_range.1 hs
  rw [zip_getD d1 d2 xs ts s hs1 (h ▸ hs1)]

/-- A sum over the samples does not depend on the order of the samples. -/
theorem sum_samples_perm {α β M : Type} [AddCommMonoid M] (F : α → β → M) (d1 : α) (d2 : β)
    {xs xs2 : List α} {ts ts2 : List β} (h : xs.length = ts.length)
    (h2 : xs2.length = ts2.length) (hp : (xs.zip ts).Perm (xs2.zip ts2)) :
    ∑ s ∈ Finset.range xs.length, F (xs.getD s d1) (ts.getD s d2) =
      ∑ s ∈ Finset.range xs2.length, F (xs2.getD s d1) (ts2.getD s d2) := by
  rw [sum_samples_eq F d1 d2 xs ts h, sum_samples_eq F d1 d2 xs2 ts2 h2]
  exact (hp.map _).sum_eq

theorem perm_zip_length {α β : Type} {xs xs2 : List α} {ts ts2 : List β}
    (h : xs.length = ts.length) (h2 : xs2.length = ts2.length)
    (hp : (xs.zip ts).Perm (xs2.zip ts2)) : xs.length = xs2.length := by
  have := hp.length_eq
  rw [List.length_zip, List.length_zip, ← h, ← h2, Nat.min_self, Nat.min_self] at this
  exact this

theorem mem_zip_of_mem_left {α β : Type} :
    ∀ (xs : List α) (ts : List β), xs.length = ts.length → ∀ x ∈ xs, ∃ t, (x, t) ∈ xs.zip ts
  | [], _, _, _, hx => absurd hx (List.not_mem_nil _)
  | _ :: _, [], h, _, _ => absurd h (by simp)
  | a :: xs, b :: ts, h, x, hx => by
    rcases List.mem_cons.1 hx with rfl | hx2
    · exact ⟨b, List.mem_cons_self _ _⟩
    · obtain ⟨t, ht⟩ := mem_zip_of_mem_left xs ts (by simpa using h) x hx2
      exact ⟨t, List.mem_cons_of_mem _ ht⟩

theorem mem_zip_of_mem_right {α β : Type} :
    ∀ (xs : List α) (ts : List β), xs.length = ts.length → ∀ t ∈ ts, ∃ x, (x, t) ∈ xs.zip ts
  | _, [], _, _, ht => absurd ht (List.not_mem_nil _)
  | [], _ :: _, h, _, _ => absurd h (by simp)
  | a :: xs, b :: ts, h, t, ht => by
    rcases List.mem_cons.1 ht with rfl | ht2
    · exact ⟨a, List.mem_cons_self _ _⟩
    · obtain ⟨x, hx⟩ := mem_zip_of_mem_right xs ts (by simpa using h) t ht2
      exact ⟨x, List.mem_cons_of_mem _ hx⟩

/-- A jointly permuted valid data set is valid. -/
theorem validData_perm {T : Type} {n : MLP T} {xs xs2 ts ts2 : List (Matrix T)}
    (hd : ValidData n xs ts) (h2 : xs2.length = ts2.length)
    (hp : (xs.zip ts).Perm (xs2.zip ts2)) : ValidData n xs2 ts2 := by
  refine ⟨h2, ?_, ?_⟩
  · intro x hx
    obtain ⟨t, ht⟩ := mem_zip_of_mem_left xs2 ts2 h2 x hx
    exact hd.2.1 x (List.of_mem_zip (hp.mem_iff.2 ht)).1
  · intro t ht
    obtain ⟨x, hx⟩ := mem_zip_of_mem_right xs2 ts2 h2 t ht
    exact hd.2.2 t (List.of_mem_zip (hp.mem_iff.2 hx)).2

namespace MLP

variable {T : Type}

theorem specEpoch_perm [Field T] (exp : T → T) (n : MLP T) {xs xs2 ts ts2 : List (Matrix T)}
    (h : xs.length = ts.length) (h2 : xs2.length = ts2.length)
    (hp : (xs.zip ts).Perm (xs2.zip ts2)) : specEpoch exp n xs ts = specEpoch exp n xs2 ts2 := by
  have hl := perm_zip_length h h2 hp
  have hW : ∀ i j k, specWeightGradient exp n xs ts i j k =
      specWeightGradient exp n xs2 ts2 i j k := fun i j k =>
    sum_samples_perm (fun x t => (specDelta exp n x t i).entry j 0 *
      (specAct exp n x i).entry k 0) Matrix.empty Matrix.empty h h2 hp
  have hB : ∀ i j, specBiasGradient exp n xs ts i j = specBiasGradient exp n xs2 ts2 i j :=
    fun i j => sum_samples_perm (fun x t => (specDelta exp n x t i).entry j 0)
      Matrix.empty Matrix.empty h h2 hp
  unfold specEpoch
  simp only [hW, hB, hl]

theorem specTotalLoss_perm [Field T] (exp : T → T) (n : MLP T)
    {xs xs2 ts ts2 : List (Matrix T)} (h : xs.length = ts.length)
    (h2 : xs2.length = ts2.length) (hp : (xs.zip ts).Perm (xs2.zip ts2)) :
    specTotalLoss exp n xs ts = specTotalLoss exp n xs2 ts2 := by
  have key := @sum_samples_perm (Matrix T) (Matrix T) T _
    (fun x t => ∑ i ∈ Finset.range (n.dim n.depth),
      ∑ j ∈ Finset.range 1, ((specAct exp n x n.depth).entry i j - t.entry i j) ^ 2)
    Matrix.empty Matrix.empty xs xs2 ts ts2 h h2 hp
  beta_reduce at key
  unfold specTotalLoss
  exact key

theorem specTrain_perm [Field T] (exp : T → T) (n : MLP T) {xs xs2 ts ts2 : List (Matrix T)}
    (h : xs.length = ts.length) (h2 : xs2.length = ts2.length)
    (hp : (xs.zip ts).Perm (xs2.zip ts2)) :
    ∀ e, specTrain exp n xs ts e = specTrain exp n xs2 ts2 e
  | 0 => rfl
  | e + 1 => by
    show specEpoch exp (specTrain exp n xs ts e) xs ts =
      specEpoch exp (specTrain exp n xs2 ts2 e) xs2 ts2
    rw [specTrain_perm exp n h h2 hp e, specEpoch_perm exp _ h h2 hp]

theorem specLog_perm [Field T] (exp : T → T) (n : MLP T) {xs xs2 ts ts2 : List (Matrix T)}
    (vI vT : List (Matrix T)) (verbose : Bool) (h : xs.length = ts.length)
    (h2 : xs2.length = ts2.length) (hp : (xs.zip ts).Perm (xs2.zip ts2)) (E : Nat) :
    specLog exp n xs ts vI vT verbose E = specLog exp n xs2 ts2 vI vT verbose E := by
  rw [specLog_eq, specLog_eq]
  apply List.map_congr_left
  intro e _
  rw [specTrain_perm exp n h h2 hp e, specTrain_perm exp n h h2 hp (e + 1),
    specTotalLoss_perm exp _ h h2 hp, perm_zip_length h h2 hp]

end MLP

/-- C25: over a field, training does not depend on the order of the training
samples.  On a well-formed network (at least two and at most `2^31` layer sizes)
with a valid training set, for every joint permutation of the training inputs
and targets, `trainWithValidation` returns on both orders, and it returns the
same weights and biases (the same network and the same progress lines). -/
theorem sample_order_contract {T : Type} [Field T] (exp : T → T) (n : MLP T)
    (trI trT trI2 trT2 vI vT : List (Matrix T)) (epochs : Int) (verbose : Bool) (hn : n.WF)
    (hlen : 2 ≤ n.layerSizes.length) (hmax : n.layerSizes.length ≤ 2 ^ 31)
    (htr : ValidData n trI trT) (hlen2 : trI2.length = trT2.length)
    (hperm : (trI.zip trT).Perm (trI2.zip trT2))
    (hva : verbose = true → ValidData n vI vT) :
    ∃ r r2, MLP.trainWithValidation exp n trI trT vI vT epochs verbose = .ok r ∧
      MLP.trainWithValidation exp n trI2 trT2 vI vT epochs verbose = .ok r2 ∧
      r.1.weights = r2.1.weights ∧ r.1.biases = r2.1.biases ∧ r = r2 := by
  have hL : 1 ≤ n.depth := hn.depth_pos hlen
  have hd : n.depth = n.layerSizes.length - 1 := hn.1
  have hL2 : n.depth < 2 ^ 31 := by omega
  have htr2 := validData_perm htr hlen2 hperm
  have h1 := MLP.trainWithValidation_eq exp hn hL hL2 htr verbose hva epochs
  have h2 := MLP.trainWithValidation_eq exp hn hL hL2 htr2 verbose hva epochs
  have e1 := MLP.specTrain_perm exp n htr.1 hlen2 hperm epochs.toNat
  have e2 := MLP.specLog_perm exp n vI vT verbose htr.1 hlen2 hperm epochs.toNat
  refine ⟨_, _, h1, h2, ?_, ?_, ?_⟩
  · show (MLP.specTrain exp n trI trT epochs.toNat).weights = _
    rw [e1]
  · show (MLP.specTrain exp n trI trT epochs.toNat).biases = _
    rw [e1]
  · rw [e1, e2]

/-- C25, instance: `tinyNet` trained for two verbose epochs on two samples in
both orders. -/
theorem sample_order_contract_witness :
    tinyNet.WF ∧ 2 ≤ tinyNet.layerSizes.length ∧ tinyNet.layerSizes.length ≤ 2 ^ 31 ∧
    ValidData tinyNet [exampleInput, secondInput] [exampleTarget, secondTarget] ∧
    [secondInput, exampleInput].length = [secondTarget, exampleTarget].length ∧
    ([exampleInput, secondInput].zip [exampleTarget, secondTarget]).Perm
      ([secondInput, exampleInput].zip [secondTarget, exampleTarget]) ∧
    ∃ r r2,
      MLP.trainWithValidation unitExp tinyNet [exampleInput, secondInput]
        [exampleTarget, secondTarget] [exampleInput] [exampleTarget] 2 true = .ok r ∧
      MLP.trainWithValidation unitExp tinyNet [secondInput, exampleInput]
        [secondTarget, exampleTarget] [exampleInput] [exampleTarget] 2 true = .ok r2 ∧
      r.1.weights = r2.1.weights ∧ r.1.biases = r2.1.biases ∧ r = r2 :=
  ⟨by decide, by decide, by decide, by decide, rfl, List.Perm.swap _ _ _,
    sample_order_contract unitExp tinyNet [exampleInput, secondInput]
      [exampleTarget, secondTarget] [secondInput, exampleInput] [secondTarget, exampleTarget]
      [exampleInput] [exampleTarget] 2 true (by decide) (by decide) (by decide) (by decide)
      rfl (List.Perm.swap _ _ _) (fun _ => by decide)⟩

end MLPSpec
